import Mathlib

/-!
The databases, the package cache and the helpers of `dds`.

A shallow embedding of the persistent stores of `dds` and of the code around them:

* `src/dds/db/database.cpp`: the compilation database (`dds_source_files`,
  `dds_compilations`, `dds_compile_deps`, `dds_meta_1`);
* `src/dds/pkg/db.cpp`: the package database (`dds_pkg_remotes`, `dds_pkgs`,
  `dds_pkg_deps`, `dds_cat_meta`) and its migrations;
* `src/dds/pkg/remote.cpp`: the import of the index of a remote and the removal of a remote;
* `src/dds/pkg/cache.cpp`: the import of a source distribution into the package cache and
  the candidates handed to the dependency solver;
* `src/dds/dym.cpp`, `src/dds/cli/error_handler.cpp`, `src/dds/util/string.hpp`: the edit
  distance, the exit codes and the string utilities.

The C++ code drives SQLite through SQL text. Each table is a list of rows in
rowid order, each SQL statement is a function on those lists, and the
constraints SQLite enforces (PRIMARY KEY, UNIQUE, NOT NULL, REFERENCES) are
collected in a well-formedness predicate that the operations preserve.

Conventions of the embedding:

* SQL `INTEGER` values, rowids and `std::int64_t` values are `Int`; the
  arithmetic of the statements is not taken to the 64-bit boundary. The one
  place where a narrower machine integer is read (`int version` of the
  package database) is embedded with its explicit wrap-around.
* Paths are the strings `fs::weakly_canonical(p).generic_string()` yields;
  the operations receive paths in that canonical form.
* A statement that throws is an `Except` error.
-/

namespace dds

/-! ## SQL building blocks -/

/-- Errors the SQL layer raises (`neo::sqlite3::error`). -/
inductive sql_error where
  /-- A NOT NULL, UNIQUE or FOREIGN KEY constraint failed. -/
  | constraint
  /-- The statement given to `unpack_single` produced no row. -/
  | no_row
  /-- A statement names a table that does not exist, or creates one that does. -/
  | schema
  deriving DecidableEq, Repr

/-- The rowid SQLite gives a row inserted without an explicit `INTEGER PRIMARY KEY`
value: one more than the largest rowid in the table, and 1 in an empty table. -/
def next_rowid : List Int → Int
  | [] => 1
  | i :: is => (is.foldl max i) + 1

/-- SQL integer division `a / b`: NULL when the divisor is zero, otherwise the
quotient truncated toward zero. -/
def sql_div (a b : Int) : Option Int :=
  if b = 0 then none else some (Int.tdiv a b)

/-- The `neo::sqlite3::unpack_single` helper: the first row of a result, an error when
there is none. -/
def unpack_single {α : Type} : List α → Except sql_error α
  | [] => .error .no_row
  | r :: _ => .ok r

/-- The `neo::sqlite3::unpack_single_opt` helper: the first row of a result, if any. -/
def unpack_single_opt {α : Type} : List α → Option α
  | [] => none
  | r :: _ => some r

/-! ## The compilation database (`src/dds/db/database.cpp`) -/

/-- A row of `dds_source_files`. -/
structure source_file_row where
  file_id : Int
  path : String
  deriving DecidableEq, Repr

/-- A row of `dds_compilations`. -/
structure compilation_row where
  compile_id : Int
  file_id : Int
  command : String
  output : String
  n_compilations : Int
  avg_duration : Int
  deriving DecidableEq, Repr

/-- A row of `dds_compile_deps`. -/
structure compile_dep_row where
  input_file_id : Int
  output_file_id : Int
  input_mtime : Int
  deriving DecidableEq, Repr

/-- The contents of a compilation database file. `dds_meta_1` is `none` while the
table does not exist, otherwise the `version` cell of its single row. -/
structure database where
  dds_meta_1 : Option String
  dds_source_files : List source_file_row
  dds_compilations : List compilation_row
  dds_compile_deps : List compile_dep_row
  deriving DecidableEq, Repr

/-- The `completed_compilation` value: command line, captured output, duration in ms. -/
structure completed_compilation where
  quoted_command : String
  output : String
  duration : Int
  deriving DecidableEq, Repr

/-- The `input_file_info` value: an input path and the modification time recorded for it. -/
structure input_file_info where
  path : String
  last_mtime : Int
  deriving DecidableEq, Repr

/-- An empty database file: no tables yet. -/
def database.empty : database :=
  { dds_meta_1 := none, dds_source_files := [], dds_compilations := [], dds_compile_deps := [] }

/-- The schema version this build of the tool writes. -/
def cur_version : String := "alpha-5"

/-- The `migrate_1` routine: drop every table and create the three tables anew, empty. -/
def migrate_1 (db : database) : database :=
  { db with dds_source_files := [], dds_compilations := [], dds_compile_deps := [] }

/-- The `ensure_migrated` routine of the compilation database.
`CREATE TABLE IF NOT EXISTS dds_meta_1 AS ... VALUES ('')` gives a missing meta
table the version `''`; a version other than `cur_version` resets the tables;
the version cell is then set to `cur_version`. -/
def ensure_migrated (db : database) : database :=
  let db1 : database :=
    match db.dds_meta_1 with
    | none => { db with dds_meta_1 := some "" }
    | some _ => db
  let version_str : String := db1.dds_meta_1.getD ""
  let db2 : database := if cur_version != version_str then migrate_1 db1 else db1
  { db2 with dds_meta_1 := some cur_version }

/-- What `database::open` finds at the path: a file SQLite can read, or one on which
`ensure_migrated` throws an `nsql::error`. -/
inductive database_file where
  | readable (db : database)
  | corrupted
  deriving DecidableEq, Repr

/-- The `database::open` function: run `ensure_migrated`; when that throws, remove the
file and run it on the new, empty one. -/
def database.open : database_file → database
  | .readable db => ensure_migrated db
  | .corrupted => ensure_migrated database.empty

/-- The statement `SELECT file_id FROM dds_source_files WHERE path = ?`. -/
def select_file_id (files : List source_file_row) (path : String) : List Int :=
  (files.filter (fun f => f.path == path)).map (fun f => f.file_id)

/-- The statement `INSERT OR IGNORE INTO dds_source_files (path) VALUES (?)`: a row whose path
is already present (UNIQUE) is left alone, otherwise a row with a new rowid is added. -/
def insert_or_ignore_source_file (files : List source_file_row) (path : String) :
    List source_file_row :=
  if files.any (fun f => f.path == path) then files
  else files ++ [{ file_id := next_rowid (files.map (fun f => f.file_id)), path := path }]

/-- The `database::_record_file` helper: make sure the path has a row, return its id. -/
def database._record_file (db : database) (path : String) : Except sql_error (database × Int) :=
  let db1 : database :=
    { db with dds_source_files := insert_or_ignore_source_file db.dds_source_files path }
  match unpack_single (select_file_id db1.dds_source_files path) with
  | .error e => .error e
  | .ok rowid => .ok (db1, rowid)

/-- The `database::record_dep` function: `INSERT OR REPLACE INTO dds_compile_deps`. A row with
the same `(input_file_id, output_file_id)` is deleted, then the new row is added. -/
def database.record_dep (db : database) (input output : String) (input_mtime : Int) :
    Except sql_error database :=
  match db._record_file input with
  | .error e => .error e
  | .ok (db1, in_id) =>
    match db1._record_file output with
    | .error e => .error e
    | .ok (db2, out_id) =>
      .ok { db2 with
            dds_compile_deps :=
              db2.dds_compile_deps.filter
                  (fun d => !(d.input_file_id == in_id && d.output_file_id == out_id))
                ++ [{ input_file_id := in_id, output_file_id := out_id,
                      input_mtime := input_mtime }] }

/-- The `DO UPDATE SET` branch of `record_compilation` on the conflicting row. The right-hand
sides read the row as it was before the update. `none` when `avg_duration`, a NOT NULL
column, would receive NULL (division by zero). -/
def on_conflict_update (r : compilation_row) (command output : String) (duration : Int) :
    Option compilation_row :=
  let n_new : Int := if duration < 500 then r.n_compilations else min 10 (r.n_compilations + 1)
  let avg_new : Option Int :=
    if duration < 500 then some r.avg_duration
    else (sql_div (duration - r.avg_duration) (min 10 (r.n_compilations + 1))).map
          (fun q => r.avg_duration + q)
  match avg_new with
  | none => none
  | some avg =>
    some { r with command := command, output := output, n_compilations := n_new,
                  avg_duration := avg }

/-- The upsert of `record_compilation` on the table `dds_compilations`: without a row for
`file_id` a row `(file_id, command, output, 1, duration)` is inserted; otherwise the row for
`file_id` (unique by the UNIQUE constraint) is updated. -/
def upsert_compilation (rows : List compilation_row) (file_id : Int) (command output : String)
    (duration : Int) : Except sql_error (List compilation_row) :=
  match rows.find? (fun r => r.file_id == file_id) with
  | none =>
    .ok (rows ++ [{ compile_id := next_rowid (rows.map (fun r => r.compile_id)),
                    file_id := file_id, command := command, output := output,
                    n_compilations := 1, avg_duration := duration }])
  | some r =>
    match on_conflict_update r command output duration with
    | none => .error .constraint
    | some r1 => .ok (rows.map (fun x => if x.file_id == file_id then r1 else x))

/-- The `database::record_compilation` function. -/
def database.record_compilation (db : database) (file : String) (cmd : completed_compilation) :
    Except sql_error database :=
  match db._record_file file with
  | .error e => .error e
  | .ok (db1, file_id) =>
    match upsert_compilation db1.dds_compilations file_id cmd.quoted_command cmd.output
        cmd.duration with
    | .error e => .error e
    | .ok rows => .ok { db1 with dds_compilations := rows }

/-- The `database::forget_inputs_of` function:
`DELETE FROM dds_compile_deps WHERE output_file_id IN (ids of the path)`. -/
def database.forget_inputs_of (db : database) (file : String) : database :=
  let id_to_delete : List Int := select_file_id db.dds_source_files file
  { db with
    dds_compile_deps :=
      db.dds_compile_deps.filter (fun d => !(id_to_delete.contains d.output_file_id)) }

/-- The `JOIN dds_source_files ON input_file_id = file_id` of `inputs_of` for one dependency
row: the path of its input file with the recorded modification time. -/
def join_input_file (files : List source_file_row) (d : compile_dep_row) :
    List input_file_info :=
  (files.filter (fun f => d.input_file_id == f.file_id)).map
    (fun f => { path := f.path, last_mtime := d.input_mtime })

/-- The rows the query of `inputs_of` yields: the dependency rows whose output is the path,
each joined with the source-file row of its input. -/
def inputs_of_rows (db : database) (file : String) : List input_file_info :=
  let ids : List Int := select_file_id db.dds_source_files file
  (db.dds_compile_deps.filter (fun d => ids.contains d.output_file_id)).flatMap
    (join_input_file db.dds_source_files)

/-- The `database::inputs_of` function: no value when the query yields no row. -/
def database.inputs_of (db : database) (file : String) : Option (List input_file_info) :=
  let ret := inputs_of_rows db file
  if ret.isEmpty then none else some ret

/-- The rows of `dds_compilations` that belong to the path. -/
def compilation_rows_of (db : database) (file : String) : List compilation_row :=
  let ids : List Int := select_file_id db.dds_source_files file
  db.dds_compilations.filter (fun c => ids.contains c.file_id)

/-- The `database::command_of` function. -/
def database.command_of (db : database) (file : String) : Option completed_compilation :=
  match unpack_single_opt (compilation_rows_of db file) with
  | none => none
  | some r => some { quoted_command := r.command, output := r.output, duration := r.avg_duration }

/-- The stored compilation record of a path (all columns), for stating what
`record_compilation` writes to `n_compilations` and `avg_duration`. -/
def database.compilation_record (db : database) (file : String) : Option compilation_row :=
  unpack_single_opt (compilation_rows_of db file)

/-- The constraints the schema of `migrate_1` makes SQLite enforce. -/
structure database.well_formed (db : database) : Prop where
  file_id_pk : (db.dds_source_files.map (fun f => f.file_id)).Nodup
  path_unique : (db.dds_source_files.map (fun f => f.path)).Nodup
  compile_id_pk : (db.dds_compilations.map (fun c => c.compile_id)).Nodup
  compilation_file_unique : (db.dds_compilations.map (fun c => c.file_id)).Nodup
  compilation_file_fk :
    ∀ c ∈ db.dds_compilations, c.file_id ∈ db.dds_source_files.map (fun f => f.file_id)
  dep_unique : (db.dds_compile_deps.map (fun d => (d.input_file_id, d.output_file_id))).Nodup
  dep_input_fk :
    ∀ d ∈ db.dds_compile_deps, d.input_file_id ∈ db.dds_source_files.map (fun f => f.file_id)
  dep_output_fk :
    ∀ d ∈ db.dds_compile_deps, d.output_file_id ∈ db.dds_source_files.map (fun f => f.file_id)

/-- One call of the three mutating operations of the compilation database. -/
inductive db_call where
  | record_compilation (file : String) (cmd : completed_compilation)
  | record_dep (input output : String) (input_mtime : Int)
  | forget_inputs_of (file : String)
  deriving DecidableEq, Repr

/-- Run one call; `none` when the call throws (the database is then as before). -/
def db_call.run (db : database) : db_call → Option database
  | .record_compilation file cmd =>
    match db.record_compilation file cmd with
    | .ok db1 => some db1
    | .error _ => none
  | .record_dep i o t =>
    match db.record_dep i o t with
    | .ok db1 => some db1
    | .error _ => none
  | .forget_inputs_of file => some (db.forget_inputs_of file)

/-- The databases reachable from a freshly created one by the three operations. -/
inductive database.reachable : database → Prop where
  | fresh : database.reachable (database.open (.readable database.empty))
  | step (db db1 : database) (c : db_call) :
      database.reachable db → c.run db = some db1 → database.reachable db1

/-- The second table extends the first by rows with new ids and new paths. -/
def files_extend (files files1 : List source_file_row) : Prop :=
  ∃ extra, files1 = files ++ extra ∧
    ∀ f ∈ extra, f.file_id ∉ files.map (fun f => f.file_id) ∧
      f.path ∉ files.map (fun f => f.path)

/-- A database with three source files, one compilation record and the input records of two
outputs. -/
def example_db : database :=
  { dds_meta_1 := some "alpha-5",
    dds_source_files := [⟨1, "/p/a.cpp"⟩, ⟨2, "/p/a.hpp"⟩, ⟨3, "/p/b.cpp"⟩],
    dds_compilations := [⟨1, 1, "cc -c a.cpp", "", 3, 700⟩],
    dds_compile_deps := [⟨2, 1, 40⟩, ⟨2, 3, 41⟩] }

/-- A database file written by an earlier release: its version cell is not `alpha-5`. -/
def stale_db : database :=
  { dds_meta_1 := some "alpha-4",
    dds_source_files := [⟨1, "/p/a.cpp"⟩],
    dds_compilations := [⟨1, 1, "cc -c a.cpp", "", 2, 650⟩],
    dds_compile_deps := [] }

/-! ## Did-you-mean (`src/dds/dym.cpp`) -/

/-- The cells `matrix[row][1..]` of `lev_edit_distance`, left to right: `a` is what is left of
the string `a`, the list holds `matrix[row-1][col-1], matrix[row-1][col], ...` and `left` is
`matrix[row][col-1]`. -/
def lev_row_cells (bc : Char) : List Char → List Nat → Nat → List Nat
  | ac :: a, diag :: up :: above, left =>
    let cost : Nat := if ac = bc then 0 else 1
    let t1 := up + 1
    let t2 := left + 1
    let t3 := diag + cost
    let cell := min (min t1 t2) t3
    cell :: lev_row_cells bc a (up :: above) cell
  | _, _, _ => []

/-- Row `row` of the matrix of `lev_edit_distance` from row `row - 1`. -/
def lev_row (a : List Char) (above : List Nat) (bc : Char) (row : Nat) : List Nat :=
  row :: lev_row_cells bc a above row

/-- The matrix computation of `dds::lev_edit_distance` on the characters of `a` and `b`:
row 0 is `0, 1, ..., |a|`, each further row starts with its number, and the result is the
last cell of the last row. -/
def lev_edit_distance_chars (a b : List Char) : Nat :=
  let row0 : List Nat := List.range (a.length + 1)
  let last : List Nat × Nat :=
    b.foldl (fun st bc => (lev_row a st.1 bc (st.2 + 1), st.2 + 1)) (row0, 0)
  last.1.getLast?.getD 0

/-- The function `dds::lev_edit_distance`. -/
def lev_edit_distance (a b : String) : Nat :=
  lev_edit_distance_chars a.toList b.toList

/-- Modelled from the spec: `did_you_mean` is declared in `dym.hpp`, which is not among the
sources; the spec (4.9) gives the nearest candidate by Levenshtein distance, ties broken by
enumeration order, and nothing for an empty candidate set. -/
def did_you_mean (given : String) (candidates : List String) : Option String :=
  candidates.foldl
    (fun best c =>
      match best with
      | none => some c
      | some b =>
        if lev_edit_distance c given < lev_edit_distance b given then some c else some b)
    none

/-! ## The package database (`src/dds/pkg/db.cpp`) -/

/-- A row of `dds_pkg_remotes`. -/
structure pkg_remote_row where
  remote_id : Int
  name : String
  url : String
  db_etag : Option String
  db_mtime : Option String
  deriving DecidableEq, Repr

/-- A row of `dds_pkgs`; `remote_id` is nullable. -/
structure pkg_row where
  pkg_id : Int
  name : String
  version : String
  description : String
  remote_url : String
  remote_id : Option Int
  deriving DecidableEq, Repr

/-- A row of `dds_pkg_deps` (and of the older `dds_cat_pkg_deps`). -/
structure pkg_dep_row where
  dep_id : Int
  pkg_id : Int
  dep_name : String
  low : String
  high : String
  deriving DecidableEq, Repr

/-- The tables of schema version 3. The three primary keys are AUTOINCREMENT: `seq_*` is the
largest rowid the table ever held, as SQLite keeps it in `sqlite_sequence`. -/
structure pkg_db where
  dds_pkg_remotes : List pkg_remote_row
  dds_pkgs : List pkg_row
  dds_pkg_deps : List pkg_dep_row
  seq_remotes : Int
  seq_pkgs : Int
  seq_deps : Int
  deriving DecidableEq, Repr

/-- A row of `dds_cat_pkgs`, the package table of schema versions 1 and 2. `git_url` and
`git_ref` are non-NULL by the CHECK `has_source_info`. -/
structure cat_pkg_row where
  pkg_id : Int
  name : String
  version : String
  git_url : String
  git_ref : String
  lm_name : Option String
  lm_namespace : Option String
  description : String
  deriving DecidableEq, Repr

/-- The tables of schema versions 1 and 2, created together by migration 1 and dropped
together by migration 3; `has_repo_transform` tells whether migration 2 added its column. -/
structure cat_tables where
  dds_cat_pkgs : List cat_pkg_row
  dds_cat_pkg_deps : List pkg_dep_row
  has_repo_transform : Bool
  deriving DecidableEq, Repr

/-- The JSON text in the single cell of `dds_cat_meta`, as far as `ensure_migrated` looks at
it. A `version` beyond the 64-bit integers is a floating-point number to the JSON library,
hence `object none`. -/
inductive meta_cell where
  /-- Text that `nlohmann::json::parse` rejects. -/
  | unparsable
  /-- JSON whose root is not an object. -/
  | not_object
  /-- A JSON object; `version` is its `"version"` member when that is an integer. -/
  | object (version : Option Int)
  deriving DecidableEq, Repr

/-- The contents of a package database file; `none` stands for a table that does not exist. -/
structure pkg_db_file where
  dds_cat_meta : Option meta_cell
  cat : Option cat_tables
  pkgs : Option pkg_db
  deriving DecidableEq, Repr

/-- What `pkg_db::open` throws. -/
inductive open_error where
  | corrupted_catalog_db
  | catalog_too_new
  /-- The exception of `nlohmann::json::parse`. -/
  | json_parse_error
  /-- An `nsql::error` leaving `ensure_migrated`. -/
  | sql (e : sql_error)
  deriving DecidableEq, Repr

/-- The conversion `int version = version_` of a JSON integer: the value modulo `2^32`, read as
a signed 32-bit integer. -/
def to_int32 (v : Int) : Int :=
  (v + 2 ^ 31) % 2 ^ 32 - 2 ^ 31

/-- The known maximum of the schema version. -/
def current_database_version : Int := 3

/-- The rowid an AUTOINCREMENT table gives a new row: larger than every rowid in the table and
than every rowid the table held before. -/
def autoincrement_rowid (ids : List Int) (seq : Int) : Int :=
  max (next_rowid ids) (seq + 1)

/-- The `sqlite_sequence` entry after rows with the given explicit rowids were inserted. -/
def seq_after (ids : List Int) (seq : Int) : Int :=
  ids.foldl max seq

/-- The routine `migrate_repodb_1`: create `dds_cat_pkgs` and `dds_cat_pkg_deps`. -/
def migrate_repodb_1 (f : pkg_db_file) : Except sql_error pkg_db_file :=
  match f.cat with
  | some _ => .error .schema
  | none =>
    .ok { f with cat := some { dds_cat_pkgs := [], dds_cat_pkg_deps := [],
                               has_repo_transform := false } }

/-- The routine `migrate_repodb_2`: add the column `repo_transform` to `dds_cat_pkgs`. -/
def migrate_repodb_2 (f : pkg_db_file) : Except sql_error pkg_db_file :=
  match f.cat with
  | none => .error .schema
  | some c =>
    if c.has_repo_transform then .error .schema
    else .ok { f with cat := some { c with has_repo_transform := true } }

/-- The `remote_url` migration 3 computes for an old row:
`'git+' || git_url || (CASE WHEN lm_name ISNULL THEN '' ELSE '?lm=' || lm_namespace || '/' ||
lm_name END) || '#' || git_ref`; NULL when `lm_namespace` is NULL and `lm_name` is not. -/
def cat_pkg_remote_url (r : cat_pkg_row) : Option String :=
  match r.lm_name, r.lm_namespace with
  | none, _ => some ("git+" ++ r.git_url ++ "" ++ "#" ++ r.git_ref)
  | some _, none => none
  | some n, some ns => some ("git+" ++ r.git_url ++ ("?lm=" ++ ns ++ "/" ++ n) ++ "#" ++ r.git_ref)

/-- The row of `dds_pkgs` migration 3 makes of a row of `dds_cat_pkgs`. -/
def cat_pkg_to_pkg (r : cat_pkg_row) : Option pkg_row :=
  match cat_pkg_remote_url r with
  | none => none
  | some url =>
    some { pkg_id := r.pkg_id, name := r.name, version := r.version,
           description := r.description, remote_url := url, remote_id := none }

/-- The routine `migrate_repodb_3`: create the three tables of schema 3, copy the packages
and the dependencies over with their ids, drop the old tables. A NOT NULL, PRIMARY KEY,
UNIQUE or FOREIGN KEY failure of the two copying statements is an error. -/
def migrate_repodb_3 (f : pkg_db_file) : Except sql_error pkg_db_file :=
  match f.pkgs, f.cat with
  | some _, _ => .error .schema
  | none, none => .error .schema
  | none, some c =>
    match c.dds_cat_pkgs.mapM cat_pkg_to_pkg with
    | none => .error .constraint
    | some rows =>
      let deps := c.dds_cat_pkg_deps
      if (rows.map (fun r => r.pkg_id)).Nodup
          ∧ (deps.map (fun d => d.dep_id)).Nodup
          ∧ (deps.map (fun d => (d.pkg_id, d.dep_name))).Nodup
          ∧ (∀ d ∈ deps, d.pkg_id ∈ rows.map (fun r => r.pkg_id)) then
        .ok { f with
              cat := none,
              pkgs := some { dds_pkg_remotes := [], dds_pkgs := rows, dds_pkg_deps := deps,
                             seq_remotes := 0,
                             seq_pkgs := seq_after (rows.map (fun r => r.pkg_id)) 0,
                             seq_deps := seq_after (deps.map (fun d => d.dep_id)) 0 } }
      else .error .constraint

/-- Run a migration when the stored version is below `n`. -/
def migrate_if (version n : Int) (m : pkg_db_file → Except sql_error pkg_db_file)
    (f : pkg_db_file) : Except open_error pkg_db_file :=
  if version < n then
    match m f with
    | .error e => .error (.sql e)
    | .ok f1 => .ok f1
  else .ok f

/-- The transaction of `ensure_migrated` (package database): read the version, refuse a
version above `current_database_version`, run the migrations the version asks for, store
version 3. Yields the new contents and the `version` that was read. -/
def migrate_transaction (cell : meta_cell) (f : pkg_db_file) :
    Except open_error (pkg_db_file × Int) :=
  match cell with
  | .unparsable => .error .json_parse_error
  | .not_object => .error .corrupted_catalog_db
  | .object none => .error .corrupted_catalog_db
  | .object (some version_) =>
    let version : Int := to_int32 version_
    if version > current_database_version then .error .catalog_too_new
    else
      match migrate_if version 1 migrate_repodb_1 f with
      | .error e => .error e
      | .ok f1 =>
        match migrate_if version 2 migrate_repodb_2 f1 with
        | .error e => .error e
        | .ok f2 =>
          match migrate_if version 3 migrate_repodb_3 f2 with
          | .error e => .error e
          | .ok f3 =>
            .ok ({ f3 with dds_cat_meta := some (.object (some current_database_version)) },
                 version)

/-- The routine `ensure_migrated` of the package database. The result is the file as the
call leaves it and the exception thrown, if any: a throw inside the transaction rolls the
transaction back. `no_add_initial_repo` is the environment flag `DDS_NO_ADD_INITIAL_REPO` and
`add_init_repo` the effect of `dds::add_init_repo`, which talks to the network. -/
def pkg_db.ensure_migrated (no_add_initial_repo : Bool)
    (add_init_repo : pkg_db_file → pkg_db_file) (f : pkg_db_file) :
    pkg_db_file × Except open_error Unit :=
  let cell : meta_cell := f.dds_cat_meta.getD (.object (some 0))
  let f0 : pkg_db_file := { f with dds_cat_meta := some cell }
  match migrate_transaction cell f0 with
  | .error e => (f0, .error e)
  | .ok (f1, version) =>
    if version < 3 && !no_add_initial_repo then (add_init_repo f1, .ok ())
    else (f1, .ok ())

/-- The function `pkg_db::open`: an `nsql::error` of `ensure_migrated` is rethrown as
`corrupted_catalog_db`, every other exception passes through. -/
def pkg_db.open (no_add_initial_repo : Bool) (add_init_repo : pkg_db_file → pkg_db_file)
    (f : pkg_db_file) : pkg_db_file × Except open_error Unit :=
  match pkg_db.ensure_migrated no_add_initial_repo add_init_repo f with
  | (f1, .error (.sql _)) => (f1, .error .corrupted_catalog_db)
  | r => r

/-- The value `pkg_id`: a name and a version, the version in its `to_string` form (the form
the database stores and compares). -/
structure pkg_id where
  name : String
  version : String
  deriving DecidableEq, Repr

/-- The textual form `name@version`. -/
def pkg_id.to_string (id : pkg_id) : String :=
  id.name ++ "@" ++ id.version

/-- The value `dependency`: a name and a set of version intervals `[low, high)`, the versions
in their `to_string` form. -/
structure dependency where
  name : String
  versions : List (String × String)
  deriving DecidableEq, Repr

/-- The value `pkg_listing`; `remote_pkg` is the remote in its `to_url_string` form, the form
`store` writes and `get` parses back. -/
structure pkg_listing where
  ident : pkg_id
  deps : List dependency
  description : String
  remote_pkg : String
  deriving DecidableEq, Repr

/-- What `store` throws. -/
inductive store_error where
  | sql (e : sql_error)
  /-- The failure of `assert(dep.versions.num_intervals() == 1)`. -/
  | assertion
  deriving DecidableEq, Repr

/-- The payload `e_nonesuch`: the name asked for and the nearest known name. -/
structure e_nonesuch where
  given : String
  nearest : Option String
  deriving DecidableEq, Repr

/-- What `get` fails with. -/
inductive get_error where
  | nonesuch (e : e_nonesuch)
  /-- The failure of `neo_assert(invariant, ...)` on the row read. -/
  | invariant_violated
  deriving DecidableEq, Repr

/-- Whether two values of a nullable column collide in a UNIQUE index: SQLite takes NULL to
be distinct from every value, NULL included. -/
def unique_index_eq (a b : Option Int) : Bool :=
  match a, b with
  | some x, some y => x == y
  | _, _ => false

/-- Delete the rows of `dds_pkgs` that satisfy `p`; `ON DELETE CASCADE` deletes their rows of
`dds_pkg_deps`. -/
def delete_pkgs (db : pkg_db) (p : pkg_row → Bool) : pkg_db :=
  let gone : List Int := (db.dds_pkgs.filter p).map (fun r => r.pkg_id)
  { db with
    dds_pkgs := db.dds_pkgs.filter (fun r => !p r),
    dds_pkg_deps := db.dds_pkg_deps.filter (fun d => !gone.contains d.pkg_id) }

/-- The statement `INSERT OR REPLACE INTO dds_pkgs (name, version, remote_url, description)
VALUES (?, ?, ?, ?)` followed by `last_insert_rowid()`. The row has no `remote_id` (NULL) and
a new `pkg_id`; the rows that collide with it on `UNIQUE (name, version, remote_id)` are
deleted first. -/
def insert_or_replace_pkg (db : pkg_db) (name version remote_url description : String) :
    pkg_db × Int :=
  let row : pkg_row :=
    { pkg_id := autoincrement_rowid (db.dds_pkgs.map (fun r => r.pkg_id)) db.seq_pkgs,
      name := name, version := version, description := description,
      remote_url := remote_url, remote_id := none }
  let db1 : pkg_db :=
    delete_pkgs db (fun r => r.name == row.name && r.version == row.version
      && unique_index_eq r.remote_id row.remote_id)
  ({ db1 with dds_pkgs := db1.dds_pkgs ++ [row], seq_pkgs := row.pkg_id }, row.pkg_id)

/-- The statement `INSERT INTO dds_pkg_deps (pkg_id, dep_name, low, high) VALUES (?, ?, ?, ?)`:
fails on `UNIQUE(pkg_id, dep_name)` and on the reference to `dds_pkgs(pkg_id)`. -/
def insert_pkg_dep (db : pkg_db) (pkg_id : Int) (dep_name low high : String) :
    Except sql_error pkg_db :=
  if db.dds_pkg_deps.any (fun d => d.pkg_id == pkg_id && d.dep_name == dep_name) then
    .error .constraint
  else if !db.dds_pkgs.any (fun r => r.pkg_id == pkg_id) then
    .error .constraint
  else
    let dep_id := autoincrement_rowid (db.dds_pkg_deps.map (fun d => d.dep_id)) db.seq_deps
    .ok { db with
          dds_pkg_deps := db.dds_pkg_deps ++ [{ dep_id := dep_id, pkg_id := pkg_id,
                                                dep_name := dep_name, low := low, high := high }],
          seq_deps := dep_id }

/-- The loop of `do_store_pkg` over the dependencies of the listing. -/
def store_deps (db_pkg_id : Int) : pkg_db → List dependency → Except store_error pkg_db
  | db, [] => .ok db
  | db, dep :: deps =>
    match dep.versions with
    | [iv_1] =>
      match insert_pkg_dep db db_pkg_id dep.name iv_1.1 iv_1.2 with
      | .error e => .error (.sql e)
      | .ok db1 => store_deps db_pkg_id db1 deps
    | _ => .error .assertion

/-- The function `do_store_pkg`. -/
def do_store_pkg (db : pkg_db) (pkg : pkg_listing) : Except store_error pkg_db :=
  let r := insert_or_replace_pkg db pkg.ident.name pkg.ident.version pkg.remote_pkg
    pkg.description
  store_deps r.2 r.1 pkg.deps

/-- The function `pkg_db::store`: `do_store_pkg` in a transaction. When it throws, the
transaction is rolled back and the database is the one before the call. -/
def pkg_db.store (db : pkg_db) (pkg : pkg_listing) : Except store_error pkg_db :=
  do_store_pkg db pkg

/-- A sequence of `store` calls, each of which returns. -/
def pkg_db.store_all : pkg_db → List pkg_listing → Except store_error pkg_db
  | db, [] => .ok db
  | db, pkg :: pkgs =>
    match db.store pkg with
    | .error e => .error e
    | .ok db1 => pkg_db.store_all db1 pkgs

/-- The clause `ORDER BY pkg_id DESC`. -/
def order_by_pkg_id_desc (rows : List pkg_row) : List pkg_row :=
  rows.insertionSort (fun a b => b.pkg_id ≤ a.pkg_id)

/-- The clause `ORDER BY dep_name` (text in byte order). -/
def order_by_dep_name (rows : List pkg_dep_row) : List pkg_dep_row :=
  rows.insertionSort (fun a b => a.dep_name ≤ b.dep_name)

/-- The subquery `SELECT pkg_id FROM dds_pkgs WHERE name = ? AND version = ?`. -/
def select_pkg_ids (db : pkg_db) (id : pkg_id) : List Int :=
  (db.dds_pkgs.filter (fun r => r.name == id.name && r.version == id.version)).map
    (fun r => r.pkg_id)

/-- The function `pkg_db::dependencies_of`. -/
def pkg_db.dependencies_of (db : pkg_db) (pkg : pkg_id) : List dependency :=
  (order_by_dep_name
      (db.dds_pkg_deps.filter (fun d => (select_pkg_ids db pkg).contains d.pkg_id))).map
    (fun d => { name := d.dep_name, versions := [(d.low, d.high)] })

/-- The function `pkg_db::all`. -/
def pkg_db.all (db : pkg_db) : List pkg_id :=
  db.dds_pkgs.map (fun r => { name := r.name, version := r.version })

/-- The function `pkg_db::by_name`. -/
def pkg_db.by_name (db : pkg_db) (sv : String) : List pkg_id :=
  (order_by_pkg_id_desc (db.dds_pkgs.filter (fun r => r.name == sv))).map
    (fun r => { name := r.name, version := r.version })

/-- The function `pkg_db::get`: the row with the largest `pkg_id` among those of the name and
version. -/
def pkg_db.get (db : pkg_db) (pk_id : pkg_id) : Except get_error pkg_listing :=
  match order_by_pkg_id_desc
      (db.dds_pkgs.filter (fun r => r.name == pk_id.name && r.version == pk_id.version)) with
  | [] =>
    .error (.nonesuch
      { given := pk_id.to_string,
        nearest := did_you_mean pk_id.to_string (db.all.map pkg_id.to_string) })
  | row :: _ =>
    if pk_id.name == row.name && pk_id.version == row.version then
      .ok { ident := pk_id, deps := db.dependencies_of pk_id,
            description := row.description, remote_pkg := row.remote_url }
    else .error .invariant_violated

/-- A package database file that does not exist yet. -/
def pkg_db_file.empty : pkg_db_file :=
  { dds_cat_meta := none, cat := none, pkgs := none }

/-- The tables of a package database right after it was created. -/
def pkg_db.fresh : pkg_db :=
  { dds_pkg_remotes := [], dds_pkgs := [], dds_pkg_deps := [],
    seq_remotes := 0, seq_pkgs := 0, seq_deps := 0 }

/-- The constraints the schema of `migrate_repodb_3` makes SQLite enforce, with the bound
`sqlite_sequence` keeps for the AUTOINCREMENT keys. -/
structure pkg_db.well_formed (db : pkg_db) : Prop where
  pkg_id_pk : (db.dds_pkgs.map (fun r => r.pkg_id)).Nodup
  dep_id_pk : (db.dds_pkg_deps.map (fun d => d.dep_id)).Nodup
  dep_unique : (db.dds_pkg_deps.map (fun d => (d.pkg_id, d.dep_name))).Nodup
  dep_pkg_fk : ∀ d ∈ db.dds_pkg_deps, d.pkg_id ∈ db.dds_pkgs.map (fun r => r.pkg_id)
  pkg_remote_fk : ∀ r ∈ db.dds_pkgs, ∀ rid, r.remote_id = some rid →
    rid ∈ db.dds_pkg_remotes.map (fun x => x.remote_id)
  remote_id_pk : (db.dds_pkg_remotes.map (fun x => x.remote_id)).Nodup
  remote_name_unique : (db.dds_pkg_remotes.map (fun x => x.name)).Nodup
  pkg_unique : ∀ r1 ∈ db.dds_pkgs, ∀ r2 ∈ db.dds_pkgs,
    r1.name = r2.name → r1.version = r2.version →
      unique_index_eq r1.remote_id r2.remote_id = true → r1 = r2

/-- The listing of the test case "Store a simple package". -/
def foo_master : pkg_listing :=
  { ident := { name := "foo", version := "1.2.3" }, deps := [], description := "example",
    remote_pkg := "git+http://example.com#master" }

/-- The second listing of that test case: the same `pkg_id`, another URL. -/
def foo_develop : pkg_listing :=
  { ident := { name := "foo", version := "1.2.3" }, deps := [], description := "example",
    remote_pkg := "git+http://example.com#develop" }

/-- A package database file of schema 3 with one package, whose stored schema version is
`4294967299 = 2^32 + 3`. -/
def newer_file : pkg_db_file :=
  { dds_cat_meta := some (.object (some 4294967299)),
    cat := none,
    pkgs := some { dds_pkg_remotes := [],
                   dds_pkgs := [⟨1, "foo", "1.2.3", "example", "git+http://example.com#master",
                                 none⟩],
                   dds_pkg_deps := [], seq_remotes := 0, seq_pkgs := 1, seq_deps := 0 } }

/-- The tables after `foo_master` and then `foo_develop` were stored in a new database. -/
def foo_master_develop_db : pkg_db :=
  { dds_pkg_remotes := [],
    dds_pkgs := [⟨1, "foo", "1.2.3", "example", "git+http://example.com#master", none⟩,
                 ⟨2, "foo", "1.2.3", "example", "git+http://example.com#develop", none⟩],
    dds_pkg_deps := [], seq_remotes := 0, seq_pkgs := 2, seq_deps := 0 }

/-- The tables after `foo_master` was stored twice in a new database. -/
def foo_twice_db : pkg_db :=
  { dds_pkg_remotes := [],
    dds_pkgs := [⟨1, "foo", "1.2.3", "example", "git+http://example.com#master", none⟩,
                 ⟨2, "foo", "1.2.3", "example", "git+http://example.com#master", none⟩],
    dds_pkg_deps := [], seq_remotes := 0, seq_pkgs := 2, seq_deps := 0 }

/-- The listings `do_store_pkg` is written for: every dependency has exactly one version
interval (its `assert`) and no two dependencies share a name (`UNIQUE(pkg_id, dep_name)`). -/
def pkg_listing.storable (l : pkg_listing) : Prop :=
  (∀ dep ∈ l.deps, ∃ iv, dep.versions = [iv]) ∧ (l.deps.map (fun dep => dep.name)).Nodup

/-- The listing of the test case "Package requirements", its dependencies in the order
`baz`, `bar`. -/
def foo_with_deps : pkg_listing :=
  { ident := { name := "foo", version := "1.2.3" },
    deps := [{ name := "baz", versions := [("5.3.0", "6.0.0")] },
             { name := "bar", versions := [("1.2.3", "1.4.0")] }],
    description := "example",
    remote_pkg := "git+http://example.com#master" }

/-! ## Remotes (`src/dds/pkg/remote.cpp`) -/

/-- A row of `dds_repo_packages`, the package table of a downloaded index. -/
structure repo_package_row where
  package_id : Int
  name : String
  version : String
  description : String
  url : String
  deriving DecidableEq, Repr

/-- A row of `dds_repo_package_deps`, the dependency table of a downloaded index. -/
structure repo_package_dep_row where
  package_id : Int
  dep_name : String
  low : String
  high : String
  deriving DecidableEq, Repr

/-- The downloaded `repo.db`, attached as `remote`; `none` stands for a table the file does
not have. -/
structure remote_index where
  dds_repo_packages : Option (List repo_package_row)
  dds_repo_package_deps : Option (List repo_package_dep_row)
  deriving DecidableEq, Repr

/-- The answer to the conditional `GET <base-url>/repo.db`: "not modified", or a body with the
`ETag` and `Last-Modified` headers it came with. -/
inductive http_response where
  | not_modified
  | body (index : remote_index) (etag : Option String) (last_modified : Option String)
  deriving DecidableEq, Repr

/-- The value `pkg_remote`: the name of the remote and its base URL in `to_string` form. -/
structure pkg_remote where
  _name : String
  _base_url : String
  deriving DecidableEq, Repr

/-- What `update_pkg_db` throws. -/
inductive update_error where
  | sql (e : sql_error)
  | corrupted_catalog_db
  deriving DecidableEq, Repr

/-- What `remove_remote` throws: the user error `no_catalog_remote_info` with its
`e_nonesuch` payload. -/
inductive remove_remote_error where
  | no_catalog_remote_info (e : e_nonesuch)
  deriving DecidableEq, Repr

/-- The class `nsql::transaction_guard` around a body: the body runs on the database; when
it returns its result is committed, when it throws the database is rolled back to what it was
at `BEGIN`. The result is the database after the guard and the exception, if any. -/
def transaction_guard {ε : Type} (db : pkg_db) (body : pkg_db → Except ε pkg_db) :
    pkg_db × Except ε Unit :=
  match body db with
  | .ok db1 => (db1, .ok ())
  | .error e => (db, .error e)

/-- The loop `while (s.ends_with("/")) s.pop_back();`. -/
def strip_trailing_slashes (s : String) : String :=
  String.mk (s.toList.rdropWhile (fun c => c == '/'))

/-- Lower case of an ASCII letter, every other character as it is: the folding SQLite applies
in `LIKE`. -/
def ascii_lower (c : Char) : Char :=
  if 'A' ≤ c ∧ c ≤ 'Z' then Char.ofNat (c.toNat + 32) else c

/-- The SQL operator `LIKE` on the characters of pattern and text: `%` stands for any run of
characters, `_` for one character, every other character for itself up to ASCII case. -/
def like_match : List Char → List Char → Bool
  | [], s => s.isEmpty
  | pc :: p, s =>
    if pc = '%' then s.tails.any (fun t => like_match p t)
    else
      match s with
      | [] => false
      | c :: s1 => (pc == '_' || ascii_lower pc == ascii_lower c) && like_match p s1

/-- The expression `text LIKE pattern`. -/
def sql_like (text pattern : String) : Bool :=
  like_match pattern.toList text.toList

/-- The expression `substr(text, n)` for `n ≥ 1`: the text from its `n`-th character on. -/
def sql_substr (text : String) (n : Nat) : String :=
  String.mk (text.toList.drop (n - 1))

/-- The URL the import stores for a row of the index:
`CASE WHEN url LIKE 'dds:%@%' THEN printf('dds+%s/%s', ?2, substr(url, 5)) ELSE url END`. -/
def import_url (base_url_str url : String) : String :=
  if sql_like url "dds:%@%" then "dds+" ++ base_url_str ++ "/" ++ sql_substr url 5 else url

/-- The statement `SELECT remote_id FROM dds_pkg_remotes WHERE name = ?`. -/
def select_remote_id (db : pkg_db) (name : String) : List Int :=
  (db.dds_pkg_remotes.filter (fun x => x.name == name)).map (fun x => x.remote_id)

/-- The statement `INSERT INTO dds_pkgs (name, version, description, remote_url, remote_id)
SELECT ... FROM remote.dds_repo_packages`, row by row: each row gets a new `pkg_id`; a row
that collides on `UNIQUE (name, version, remote_id)` or whose `remote_id` is no remote makes
the statement fail. -/
def import_packages (remote_id : Int) (base_url_str : String) :
    pkg_db → List repo_package_row → Except sql_error pkg_db
  | db, [] => .ok db
  | db, r :: rs =>
    if db.dds_pkgs.any (fun p => p.name == r.name && p.version == r.version
        && unique_index_eq p.remote_id (some remote_id)) then
      .error .constraint
    else if !db.dds_pkg_remotes.any (fun x => x.remote_id == remote_id) then
      .error .constraint
    else
      let pkg_id := autoincrement_rowid (db.dds_pkgs.map (fun p => p.pkg_id)) db.seq_pkgs
      import_packages remote_id base_url_str
        { db with
          dds_pkgs := db.dds_pkgs
            ++ [{ pkg_id := pkg_id, name := r.name, version := r.version,
                  description := r.description, remote_url := import_url base_url_str r.url,
                  remote_id := some remote_id }],
          seq_pkgs := pkg_id }
        rs

/-- The rows the `SELECT` of the dependency import yields: the join of
`remote.dds_repo_package_deps`, `remote.dds_repo_packages USING(package_id)` and
`dds_pkgs AS local_pkgs USING(name, version)`, as `(pkg_id, dep_name, low, high)`. -/
def import_dep_rows (deps : List repo_package_dep_row) (pkgs : List repo_package_row)
    (local_pkgs : List pkg_row) : List (Int × String × String × String) :=
  deps.flatMap (fun d =>
    (pkgs.filter (fun p => p.package_id == d.package_id)).flatMap (fun p =>
      (local_pkgs.filter (fun l => l.name == p.name && l.version == p.version)).map
        (fun l => (l.pkg_id, d.dep_name, d.low, d.high))))

/-- One row of `INSERT OR REPLACE INTO dds_pkg_deps (pkg_id, dep_name, low, high)`: the row
that collides on `UNIQUE(pkg_id, dep_name)` is deleted, the new row gets a new `dep_id`; a
`pkg_id` that is no package makes the statement fail. -/
def insert_or_replace_pkg_dep (db : pkg_db) (row : Int × String × String × String) :
    Except sql_error pkg_db :=
  if !db.dds_pkgs.any (fun p => p.pkg_id == row.1) then .error .constraint
  else
    let dep_id := autoincrement_rowid (db.dds_pkg_deps.map (fun d => d.dep_id)) db.seq_deps
    .ok { db with
          dds_pkg_deps :=
            db.dds_pkg_deps.filter (fun d => !(d.pkg_id == row.1 && d.dep_name == row.2.1))
              ++ [{ dep_id := dep_id, pkg_id := row.1, dep_name := row.2.1, low := row.2.2.1,
                    high := row.2.2.2 }],
          seq_deps := dep_id }

/-- The statement `INSERT OR REPLACE INTO dds_pkg_deps ... SELECT ...` over the rows of its
`SELECT`. -/
def import_deps : pkg_db → List (Int × String × String × String) → Except sql_error pkg_db
  | db, [] => .ok db
  | db, row :: rows =>
    match insert_or_replace_pkg_dep db row with
    | .error e => .error e
    | .ok db1 => import_deps db1 rows

/-- The rows `PRAGMA foreign_key_check` reports, as `(child table, rowid)`: packages whose
`remote_id` is no remote and dependencies whose `pkg_id` is no package. -/
def foreign_key_check (db : pkg_db) : List (String × Int) :=
  (db.dds_pkgs.filter (fun p =>
      match p.remote_id with
      | none => false
      | some rid => !db.dds_pkg_remotes.any (fun x => x.remote_id == rid))).map
    (fun p => ("dds_pkgs", p.pkg_id))
  ++ (db.dds_pkg_deps.filter (fun d => !db.dds_pkgs.any (fun p => p.pkg_id == d.pkg_id))).map
    (fun d => ("dds_pkg_deps", d.dep_id))

/-- The statement `UPDATE dds_pkg_remotes SET db_etag = ? WHERE name = ?`. -/
def set_db_etag (db : pkg_db) (name etag : String) : pkg_db :=
  { db with
    dds_pkg_remotes :=
      db.dds_pkg_remotes.map (fun x => if x.name == name then { x with db_etag := some etag }
                                       else x) }

/-- The statement `UPDATE dds_pkg_remotes SET db_mtime = ? WHERE name = ?`. -/
def set_db_mtime (db : pkg_db) (name mtime : String) : pkg_db :=
  { db with
    dds_pkg_remotes :=
      db.dds_pkg_remotes.map (fun x => if x.name == name then { x with db_mtime := some mtime }
                                       else x) }

/-- The body of the transaction of `update_pkg_db`. `integrity_check` is what
`PRAGMA main.integrity_check` reports for the file (`["ok"]` for a sound one); it depends on
the storage, not on the rows. -/
def update_transaction (r : pkg_remote) (remote_id : Int) (base_url_str : String)
    (index : remote_index) (etag last_modified : Option String)
    (integrity_check : List String) (db : pkg_db) : Except update_error pkg_db :=
  let db1 := delete_pkgs db (fun p => p.remote_id == some remote_id)
  match index.dds_repo_packages with
  | none => .error (.sql .schema)
  | some pkgs =>
    match import_packages remote_id base_url_str db1 pkgs with
    | .error e => .error (.sql e)
    | .ok db2 =>
      match index.dds_repo_package_deps with
      | none => .error (.sql .schema)
      | some deps =>
        match import_deps db2 (import_dep_rows deps pkgs db2.dds_pkgs) with
        | .error e => .error (.sql e)
        | .ok db3 =>
          let any_failed : Bool :=
            !(foreign_key_check db3).isEmpty || integrity_check.any (fun error => error != "ok")
          if any_failed then .error .corrupted_catalog_db
          else
            let db4 := match etag with
              | some new_etag => set_db_etag db3 r._name new_etag
              | none => db3
            let db5 := match last_modified with
              | some mtime => set_db_mtime db4 r._name mtime
              | none => db4
            .ok db5

/-- The function `pkg_remote::update_pkg_db`. The result is the database after the call and
the exception thrown, if any. -/
def pkg_remote.update_pkg_db (r : pkg_remote) (db : pkg_db) (resp : http_response)
    (integrity_check : List String) : pkg_db × Except update_error Unit :=
  match resp with
  | .not_modified => (db, .ok ())
  | .body index etag last_modified =>
    let base_url_str := strip_trailing_slashes r._base_url
    match unpack_single (select_remote_id db r._name) with
    | .error e => (db, .error (.sql e))
    | .ok remote_id =>
      transaction_guard db
        (update_transaction r remote_id base_url_str index etag last_modified integrity_check)

/-- The statement `DELETE FROM dds_pkg_remotes WHERE remote_id = ?`; `ON DELETE CASCADE`
deletes the packages of the remote and, through them, their dependencies. -/
def delete_remote (db : pkg_db) (rowid : Int) : pkg_db :=
  delete_pkgs
    { db with dds_pkg_remotes := db.dds_pkg_remotes.filter (fun x => !(x.remote_id == rowid)) }
    (fun p => p.remote_id == some rowid)

/-- The function `dds::remove_remote`. -/
def remove_remote (db : pkg_db) (name : String) : pkg_db × Except remove_remote_error Unit :=
  transaction_guard db (fun db0 =>
    match unpack_single_opt (select_remote_id db0 name) with
    | none =>
      .error (.no_catalog_remote_info
        { given := name,
          nearest := did_you_mean name (db0.dds_pkg_remotes.map (fun x => x.name)) })
    | some rowid => .ok (delete_remote db0 rowid))

/-- A package database with the remote `repo-1`, one package imported from it (with a
dependency) and one package stored without a remote. -/
def remote_example_db : pkg_db :=
  { dds_pkg_remotes := [⟨1, "repo-1", "https://repo-1.dds.pizza", some "e1", none⟩],
    dds_pkgs := [⟨1, "foo", "1.2.3", "example", "git+http://example.com#master", none⟩,
                 ⟨2, "bar", "1.0.0", "bar", "dds+https://repo-1.dds.pizza/bar@1.0.0", some 1⟩],
    dds_pkg_deps := [⟨1, 2, "foo", "1.0.0", "2.0.0"⟩],
    seq_remotes := 1, seq_pkgs := 2, seq_deps := 1 }

/-- The remote `repo-1`, its base URL written with trailing slashes. -/
def repo_1 : pkg_remote :=
  { _name := "repo-1", _base_url := "https://repo-1.dds.pizza//" }

/-- An index with two packages: one with the shorthand URL `dds:bar@1.1.0`, one with a URL
whose scheme is written `DDS:`. -/
def example_index : remote_index :=
  { dds_repo_packages := some [⟨10, "bar", "1.1.0", "bar", "dds:bar@1.1.0"⟩,
                               ⟨11, "baz", "2.0.0", "baz", "DDS:baz@2.0.0"⟩],
    dds_repo_package_deps := some [⟨10, "foo", "1.0.0", "2.0.0"⟩] }

/-- The database `remote_example_db` after `repo_1` imported `example_index`, answered with
the ETag `e2` and the Last-Modified `m2`. -/
def updated_example_db : pkg_db :=
  { dds_pkg_remotes := [⟨1, "repo-1", "https://repo-1.dds.pizza", some "e2", some "m2"⟩],
    dds_pkgs := [⟨1, "foo", "1.2.3", "example", "git+http://example.com#master", none⟩,
                 ⟨3, "bar", "1.1.0", "bar", "dds+https://repo-1.dds.pizza/bar@1.1.0", some 1⟩,
                 ⟨4, "baz", "2.0.0", "baz", "dds+https://repo-1.dds.pizza/baz@2.0.0", some 1⟩],
    dds_pkg_deps := [⟨2, 3, "foo", "1.0.0", "2.0.0"⟩],
    seq_remotes := 1, seq_pkgs := 4, seq_deps := 2 }

/-- An index with one package whose URL names a git repository. -/
def git_index : remote_index :=
  { dds_repo_packages := some [⟨20, "baz", "2.0.0", "baz",
                                "git+https://example.com/baz.git#2.0.0"⟩],
    dds_repo_package_deps := some [] }

/-! ## The package cache (`src/dds/pkg/cache.cpp`) -/

/-- The enumeration `test_lib`. -/
inductive test_lib where
  | catch_
  | catch_main
  deriving DecidableEq, Repr

/-- The structure `package_manifest` (`src/dds/sdist/package.hpp`). -/
structure package_manifest where
  id : pkg_id
  namespace_ : String
  test_driver : Option test_lib
  dependencies : List dependency
  deriving DecidableEq, Repr

/-- The value `sdist`: a parsed manifest and the directory it was read from. -/
structure sdist where
  manifest : package_manifest
  path : String
  deriving DecidableEq, Repr

/-- The enumeration `if_exists` of `add_sdist`. -/
inductive if_exists where
  | replace
  | throw_exc
  | ignore
  deriving DecidableEq, Repr

/-- The contents of a directory tree: each file under it, by relative path, with its
bytes. -/
abbrev dir_contents := List (String × String)

/-- The directory trees on disk that `add_sdist` deals with, by path: the entries of the cache
root and the directories sdists are imported from. The trees are taken not to lie inside one
another. -/
abbrev filesystem := List (String × dir_contents)

/-- The call `fs::exists(p)`. -/
def filesystem.exists (fs : filesystem) (p : String) : Bool :=
  fs.any (fun e => e.1 == p)

/-- The path `a / b`. -/
def path_join (a b : String) : String :=
  a ++ "/" ++ b

/-- One filesystem call of `add_sdist`. -/
inductive fs_step where
  | remove_all (p : String)
  | create_directories (p : String)
  | copy (src dst : String)
  | rename (src dst : String)
  deriving DecidableEq, Repr

/-- The effect of one filesystem call; `none` when the call throws
`fs::filesystem_error`. `remove_all` removes the tree if there is one; `create_directories`
is called on the cache root, which exists; a recursive `copy` needs its source and puts the
tree at the destination (`add_sdist` has removed the destination just before; a copy onto an
existing tree counts as a failure here); `rename` needs its source and moves the tree onto a
destination that does not exist. -/
def fs_step.run (fs : filesystem) : fs_step → Option filesystem
  | .remove_all p => some (fs.filter (fun e => !(e.1 == p)))
  | .create_directories _ => some fs
  | .copy src dst =>
    match fs.lookup src with
    | none => none
    | some tree => if fs.exists dst then none else some (fs ++ [(dst, tree)])
  | .rename src dst =>
    match fs.lookup src with
    | none => none
    | some tree =>
      if fs.exists dst then none
      else some (fs.filter (fun e => !(e.1 == src)) ++ [(dst, tree)])

/-- The class `pkg_cache`; `_sdists` is the `sdist_set`, a set ordered and keyed by the
package id of the manifest. -/
structure pkg_cache where
  _write_enabled : Bool
  _root : String
  _sdists : List sdist
  deriving DecidableEq, Repr

/-- Modelled from the spec: `sdist_set::insert`; the set type is declared in `cache.hpp`,
which is not among the sources. As in every `std::set`, an element whose key (the package id)
is already present is not inserted. -/
def sdist_set_insert (s : List sdist) (sd : sdist) : List sdist :=
  if s.any (fun x => x.manifest.id == sd.manifest.id) then s else s ++ [sd]

/-- What `add_sdist` ends with when it does not return. -/
inductive add_sdist_error where
  /-- The call of `std::terminate()` for a cache not opened for writing. -/
  | terminated
  /-- The user error `errc::sdist_exists`. -/
  | sdist_exists
  /-- An exception of a filesystem call. -/
  | filesystem_error
  /-- An exception of `sdist::from_directory`. -/
  | invalid_sdist
  deriving DecidableEq, Repr

/-- The filesystem calls of `add_sdist` after the check of the destination, in order; the two
`remove_all` calls are guarded by `fs::exists` in the source, which `remove_all` subsumes. -/
def add_sdist_steps (root : String) (sd : sdist) : List fs_step :=
  let sd_dest := path_join root sd.manifest.id.to_string
  let tmp_copy := path_join root ".tmp-import"
  [.remove_all tmp_copy, .create_directories root, .copy sd.path tmp_copy,
   .remove_all sd_dest, .rename tmp_copy sd_dest]

/-- Run filesystem calls in order; when one throws, the calls before it have taken effect. -/
def run_fs_steps : filesystem → List fs_step → filesystem × Option Unit
  | fs, [] => (fs, some ())
  | fs, s :: ss =>
    match s.run fs with
    | none => (fs, none)
    | some fs1 => run_fs_steps fs1 ss

/-- The function `pkg_cache::add_sdist`. `from_directory` is `sdist::from_directory`, which
reads the manifest of a directory (its source is not at hand). The result is the filesystem
and the cache object after the call with the exception thrown, if any. -/
def pkg_cache.add_sdist (from_directory : String → dir_contents → Option sdist)
    (c : pkg_cache) (fs : filesystem) (sd : sdist) (ife_action : if_exists) :
    (filesystem × pkg_cache) × Except add_sdist_error Unit :=
  if !c._write_enabled then ((fs, c), .error .terminated)
  else
    let sd_dest := path_join c._root sd.manifest.id.to_string
    if fs.exists sd_dest && ife_action == .throw_exc then ((fs, c), .error .sdist_exists)
    else if fs.exists sd_dest && ife_action == .ignore then ((fs, c), .ok ())
    else
      match run_fs_steps fs (add_sdist_steps c._root sd) with
      | (fs1, none) => ((fs1, c), .error .filesystem_error)
      | (fs1, some _) =>
        match (fs1.lookup sd_dest).bind (from_directory sd_dest) with
        | none => ((fs1, c), .error .invalid_sdist)
        | some loaded =>
          ((fs1, { c with _sdists := sdist_set_insert c._sdists loaded }), .ok ())

/-- A cache at `/cache`, opened for writing, that holds `foo@1.2.3`. -/
def example_cache : pkg_cache :=
  { _write_enabled := true, _root := "/cache",
    _sdists := [{ manifest := { id := ⟨"foo", "1.2.3"⟩, namespace_ := "ns", test_driver := none,
                                dependencies := [] },
                  path := "/cache/foo@1.2.3" }] }

/-- The disk of `example_cache`, with a new copy of `foo@1.2.3` at `/src/foo`. -/
def example_fs : filesystem :=
  [("/cache/foo@1.2.3", [("package.json5", "old"), ("src/foo.cpp", "old")]),
   ("/src/foo", [("package.json5", "new"), ("src/foo.cpp", "new")])]

/-- The sdist at `/src/foo`. -/
def new_foo : sdist :=
  { manifest := { id := ⟨"foo", "1.2.3"⟩, namespace_ := "ns", test_driver := none,
                  dependencies := [] },
    path := "/src/foo" }

/-- The states of the disk while `fs::remove_all(p)` runs, in order: the files of the tree are
unlinked one at a time (here in the order of the listing), then the emptied directory is
removed. The first state is the one before the call, the last the one after it. -/
def remove_all_states (fs : filesystem) (p : String) : List filesystem :=
  match fs.lookup p with
  | none => [fs]
  | some tree =>
    (List.range (tree.length + 1)).map
        (fun k => fs.map (fun e => if e.1 == p then (e.1, e.2.drop k) else e))
      ++ [fs.filter (fun e => !(e.1 == p))]

/-- The states of the disk while the recursive `fs::copy(src, dst)` runs, in order: the
directory is created, then the files are copied one at a time. -/
def copy_states (fs : filesystem) (src dst : String) : List filesystem :=
  match fs.lookup src with
  | none => [fs]
  | some tree =>
    if fs.exists dst then [fs]
    else fs :: (List.range (tree.length + 1)).map (fun k => fs ++ [(dst, tree.take k)])

/-- The states of the disk while one filesystem call runs, from the state before the call to
the state after it; `rename` is one system call and has no state in between. -/
def fs_step.states (fs : filesystem) : fs_step → List filesystem
  | .remove_all p => remove_all_states fs p
  | .create_directories _ => [fs]
  | .copy src dst => copy_states fs src dst
  | .rename src dst =>
    match (fs_step.rename src dst).run fs with
    | none => [fs]
    | some fs1 => [fs, fs1]

/-- Every state in which the disk can be left when a sequence of filesystem calls is
interrupted: the states of each call, as long as the calls before it returned. -/
def interrupted_states : filesystem → List fs_step → List filesystem
  | fs, [] => [fs]
  | fs, s :: ss =>
    s.states fs ++
      (match s.run fs with
       | none => []
       | some fs1 => interrupted_states fs1 ss)

/-- The disk of `example_fs` at the moment `remove_all` of the old `foo@1.2.3` has unlinked
its first file, the new copy waiting in `.tmp-import`. -/
def half_removed_fs : filesystem :=
  [("/cache/foo@1.2.3", [("src/foo.cpp", "old")]),
   ("/src/foo", [("package.json5", "new"), ("src/foo.cpp", "new")]),
   ("/cache/.tmp-import", [("package.json5", "new"), ("src/foo.cpp", "new")])]

/-- Modelled from the spec: a stand-in for `sdist::from_directory` (`sdist/dist.cpp` is not
among the sources) on directories of `foo@1.2.3`: the directory is read as that package when
it has a manifest file. -/
def read_foo (p : String) (tree : dir_contents) : Option sdist :=
  if tree.any (fun e => e.1 == "package.json5") then
    some { manifest := { id := ⟨"foo", "1.2.3"⟩, namespace_ := "ns", test_driver := none,
                         dependencies := [] },
           path := p }
  else none

/-! ## Levenshtein distance, as the spec defines it -/

/-- The cost of putting `y` where `x` is: nothing when they are the same character. -/
def substitution_cost (x y : Char) : Nat :=
  if x = y then 0 else 1

/-- The standard recursive definition of the unweighted Levenshtein distance (the spec's
words for what `lev_edit_distance` computes): the distance to or from the empty string is the
length of the other string; otherwise the least of deleting the first character, inserting
one, and substituting one. -/
def levenshtein_distance : List Char → List Char → Nat
  | [], b => b.length
  | x :: a, [] => (x :: a).length
  | x :: a, y :: b =>
    min (min (levenshtein_distance a (y :: b) + 1) (levenshtein_distance (x :: a) b + 1))
      (levenshtein_distance a b + substitution_cost x y)
termination_by a b => a.length + b.length

/-- One step of an edit script that walks over a string from left to right. -/
inductive edit_op where
  /-- Leave the next character as it is. -/
  | keep
  /-- Delete the next character. -/
  | delete
  /-- Insert a character before the next one. -/
  | insert (c : Char)
  /-- Put a character in the place of the next one. -/
  | substitute (c : Char)
  deriving DecidableEq, Repr

/-- The number of insertions, deletions and substitutions of an edit script. -/
def edit_cost : List edit_op → Nat
  | [] => 0
  | .keep :: ops => edit_cost ops
  | _ :: ops => edit_cost ops + 1

/-- The string an edit script turns a string into; what the script does not reach is kept. -/
def apply_edits : List edit_op → List Char → Option (List Char)
  | [], s => some s
  | .keep :: ops, x :: s => (apply_edits ops s).map (fun r => x :: r)
  | .delete :: ops, _ :: s => apply_edits ops s
  | .insert c :: ops, s => (apply_edits ops s).map (fun r => c :: r)
  | .substitute c :: ops, _ :: s => (apply_edits ops s).map (fun r => c :: r)
  | _, _ => none

/-! ## The CLI error handler (`src/dds/cli/error_handler.cpp`) -/

/-- The type of an exception that leaves the wrapped function, as far as the handlers tell
exception types apart. -/
inductive exception_type where
  /-- An exception derived from `dds::error_base`. -/
  | error_base
  /-- The exception `neo::url_validation_error`. -/
  | url_validation_error
  /-- The exception `dds::user_cancelled`. -/
  | user_cancelled
  /-- The exception `std::system_error`. -/
  | system_error
  /-- Any other exception. -/
  | other
  deriving DecidableEq, Repr

/-- What reaches `boost::leaf::try_catch`: the exception with the error objects that were
loaded while it travelled up (`e_url_string`, `json5::parse_error`, `e_file_name`,
`e_system_error_exc`), each present or not. -/
structure thrown_error where
  exception : exception_type
  e_url_string : Option String
  parse_error : Option String
  e_file_name : Option String
  e_system_error_exc : Option String
  deriving DecidableEq, Repr

/-- What a call of the wrapped function `fn` ends with. -/
inductive fn_outcome where
  | returned (rc : Int)
  | threw (e : thrown_error)
  deriving DecidableEq, Repr

/-- The tuple `handlers`, in its order: for each handler, whether every argument it asks for
is there (an optional `e_file_name*` argument always is), and the value it returns. -/
def handlers : List ((thrown_error → Bool) × Int) :=
  [ (fun e => e.exception == .url_validation_error && e.e_url_string.isSome, 1),
    (fun e => e.exception == .error_base && e.parse_error.isSome, 1),
    (fun e => e.exception == .error_base, 1),
    (fun e => e.exception == .user_cancelled, 2),
    (fun e => e.e_system_error_exc.isSome, 42),
    (fun _ => true, 42) ]

/-- The function `dds::handle_cli_errors`: `boost::leaf::try_catch(fn, handlers)` returns what
`fn` returns, and for an exception what the first handler that can be called returns; `none`
would be an exception no handler takes. -/
def handle_cli_errors (fn : fn_outcome) : Option Int :=
  match fn with
  | .returned rc => some rc
  | .threw e => (handlers.find? (fun h => h.1 e)).map (fun h => h.2)

/-! ## Examples for re-storing and for updates that meet other packages -/

/-- A second listing of `foo@1.2.3`, the package of `foo_with_deps`, that depends on `bar`
alone, in another version range. -/
def foo_with_bar_2 : pkg_listing :=
  { ident := { name := "foo", version := "1.2.3" },
    deps := [{ name := "bar", versions := [("2.0.0", "3.0.0")] }],
    description := "example",
    remote_pkg := "git+http://example.com#master" }

/-- The tables after `foo_with_deps` and then `foo_with_bar_2` were stored in a new
database. -/
def foo_restored_db : pkg_db :=
  { dds_pkg_remotes := [],
    dds_pkgs := [⟨1, "foo", "1.2.3", "example", "git+http://example.com#master", none⟩,
                 ⟨2, "foo", "1.2.3", "example", "git+http://example.com#master", none⟩],
    dds_pkg_deps := [⟨1, 1, "baz", "5.3.0", "6.0.0"⟩, ⟨2, 1, "bar", "1.2.3", "1.4.0"⟩,
                     ⟨3, 2, "bar", "2.0.0", "3.0.0"⟩],
    seq_remotes := 0, seq_pkgs := 2, seq_deps := 3 }

/-- The comparison `operator<` of `pkg_id`: `std::tie(name, version)` compared
lexicographically. `version_lt` is the order of `semver::version`, which is not among the
sources. -/
def pkg_id.lt (version_lt : String → String → Bool) (lhs rhs : pkg_id) : Bool :=
  decide (lhs.name < rhs.name) || (!decide (rhs.name < lhs.name) && version_lt lhs.version rhs.version)

/-- The algorithm `ranges::sort(v, less)`: the vector in ascending order. -/
def ranges_sort {α : Type} (less : α → α → Bool) (v : List α) : List α :=
  v.insertionSort (fun a b => less b a = false)

/-- The algorithm `ranges::adjacent_find(v, pred)`: the index of the first element that
stands in `pred` to its successor, the length of `v` when there is none. -/
def adjacent_find {α : Type} (pred : α → α → Bool) : List α → Nat
  | [] => 0
  | [_] => 1
  | x :: y :: rest => if pred x y then 0 else adjacent_find pred (y :: rest) + 1

/-- The loop of `ranges::unique` over the indices `i`: an element that does not stand in
`pred` to `*first` is moved to the place after `first`, which moves on; what is left in the
place moved from is unspecified (here: the old value). -/
def unique_loop {α : Type} (pred : α → α → Bool) : List α → Nat → List Nat → List α × Nat
  | v, first, [] => (v, first)
  | v, first, i :: is =>
    match v.get? first, v.get? i with
    | some at_first, some at_i =>
      if !pred at_first at_i then unique_loop pred (v.set (first + 1) at_i) (first + 1) is
      else unique_loop pred v first is
    | _, _ => (v, first)

/-- The algorithm `ranges::unique(v, pred)`: it works in place and returns the end of the
range it kept; the vector keeps its size. The result is the vector after the call with the
index returned. -/
def ranges_unique {α : Type} (pred : α → α → Bool) (v : List α) : List α × Nat :=
  let first := adjacent_find pred v
  if first != v.length then
    let r := unique_loop pred v first (List.range' (first + 2) (v.length - (first + 2)))
    (r.1, r.2 + 1)
  else (v, first)

/-- The first callback `pkg_cache::solve` hands to the solver: the candidates for a name.
The iterator `ranges::unique` returns is dropped, so the whole vector is returned. -/
def pkg_cache.solve_candidates (version_lt : String → String → Bool) (c : pkg_cache)
    (ctlg : pkg_db) (name : String) : List pkg_id :=
  let mine := (c._sdists.filter (fun sd => sd.manifest.id.name == name)).map
    (fun sd => sd.manifest.id)
  let avail := ctlg.by_name name
  let all := mine ++ avail
  let all := ranges_sort (pkg_id.lt version_lt) all
  (ranges_unique (pkg_id.lt version_lt) all).1

/-! ## String utilities (`src/dds/util/string.hpp`)

A `std::string` or `std::string_view` is taken as the list of its `char`s. The three scanning
functions are `while` loops; a loop is unrolled a given number of times (its fuel), and the
result is `none` when the loop has not ended by then. -/

/-- The search of `std::string_view::find` through the characters from index `i` on: the
first index at which `key` begins. -/
def find_from (key : List Char) : List Char → Nat → Option Nat
  | [], i => if key.isPrefixOf [] then some i else none
  | c :: s, i => if key.isPrefixOf (c :: s) then some i else find_from key s (i + 1)

/-- The call `str.find(key, pos)`: the first index not before `pos` at which `key` begins;
`none` is `npos`. -/
def find (str key : List Char) (pos : Nat) : Option Nat :=
  if pos ≤ str.length then find_from key (str.drop pos) pos else none

/-- The call `str.substr(pos, n)`. -/
def substr (str : List Char) (pos n : Nat) : List Char :=
  (str.drop pos).take n

/-- The loop of `split_view` and of `split` with the statement after it, from the state
`prev_pos`, `ret`. -/
def split_loop (str sep : List Char) : Nat → Nat → List (List Char) → Option (List (List Char))
  | 0, _, _ => none
  | fuel + 1, prev_pos, ret =>
    match find str sep prev_pos with
    | some pos =>
      split_loop str sep fuel (pos + sep.length) (ret ++ [substr str prev_pos (pos - prev_pos)])
    | none => some (ret ++ [str.drop prev_pos])

/-- The function `dds::split_view`; a view is taken as the characters it shows. -/
def split_view (str sep : List Char) : Option (List (List Char)) :=
  split_loop str sep (str.length + 1) 0 []

/-- The function `dds::split`. -/
def split (str sep : List Char) : Option (List (List Char)) :=
  split_loop str sep (str.length + 1) 0 []

/-- The loop of `replace` with the statement after it, from the state `pos`, `prev_pos`,
`ret`. -/
def replace_loop (str key repl : List Char) : Nat → Nat → Nat → List Char → Option (List Char)
  | 0, _, _, _ => none
  | fuel + 1, pos, prev_pos, ret =>
    match find str key pos with
    | some pos1 =>
      replace_loop str key repl fuel (pos1 + key.length) (pos1 + key.length)
        (ret ++ substr str prev_pos (pos1 - prev_pos) ++ repl)
    | none => some (ret ++ str.drop prev_pos)

/-- The function `dds::replace` on one string. -/
def replace (str key repl : List Char) : Option (List Char) :=
  replace_loop str key repl (str.length + 1) 0 0 []

/-- The function `dds::joinstr`. -/
def joinstr (joiner : List Char) : List (List Char) → List Char
  | [] => []
  | [item] => item
  | item :: next :: rest => item ++ joiner ++ joinstr joiner (next :: rest)

/-! ## Theorems -/

theorem le_foldl_max (is : List Int) (i : Int) :
    i ≤ is.foldl max i ∧ ∀ x ∈ is, x ≤ is.foldl max i := by
  induction is generalizing i with
  | nil => simp
  | cons j js ih =>
    simp only [List.foldl_cons, List.mem_cons, forall_eq_or_imp]
    obtain ⟨h1, h2⟩ := ih (max i j)
    refine ⟨le_trans (le_max_left i j) h1, le_trans (le_max_right i j) h1, h2⟩

theorem lt_next_rowid {ids : List Int} {x : Int} (hx : x ∈ ids) : x < next_rowid ids := by
  cases ids with
  | nil => simp at hx
  | cons i is =>
    simp only [next_rowid]
    obtain ⟨h1, h2⟩ := le_foldl_max is i
    rcases List.mem_cons.mp hx with h | h
    · omega
    · have := h2 x h
      omega

theorem next_rowid_not_mem (ids : List Int) : next_rowid ids ∉ ids := by
  intro h
  exact lt_irrefl _ (lt_next_rowid h)

theorem mem_select_file_id {files : List source_file_row} {p : String} {id : Int} :
    id ∈ select_file_id files p ↔ ∃ f ∈ files, f.path = p ∧ f.file_id = id := by
  simp [select_file_id, and_assoc]

theorem select_file_id_append (xs ys : List source_file_row) (p : String) :
    select_file_id (xs ++ ys) p = select_file_id xs p ++ select_file_id ys p := by
  simp [select_file_id]

theorem select_file_id_eq_nil {files : List source_file_row} {p : String}
    (h : p ∉ files.map (fun f => f.path)) : select_file_id files p = [] := by
  simp only [select_file_id, List.map_eq_nil_iff, List.filter_eq_nil_iff]
  intro f hf hp
  apply h
  simp only [List.mem_map]
  exact ⟨f, hf, by simpa using hp⟩

theorem select_file_id_of_mem {files : List source_file_row}
    (hp : (files.map (fun f => f.path)).Nodup) {f : source_file_row} (hf : f ∈ files) :
    select_file_id files f.path = [f.file_id] := by
  induction files with
  | nil => simp at hf
  | cons g gs ih =>
    simp only [List.map_cons, List.nodup_cons] at hp
    rcases List.mem_cons.mp hf with h | h
    · subst h
      have : select_file_id gs f.path = [] := select_file_id_eq_nil hp.1
      have h2 := select_file_id_append [f] gs f.path
      simp only [List.singleton_append] at h2
      rw [h2, this]
      simp [select_file_id]
    · have hne : g.path ≠ f.path := by
        intro e
        apply hp.1
        rw [e]
        exact List.mem_map_of_mem _ h
      have h2 := select_file_id_append [g] gs f.path
      simp only [List.singleton_append] at h2
      rw [h2, ih hp.2 h]
      simp [select_file_id, hne]


theorem files_extend_refl (files : List source_file_row) : files_extend files files :=
  ⟨[], by simp, by simp⟩

theorem files_extend_trans {a b c : List source_file_row} (h1 : files_extend a b)
    (h2 : files_extend b c) : files_extend a c := by
  obtain ⟨e1, rfl, he1⟩ := h1
  obtain ⟨e2, rfl, he2⟩ := h2
  refine ⟨e1 ++ e2, by simp, ?_⟩
  intro f hf
  rcases List.mem_append.mp hf with h | h
  · exact he1 f h
  · obtain ⟨h3, h4⟩ := he2 f h
    simp only [List.map_append, List.mem_append, not_or] at h3 h4
    exact ⟨h3.1, h4.1⟩

theorem unpack_single_opt_filter {α : Type} (p : α → Bool) (l : List α) :
    unpack_single_opt (l.filter p) = l.find? p := by
  induction l with
  | nil => rfl
  | cons a as ih =>
    by_cases h : p a
    · simp [List.filter_cons, h, unpack_single_opt]
    · simp [List.filter_cons, h, ih]

theorem record_file_spec (db : database) (p : String)
    (hpath : (db.dds_source_files.map (fun f => f.path)).Nodup)
    (hid : (db.dds_source_files.map (fun f => f.file_id)).Nodup) :
    ∃ files1 id,
      db._record_file p = .ok ({ db with dds_source_files := files1 }, id) ∧
      (⟨id, p⟩ : source_file_row) ∈ files1 ∧
      select_file_id files1 p = [id] ∧
      (files1.map (fun f => f.path)).Nodup ∧
      (files1.map (fun f => f.file_id)).Nodup ∧
      files_extend db.dds_source_files files1 ∧
      (p ∈ db.dds_source_files.map (fun f => f.path) → files1 = db.dds_source_files) := by
  by_cases hany : p ∈ db.dds_source_files.map (fun f => f.path)
  · obtain ⟨f, hf, hfp⟩ := List.mem_map.mp hany
    have hsel := select_file_id_of_mem hpath hf
    rw [hfp] at hsel
    have hins : insert_or_ignore_source_file db.dds_source_files p = db.dds_source_files := by
      unfold insert_or_ignore_source_file
      rw [if_pos]
      simp only [List.any_eq_true, beq_iff_eq]
      exact ⟨f, hf, hfp⟩
    refine ⟨db.dds_source_files, f.file_id, ?_, ?_, hsel, hpath, hid, files_extend_refl _,
      fun _ => rfl⟩
    · simp [database._record_file, hins, hsel, unpack_single]
    · rw [← hfp]
      exact hf
  · have hins : insert_or_ignore_source_file db.dds_source_files p
        = db.dds_source_files
          ++ [⟨next_rowid (db.dds_source_files.map (fun f => f.file_id)), p⟩] := by
      unfold insert_or_ignore_source_file
      rw [if_neg]
      simp only [List.any_eq_true, beq_iff_eq, not_exists, not_and]
      intro f hf hfp
      exact hany (List.mem_map.mpr ⟨f, hf, hfp⟩)
    have hsel : select_file_id (db.dds_source_files
          ++ [⟨next_rowid (db.dds_source_files.map (fun f => f.file_id)), p⟩]) p
        = [next_rowid (db.dds_source_files.map (fun f => f.file_id))] := by
      rw [select_file_id_append, select_file_id_eq_nil hany]
      simp [select_file_id]
    have hfresh := next_rowid_not_mem (db.dds_source_files.map (fun f => f.file_id))
    refine ⟨_, next_rowid (db.dds_source_files.map (fun f => f.file_id)), ?_, ?_, hsel, ?_, ?_,
      ?_, fun h => absurd h hany⟩
    · simp [database._record_file, hins, hsel, unpack_single]
    · simp
    · rw [List.map_append, List.nodup_append]
      refine ⟨hpath, by simp, ?_⟩
      intro a ha hb
      simp only [List.map_cons, List.map_nil, List.mem_singleton] at hb
      exact hany (hb ▸ ha)
    · rw [List.map_append, List.nodup_append]
      refine ⟨hid, by simp, ?_⟩
      intro a ha hb
      simp only [List.map_cons, List.map_nil, List.mem_singleton] at hb
      exact hfresh (hb ▸ ha)
    · refine ⟨_, rfl, ?_⟩
      intro f hf
      simp only [List.mem_singleton] at hf
      subst hf
      exact ⟨hfresh, hany⟩


theorem compilation_record_eq_find (db : database) (s : String) (id : Int)
    (h : select_file_id db.dds_source_files s = [id]) :
    db.compilation_record s = db.dds_compilations.find? (fun c => c.file_id == id) := by
  unfold database.compilation_record compilation_rows_of
  rw [unpack_single_opt_filter, h]
  congr 1
  funext c
  by_cases hc : c.file_id = id <;> simp [hc]

theorem command_of_eq_map (db : database) (s : String) :
    db.command_of s = (db.compilation_record s).map
      (fun r => { quoted_command := r.command, output := r.output, duration := r.avg_duration }) := by
  unfold database.command_of database.compilation_record
  cases unpack_single_opt (compilation_rows_of db s) <;> rfl

theorem find?_map_update {α : Type} (p : α → Bool) (r1 : α) (hp : p r1 = true) (l : List α)
    (h : (l.find? p).isSome) :
    (l.map (fun x => if p x then r1 else x)).find? p = some r1 := by
  induction l with
  | nil => simp at h
  | cons a as ih =>
    by_cases ha : p a
    · simp [ha, hp]
    · simp only [List.find?_cons, ha] at h
      simp [ha, ih h]

theorem on_conflict_update_slow (r : compilation_row) (command output : String) (d : Int)
    (hd : 500 ≤ d) (hn : r.n_compilations ≠ -1) :
    on_conflict_update r command output d
      = some { r with command := command, output := output,
                      n_compilations := min 10 (r.n_compilations + 1),
                      avg_duration := r.avg_duration
                        + Int.tdiv (d - r.avg_duration) (min 10 (r.n_compilations + 1)) } := by
  have h1 : ¬ d < 500 := by omega
  have h2 : min 10 (r.n_compilations + 1) ≠ 0 := by omega
  simp [on_conflict_update, sql_div, h1, h2]

theorem on_conflict_update_fast (r : compilation_row) (command output : String) (d : Int)
    (hd : d < 500) :
    on_conflict_update r command output d
      = some { r with command := command, output := output } := by
  simp [on_conflict_update, hd]

theorem on_conflict_update_fields {r r1 : compilation_row} {command output : String} {d : Int}
    (h : on_conflict_update r command output d = some r1) :
    r1.file_id = r.file_id ∧ r1.command = command ∧ r1.output = output := by
  unfold on_conflict_update at h
  by_cases hd : d < 500
  · simp only [hd, if_true, Option.some.injEq] at h
    subst h
    exact ⟨rfl, rfl, rfl⟩
  · cases hq : sql_div (d - r.avg_duration) (min 10 (r.n_compilations + 1)) with
    | none => simp [hd, hq] at h
    | some q =>
      simp only [hd, if_false, hq, Option.map_some', Option.some.injEq] at h
      subst h
      exact ⟨rfl, rfl, rfl⟩

theorem upsert_existing {rows : List compilation_row} {id : Int} {command output : String}
    {d : Int} {r r1 : compilation_row}
    (hf : rows.find? (fun c => c.file_id == id) = some r)
    (hu : on_conflict_update r command output d = some r1) :
    ∃ rows1, upsert_compilation rows id command output d = .ok rows1 ∧
      rows1.find? (fun c => c.file_id == id) = some r1 := by
  refine ⟨rows.map (fun x => if x.file_id == id then r1 else x), ?_, ?_⟩
  · simp [upsert_compilation, hf, hu]
  · have hr : r.file_id = id := by simpa using List.find?_some hf
    have h1 : r1.file_id = id := (on_conflict_update_fields hu).1.trans hr
    exact find?_map_update (fun c => c.file_id == id) r1 (by simp [h1]) rows (by simp [hf])

theorem upsert_new {rows : List compilation_row} {id : Int} (command output : String)
    (d : Int) (hf : rows.find? (fun c => c.file_id == id) = none) :
    ∃ rows1 r1, upsert_compilation rows id command output d = .ok rows1 ∧
      rows1.find? (fun c => c.file_id == id) = some r1 ∧
      r1.command = command ∧ r1.output = output ∧ r1.n_compilations = 1 ∧
      r1.avg_duration = d := by
  refine ⟨rows ++ [⟨next_rowid (rows.map (fun r => r.compile_id)), id, command, output, 1, d⟩],
    ⟨next_rowid (rows.map (fun r => r.compile_id)), id, command, output, 1, d⟩,
    ?_, ?_, rfl, rfl, rfl, rfl⟩
  · simp [upsert_compilation, hf]
  · simp [List.find?_append, hf]

/-- C1. For a source that has a compilation record with sample count `n` and average `avg`,
recording a duration `d ≥ 500` succeeds and stores `n1 = min 10 (n + 1)` and
`avg + (d - avg) / n1`, the division truncating toward zero. The sample count `-1`, which
no record ever holds, is the one value excluded: there the SQL division is by zero. -/
theorem record_compilation_bounded_average (db : database) (hwf : db.well_formed) (s : String)
    (cmd : completed_compilation) (r : compilation_row)
    (hr : db.compilation_record s = some r) (hd : 500 ≤ cmd.duration)
    (hn : r.n_compilations ≠ -1) :
    ∃ db1 r1, db.record_compilation s cmd = .ok db1 ∧
      db1.compilation_record s = some r1 ∧
      r1.n_compilations = min 10 (r.n_compilations + 1) ∧
      r1.avg_duration
        = r.avg_duration + Int.tdiv (cmd.duration - r.avg_duration) r1.n_compilations := by
  obtain ⟨files1, id, hrec, hmem, hsel, -, -, -, hsame⟩ :=
    record_file_spec db s hwf.path_unique hwf.file_id_pk
  have hs : s ∈ db.dds_source_files.map (fun f => f.path) := by
    by_contra hno
    have h0 := select_file_id_eq_nil hno
    simp [database.compilation_record, compilation_rows_of, h0, unpack_single_opt] at hr
  have hfiles := hsame hs
  subst hfiles
  have hfind := compilation_record_eq_find db s id hsel
  rw [hr] at hfind
  obtain ⟨rows1, hup, hfind1⟩ := upsert_existing hfind.symm
    (on_conflict_update_slow r cmd.quoted_command cmd.output cmd.duration hd hn)
  refine ⟨{ db with dds_compilations := rows1 },
    { r with command := cmd.quoted_command, output := cmd.output,
             n_compilations := min 10 (r.n_compilations + 1),
             avg_duration := r.avg_duration
               + Int.tdiv (cmd.duration - r.avg_duration) (min 10 (r.n_compilations + 1)) },
    ?_, ?_, rfl, rfl⟩
  · simp [database.record_compilation, hrec, hup]
  · exact (compilation_record_eq_find
      { db with dds_compilations := rows1 } s id hsel).trans hfind1


theorem upsert_ok_find {rows rows1 : List compilation_row} {id : Int} {command output : String}
    {d : Int} (h : upsert_compilation rows id command output d = .ok rows1) :
    ∃ r1, rows1.find? (fun c => c.file_id == id) = some r1 ∧
      r1.command = command ∧ r1.output = output := by
  cases hf : rows.find? (fun c => c.file_id == id) with
  | none =>
    obtain ⟨rows2, r1, h2, hfind, hc, ho, -, -⟩ := upsert_new command output d hf
    rw [h2] at h
    cases h
    exact ⟨r1, hfind, hc, ho⟩
  | some r =>
    cases hu : on_conflict_update r command output d with
    | none => simp [upsert_compilation, hf, hu] at h
    | some r1 =>
      obtain ⟨rows2, h2, hfind⟩ := upsert_existing hf hu
      rw [h2] at h
      cases h
      exact ⟨r1, hfind, (on_conflict_update_fields hu).2⟩

theorem upsert_total {rows : List compilation_row} (id : Int) (command output : String)
    (d : Int) (hn : ∀ r ∈ rows, r.n_compilations ≠ -1) :
    ∃ rows1, upsert_compilation rows id command output d = .ok rows1 := by
  cases hf : rows.find? (fun c => c.file_id == id) with
  | none =>
    obtain ⟨rows2, r1, h2, -⟩ := upsert_new command output d hf
    exact ⟨rows2, h2⟩
  | some r =>
    have hr := hn r (List.mem_of_find?_eq_some hf)
    by_cases hd : d < 500
    · obtain ⟨rows2, h2, -⟩ := upsert_existing hf (on_conflict_update_fast r command output d hd)
      exact ⟨rows2, h2⟩
    · obtain ⟨rows2, h2, -⟩ := upsert_existing hf
        (on_conflict_update_slow r command output d (by omega) hr)
      exact ⟨rows2, h2⟩

theorem record_compilation_eq (db : database) (hwf : db.well_formed) (s : String)
    (cmd : completed_compilation) :
    ∃ files1 id,
      select_file_id files1 s = [id] ∧
      (files1.map (fun f => f.path)).Nodup ∧
      (files1.map (fun f => f.file_id)).Nodup ∧
      files_extend db.dds_source_files files1 ∧
      (s ∈ db.dds_source_files.map (fun f => f.path) → files1 = db.dds_source_files) ∧
      db.record_compilation s cmd
        = match upsert_compilation db.dds_compilations id cmd.quoted_command cmd.output
            cmd.duration with
          | .error e => .error e
          | .ok rows => .ok { db with dds_source_files := files1, dds_compilations := rows } := by
  obtain ⟨files1, id, hrec, -, hsel, hp, hi, hext, hsame⟩ :=
    record_file_spec db s hwf.path_unique hwf.file_id_pk
  refine ⟨files1, id, hsel, hp, hi, hext, hsame, ?_⟩
  simp only [database.record_compilation, hrec]

/-- C3. After `record_compilation(s, c)` returns, `command_of(s)` yields a record whose command
and output are those of `c`, whether or not `s` had a record before; and the call does return
whenever no stored sample count is `-1` (none ever is). -/
theorem command_of_after_record_compilation (db : database) (hwf : db.well_formed) (s : String)
    (c : completed_compilation) :
    (∀ db1, db.record_compilation s c = .ok db1 →
      ∃ cc, db1.command_of s = some cc ∧ cc.quoted_command = c.quoted_command ∧
        cc.output = c.output) ∧
    ((∀ r ∈ db.dds_compilations, r.n_compilations ≠ -1) →
      ∃ db1, db.record_compilation s c = .ok db1) := by
  obtain ⟨files1, id, hsel, -, -, -, -, heq⟩ := record_compilation_eq db hwf s c
  constructor
  · intro db1 hok
    rw [heq] at hok
    cases hup : upsert_compilation db.dds_compilations id c.quoted_command c.output c.duration with
    | error e => simp [hup] at hok
    | ok rows =>
      simp only [hup, Except.ok.injEq] at hok
      subst hok
      obtain ⟨r1, hfind, hc, ho⟩ := upsert_ok_find hup
      refine ⟨⟨r1.command, r1.output, r1.avg_duration⟩, ?_, hc, ho⟩
      rw [command_of_eq_map,
        compilation_record_eq_find
          { db with dds_source_files := files1, dds_compilations := rows } s id hsel]
      simp [hfind]
  · intro hn
    obtain ⟨rows, hup⟩ := upsert_total id c.quoted_command c.output c.duration hn
    exact ⟨_, by rw [heq, hup]⟩


theorem example_db_well_formed : example_db.well_formed :=
  ⟨by decide, by decide, by decide, by decide, by decide, by decide, by decide, by decide⟩

theorem record_compilation_bounded_average_witness :
    example_db.well_formed ∧
    example_db.compilation_record "/p/a.cpp" = some ⟨1, 1, "cc -c a.cpp", "", 3, 700⟩ ∧
    (500 : Int) ≤ 1500 ∧ (3 : Int) ≠ -1 ∧
    ∃ db1 r1, example_db.record_compilation "/p/a.cpp" ⟨"cc -c a.cpp -O2", "w", 1500⟩ = .ok db1 ∧
      db1.compilation_record "/p/a.cpp" = some r1 ∧
      r1.n_compilations = min 10 (3 + 1) ∧
      r1.avg_duration = 700 + Int.tdiv (1500 - 700) r1.n_compilations :=
  ⟨example_db_well_formed, by decide, by decide, by decide,
    record_compilation_bounded_average example_db example_db_well_formed "/p/a.cpp"
      ⟨"cc -c a.cpp -O2", "w", 1500⟩ ⟨1, 1, "cc -c a.cpp", "", 3, 700⟩ (by decide) (by decide)
      (by decide)⟩

theorem contains_singleton_int (x y : Int) : [x].contains y = (y == x) := by
  by_cases h : y = x <;> simp [h]

theorem flatMap_filter_eq {α β : Type} (q : α → Bool) (g : α → List β) (l : List α) :
    (l.filter q).flatMap g = l.flatMap (fun x => if q x then g x else []) := by
  induction l with
  | nil => rfl
  | cons a as ih =>
    by_cases h : q a
    · simp [List.filter_cons, h, ih]
    · simp [List.filter_cons, h, ih]

theorem flatMap_congr_mem {α β : Type} {g h : α → List β} {l : List α}
    (hgh : ∀ x ∈ l, g x = h x) : l.flatMap g = l.flatMap h := by
  induction l with
  | nil => rfl
  | cons a as ih =>
    simp only [List.flatMap_cons]
    rw [hgh a (List.mem_cons_self a as), ih (fun x hx => hgh x (List.mem_cons_of_mem a hx))]

theorem flatMap_eq_nil_of_forall {α β : Type} {g : α → List β} {l : List α}
    (hg : ∀ x ∈ l, g x = []) : l.flatMap g = [] := by
  induction l with
  | nil => rfl
  | cons a as ih =>
    simp only [List.flatMap_cons]
    rw [hg a (List.mem_cons_self a as), ih (fun x hx => hg x (List.mem_cons_of_mem a hx))]
    rfl

theorem row_eq_of_file_id {files : List source_file_row}
    (hid : (files.map (fun f => f.file_id)).Nodup) {f g : source_file_row} (hf : f ∈ files)
    (hg : g ∈ files) (h : f.file_id = g.file_id) : f = g :=
  List.inj_on_of_nodup_map hid hf hg h

theorem row_eq_of_path {files : List source_file_row}
    (hp : (files.map (fun f => f.path)).Nodup) {f g : source_file_row} (hf : f ∈ files)
    (hg : g ∈ files) (h : f.path = g.path) : f = g :=
  List.inj_on_of_nodup_map hp hf hg h

theorem mem_join_input_file {files : List source_file_row} {d : compile_dep_row}
    {e : input_file_info} :
    e ∈ join_input_file files d ↔
      ∃ f ∈ files, f.file_id = d.input_file_id ∧ e = ⟨f.path, d.input_mtime⟩ := by
  simp only [join_input_file, List.mem_map, List.mem_filter, beq_iff_eq]
  constructor
  · rintro ⟨f, ⟨hf, hfd⟩, rfl⟩
    exact ⟨f, hf, hfd.symm, rfl⟩
  · rintro ⟨f, hf, hfd, rfl⟩
    exact ⟨f, ⟨hf, hfd.symm⟩, rfl⟩

theorem join_input_file_of_mem {files : List source_file_row}
    (hid : (files.map (fun f => f.file_id)).Nodup) {f : source_file_row} (hf : f ∈ files)
    (d : compile_dep_row) (hd : d.input_file_id = f.file_id) :
    join_input_file files d = [⟨f.path, d.input_mtime⟩] := by
  induction files with
  | nil => simp at hf
  | cons g gs ih =>
    simp only [List.map_cons, List.nodup_cons] at hid
    rcases List.mem_cons.mp hf with h | h
    · subst h
      have hrest : gs.filter (fun x => f.file_id == x.file_id) = [] := by
        rw [List.filter_eq_nil_iff]
        intro x hx hxe
        simp only [beq_iff_eq] at hxe
        apply hid.1
        rw [hxe]
        exact List.mem_map_of_mem _ hx
      simp [join_input_file, List.filter_cons, hd, hrest]
    · have hne : ¬ d.input_file_id = g.file_id := by
        intro e
        apply hid.1
        rw [← e, hd]
        exact List.mem_map_of_mem _ h
      have := ih hid.2 h
      simp only [join_input_file] at this ⊢
      simp [List.filter_cons, hne, this]

theorem join_input_file_extend {files files1 : List source_file_row}
    (hext : files_extend files files1) {d : compile_dep_row}
    (hd : d.input_file_id ∈ files.map (fun f => f.file_id)) :
    join_input_file files1 d = join_input_file files d := by
  obtain ⟨extra, rfl, hextra⟩ := hext
  have : extra.filter (fun f => d.input_file_id == f.file_id) = [] := by
    rw [List.filter_eq_nil_iff]
    intro x hx hxe
    simp only [beq_iff_eq] at hxe
    exact (hextra x hx).1 (hxe ▸ hd)
  simp [join_input_file, List.filter_append, this]

theorem inputs_of_getD (db : database) (o : String) :
    (db.inputs_of o).getD [] = inputs_of_rows db o := by
  unfold database.inputs_of
  cases h : inputs_of_rows db o <;> simp

theorem record_dep_eq (db : database) (hwf : db.well_formed) (i o : String) (t : Int) :
    ∃ files2 in_id out_id,
      db.record_dep i o t
        = .ok { db with
                dds_source_files := files2,
                dds_compile_deps :=
                  db.dds_compile_deps.filter
                      (fun d => !(d.input_file_id == in_id && d.output_file_id == out_id))
                    ++ [⟨in_id, out_id, t⟩] } ∧
      (⟨in_id, i⟩ : source_file_row) ∈ files2 ∧
      (⟨out_id, o⟩ : source_file_row) ∈ files2 ∧
      (files2.map (fun f => f.path)).Nodup ∧
      (files2.map (fun f => f.file_id)).Nodup ∧
      files_extend db.dds_source_files files2 := by
  obtain ⟨files1, in_id, hrec1, hmem1, -, hp1, hi1, hext1, -⟩ :=
    record_file_spec db i hwf.path_unique hwf.file_id_pk
  obtain ⟨files2, out_id, hrec2, hmem2, -, hp2, hi2, hext2, -⟩ :=
    record_file_spec { db with dds_source_files := files1 } o hp1 hi1
  refine ⟨files2, in_id, out_id, ?_, ?_, hmem2, hp2, hi2, files_extend_trans hext1 hext2⟩
  · simp only [database.record_dep, hrec1, hrec2]
  · obtain ⟨extra, rfl, -⟩ := hext2
    exact List.mem_append_left _ hmem1

/-- C4. On a well-formed database `record_dep(i, o, t)` returns, and afterwards `inputs_of(o)`
is a list with exactly one entry for `i`, that entry carrying `t`, while its entries for other
inputs are those `inputs_of(o)` had before the call. -/
theorem inputs_of_after_record_dep (db : database) (hwf : db.well_formed) (i o : String)
    (t : Int) :
    ∃ db1 l, db.record_dep i o t = .ok db1 ∧ db1.inputs_of o = some l ∧
      l.filter (fun e => e.path == i) = [⟨i, t⟩] ∧
      l.filter (fun e => e.path != i)
        = ((db.inputs_of o).getD []).filter (fun e => e.path != i) := by
  obtain ⟨files2, in_id, out_id, hrec, hin, hout, hp2, hi2, hext⟩ := record_dep_eq db hwf i o t
  have hsub : ∀ f ∈ db.dds_source_files, f ∈ files2 := by
    obtain ⟨extra, rfl, -⟩ := hext
    exact fun f hf => List.mem_append_left _ hf
  have hselo : select_file_id files2 o = [out_id] := select_file_id_of_mem hp2 hout
  -- the rows of the query after the call
  have hrows : inputs_of_rows
      { db with
        dds_source_files := files2,
        dds_compile_deps :=
          db.dds_compile_deps.filter
              (fun d => !(d.input_file_id == in_id && d.output_file_id == out_id))
            ++ [⟨in_id, out_id, t⟩] } o
      = db.dds_compile_deps.flatMap
          (fun d => if (!(d.input_file_id == in_id && d.output_file_id == out_id)
              && d.output_file_id == out_id) then join_input_file files2 d else [])
        ++ [⟨i, t⟩] := by
    simp only [inputs_of_rows, hselo, contains_singleton_int, List.filter_append,
      List.filter_filter, List.flatMap_append, flatMap_filter_eq]
    congr 1
    · apply flatMap_congr_mem
      intro d _
      by_cases h1 : d.output_file_id = out_id <;> by_cases h2 : d.input_file_id = in_id <;>
        simp [h1, h2]
    · simp [join_input_file_of_mem hi2 hin ⟨in_id, out_id, t⟩ rfl]
  -- the rows of the query before the call
  have hbefore : inputs_of_rows db o
      = db.dds_compile_deps.flatMap
          (fun d => if (select_file_id db.dds_source_files o).contains d.output_file_id
            then join_input_file db.dds_source_files d else []) := by
    simp only [inputs_of_rows, flatMap_filter_eq]
  refine ⟨_, db.dds_compile_deps.flatMap
          (fun d => if (!(d.input_file_id == in_id && d.output_file_id == out_id)
              && d.output_file_id == out_id) then join_input_file files2 d else [])
        ++ [⟨i, t⟩], hrec, ?_, ?_, ?_⟩
  · simp only [database.inputs_of, hrows]
    simp
  · rw [List.filter_append, List.filter_flatMap]
    have : db.dds_compile_deps.flatMap (fun d =>
        (if (!(d.input_file_id == in_id && d.output_file_id == out_id)
              && d.output_file_id == out_id) then join_input_file files2 d else []).filter
          (fun e => e.path == i)) = [] := by
      apply flatMap_eq_nil_of_forall
      intro d hd
      split
      · rename_i hcond
        rw [List.filter_eq_nil_iff]
        intro e he hei
        simp only [beq_iff_eq] at hei
        obtain ⟨f, hf, hfd, rfl⟩ := mem_join_input_file.mp he
        have hfi : f = ⟨in_id, i⟩ := row_eq_of_path hp2 hf hin hei
        have : d.input_file_id = in_id := by rw [← hfd, hfi]
        simp only [Bool.and_eq_true, Bool.not_eq_true', beq_iff_eq] at hcond
        simp [this, hcond.2] at hcond
      · rfl
    rw [this]
    simp
  · rw [inputs_of_getD, hbefore, List.filter_append, List.filter_flatMap, List.filter_flatMap]
    have hnew : ([⟨i, t⟩] : List input_file_info).filter (fun e => e.path != i) = [] := by
      simp
    rw [hnew, List.append_nil]
    apply flatMap_congr_mem
    intro d hd
    have hdin := hwf.dep_input_fk d hd
    have hdout := hwf.dep_output_fk d hd
    have hjoin := join_input_file_extend hext hdin
    by_cases h1 : d.output_file_id = out_id
    · -- the output of this row is `o`
      have hcont : (select_file_id db.dds_source_files o).contains d.output_file_id = true := by
        obtain ⟨f, hf, hfid⟩ := List.mem_map.mp hdout
        have hfo : f = ⟨out_id, o⟩ := row_eq_of_file_id hi2 (hsub f hf) hout (by rw [hfid, h1])
        simp only [List.contains_eq_any_beq, List.any_eq_true, beq_iff_eq]
        refine ⟨d.output_file_id, mem_select_file_id.mpr ⟨f, hf, ?_, hfid⟩, rfl⟩
        rw [hfo]
      by_cases h2 : d.input_file_id = in_id
      · have : (join_input_file db.dds_source_files d).filter (fun e => e.path != i) = [] := by
          rw [List.filter_eq_nil_iff]
          intro e he
          obtain ⟨f, hf, hfd, rfl⟩ := mem_join_input_file.mp he
          have hfi : f = ⟨in_id, i⟩ := row_eq_of_file_id hi2 (hsub f hf) hin (by rw [hfd, h2])
          simp [hfi]
        have hc : (!(d.input_file_id == in_id && d.output_file_id == out_id)
            && d.output_file_id == out_id) = false := by simp [h1, h2]
        simp only [hc, hcont, if_true, Bool.false_eq_true, if_false, List.filter_nil, this]
      · have hc : (!(d.input_file_id == in_id && d.output_file_id == out_id)
            && d.output_file_id == out_id) = true := by simp [h1, h2]
        simp only [hc, hcont, if_true, hjoin]
    · have hcont : (select_file_id db.dds_source_files o).contains d.output_file_id = false := by
        rw [Bool.eq_false_iff]
        intro hc
        simp only [List.contains_eq_any_beq, List.any_eq_true, beq_iff_eq] at hc
        obtain ⟨x, hx, hxe⟩ := hc
        obtain ⟨f, hf, hfp, hfid⟩ := mem_select_file_id.mp hx
        have hfo : f = ⟨out_id, o⟩ := row_eq_of_path hp2 (hsub f hf) hout hfp
        apply h1
        rw [hxe, ← hfid, hfo]
      have hc : (!(d.input_file_id == in_id && d.output_file_id == out_id)
          && d.output_file_id == out_id) = false := by simp [h1]
      simp only [hc, hcont, Bool.false_eq_true, if_false]

theorem inputs_of_after_record_dep_witness :
    example_db.well_formed ∧
    ∃ db1 l, example_db.record_dep "/p/a.hpp" "/p/a.cpp" 55 = .ok db1 ∧
      db1.inputs_of "/p/a.cpp" = some l ∧
      l.filter (fun e => e.path == "/p/a.hpp") = [⟨"/p/a.hpp", 55⟩] ∧
      l.filter (fun e => e.path != "/p/a.hpp")
        = ((example_db.inputs_of "/p/a.cpp").getD []).filter (fun e => e.path != "/p/a.hpp") :=
  ⟨example_db_well_formed,
    inputs_of_after_record_dep example_db example_db_well_formed "/p/a.hpp" "/p/a.cpp" 55⟩

theorem command_of_after_record_compilation_witness :
    example_db.well_formed ∧
    (∀ r ∈ example_db.dds_compilations, r.n_compilations ≠ -1) ∧
    ∃ db1, example_db.record_compilation "/p/a.cpp" ⟨"cc -O2 -c a.cpp", "warning", 900⟩
        = .ok db1 ∧
      ∃ cc, db1.command_of "/p/a.cpp" = some cc ∧ cc.quoted_command = "cc -O2 -c a.cpp" ∧
        cc.output = "warning" :=
  have h := command_of_after_record_compilation example_db example_db_well_formed "/p/a.cpp"
    ⟨"cc -O2 -c a.cpp", "warning", 900⟩
  have hn : ∀ r ∈ example_db.dds_compilations, r.n_compilations ≠ -1 := by decide
  ⟨example_db_well_formed, hn, (h.2 hn).elim (fun db1 hok => ⟨db1, hok, h.1 db1 hok⟩)⟩

/-- C5. The call `forget_inputs_of(o)` deletes exactly the input records whose output is `o`:
afterwards `inputs_of(o)` has no value, `inputs_of` of every other output and `command_of` of
every source are what they were. -/
theorem forget_inputs_of_deletes_exactly (db : database) (hwf : db.well_formed) (o : String) :
    (db.forget_inputs_of o).inputs_of o = none ∧
    (∀ d, d ∈ (db.forget_inputs_of o).dds_compile_deps ↔
      d ∈ db.dds_compile_deps ∧ d.output_file_id ∉ select_file_id db.dds_source_files o) ∧
    (∀ o1, o1 ≠ o → (db.forget_inputs_of o).inputs_of o1 = db.inputs_of o1) ∧
    (∀ s, (db.forget_inputs_of o).command_of s = db.command_of s) := by
  refine ⟨?_, ?_, ?_, fun s => rfl⟩
  · have : inputs_of_rows (db.forget_inputs_of o) o = [] := by
      simp only [inputs_of_rows, database.forget_inputs_of, List.filter_filter]
      apply flatMap_eq_nil_of_forall
      intro d hd
      simp at hd
    simp [database.inputs_of, this]
  · intro d
    simp [database.forget_inputs_of]
  · intro o1 hne
    have : inputs_of_rows (db.forget_inputs_of o) o1 = inputs_of_rows db o1 := by
      simp only [inputs_of_rows, database.forget_inputs_of, List.filter_filter]
      congr 1
      apply List.filter_congr
      intro d _
      by_cases hb : (select_file_id db.dds_source_files o1).contains d.output_file_id = true
      · have ha : (select_file_id db.dds_source_files o).contains d.output_file_id = false := by
          rw [Bool.eq_false_iff]
          intro hc
          simp only [List.contains_eq_any_beq, List.any_eq_true, beq_iff_eq] at hb hc
          obtain ⟨x, hx, rfl⟩ := hb
          obtain ⟨y, hy, rfl⟩ := hc
          obtain ⟨f, hf, hfp, hfid⟩ := mem_select_file_id.mp hx
          obtain ⟨g, hg, hgp, hgid⟩ := mem_select_file_id.mp hy
          have hfg : f = g := row_eq_of_file_id hwf.file_id_pk hf hg (by rw [hfid, hgid])
          apply hne
          rw [← hfp, ← hgp, hfg]
        simp only [hb, ha, Bool.not_false, Bool.and_self]
      · have hb1 := Bool.eq_false_iff.mpr hb
        simp only [hb1, Bool.false_and, Bool.and_false]
    simp only [database.inputs_of, this]

theorem forget_inputs_of_deletes_exactly_witness :
    example_db.well_formed ∧ "/p/b.cpp" ≠ "/p/a.cpp" ∧
    (example_db.forget_inputs_of "/p/a.cpp").inputs_of "/p/a.cpp" = none ∧
    (example_db.forget_inputs_of "/p/a.cpp").inputs_of "/p/b.cpp"
      = example_db.inputs_of "/p/b.cpp" ∧
    example_db.inputs_of "/p/b.cpp" = some [⟨"/p/a.hpp", 41⟩] ∧
    (example_db.forget_inputs_of "/p/a.cpp").command_of "/p/a.cpp"
      = example_db.command_of "/p/a.cpp" :=
  have h := forget_inputs_of_deletes_exactly example_db example_db_well_formed "/p/a.cpp"
  ⟨example_db_well_formed, by decide, h.1, h.2.2.1 "/p/b.cpp" (by decide), by decide,
    h.2.2.2 "/p/a.cpp"⟩

theorem record_file_tables {db db1 : database} {p : String} {id : Int}
    (h : db._record_file p = .ok (db1, id)) :
    db1.dds_compilations = db.dds_compilations ∧ db1.dds_compile_deps = db.dds_compile_deps ∧
      db1.dds_meta_1 = db.dds_meta_1 := by
  unfold database._record_file at h
  simp only at h
  split at h
  · cases h
  · simp only [Except.ok.injEq, Prod.mk.injEq] at h
    obtain ⟨rfl, -⟩ := h
    exact ⟨rfl, rfl, rfl⟩

theorem record_compilation_rows {db db1 : database} {s : String} {c : completed_compilation}
    (h : db.record_compilation s c = .ok db1) :
    ∃ id, upsert_compilation db.dds_compilations id c.quoted_command c.output c.duration
      = .ok db1.dds_compilations := by
  unfold database.record_compilation at h
  split at h
  · cases h
  · rename_i db2 id hrec
    obtain ⟨hc, -, -⟩ := record_file_tables hrec
    split at h
    · cases h
    · rename_i rows hup
      simp only [Except.ok.injEq] at h
      subst h
      exact ⟨id, by rw [← hc]; exact hup⟩

theorem record_dep_rows {db db1 : database} {i o : String} {t : Int}
    (h : db.record_dep i o t = .ok db1) : db1.dds_compilations = db.dds_compilations := by
  unfold database.record_dep at h
  split at h
  · cases h
  · rename_i db2 in_id hrec1
    split at h
    · cases h
    · rename_i db3 out_id hrec2
      simp only [Except.ok.injEq] at h
      subst h
      exact (record_file_tables hrec2).1.trans (record_file_tables hrec1).1

theorem upsert_sample_count {rows rows1 : List compilation_row} {id : Int}
    {command output : String} {d : Int}
    (hinv : ∀ r ∈ rows, 1 ≤ r.n_compilations ∧ r.n_compilations ≤ 10)
    (h : upsert_compilation rows id command output d = .ok rows1) :
    ∀ r ∈ rows1, 1 ≤ r.n_compilations ∧ r.n_compilations ≤ 10 := by
  unfold upsert_compilation at h
  split at h
  · simp only [Except.ok.injEq] at h
    subst h
    intro r hr
    rcases List.mem_append.mp hr with hr | hr
    · exact hinv r hr
    · simp only [List.mem_singleton] at hr
      subst hr
      simp
  · rename_i r0 hfind
    have hr0 := hinv r0 (List.mem_of_find?_eq_some hfind)
    split at h
    · cases h
    · rename_i r1 hu
      simp only [Except.ok.injEq] at h
      subst h
      have hr1 : 1 ≤ r1.n_compilations ∧ r1.n_compilations ≤ 10 := by
        unfold on_conflict_update at hu
        by_cases hd : d < 500
        · simp only [hd, if_true, Option.some.injEq] at hu
          subst hu
          exact hr0
        · cases hq : sql_div (d - r0.avg_duration) (min 10 (r0.n_compilations + 1)) with
          | none => simp [hd, hq] at hu
          | some q =>
            simp only [hd, if_false, hq, Option.map_some', Option.some.injEq] at hu
            subst hu
            simp only
            omega
      intro r hr
      obtain ⟨x, hx, rfl⟩ := List.mem_map.mp hr
      split
      · exact hr1
      · exact hinv x hx

theorem run_sample_count {db db1 : database} {c : db_call}
    (ih : ∀ r ∈ db.dds_compilations, 1 ≤ r.n_compilations ∧ r.n_compilations ≤ 10)
    (hrun : c.run db = some db1) :
    ∀ r ∈ db1.dds_compilations, 1 ≤ r.n_compilations ∧ r.n_compilations ≤ 10 := by
  cases c with
  | record_compilation file cmd =>
    simp only [db_call.run] at hrun
    split at hrun
    · rename_i db2 hok
      simp only [Option.some.injEq] at hrun
      subst hrun
      obtain ⟨id, hup⟩ := record_compilation_rows hok
      exact upsert_sample_count ih hup
    · cases hrun
  | record_dep i o t =>
    simp only [db_call.run] at hrun
    split at hrun
    · rename_i db2 hok
      simp only [Option.some.injEq] at hrun
      subst hrun
      rw [record_dep_rows hok]
      exact ih
    · cases hrun
  | forget_inputs_of file =>
    simp only [db_call.run, Option.some.injEq] at hrun
    subst hrun
    exact ih

/-- C6. In every database reachable from a freshly created one by `record_compilation`,
`record_dep` and `forget_inputs_of` calls, every compilation record has a sample count between
1 and 10. -/
theorem reachable_sample_count_bounds (db : database) (h : db.reachable) :
    ∀ r ∈ db.dds_compilations, 1 ≤ r.n_compilations ∧ r.n_compilations ≤ 10 := by
  induction h with
  | fresh =>
    intro r hr
    have hempty : (database.open (.readable database.empty)).dds_compilations = [] := rfl
    rw [hempty] at hr
    cases hr
  | step db0 db1 c _ hrun ih => exact run_sample_count ih hrun

/-- C7. Opening a compilation database whose stored version is not `alpha-5` (a new file
included) yields a database with empty tables and the version `alpha-5`; opening one whose stored
version is `alpha-5` returns it unchanged. `database.open` is a total function: it raises no
error. -/
theorem open_resets_on_version_mismatch (db : database) :
    (db.dds_meta_1 ≠ some "alpha-5" →
      database.open (.readable db)
        = { dds_meta_1 := some "alpha-5", dds_source_files := [], dds_compilations := [],
            dds_compile_deps := [] }) ∧
    (db.dds_meta_1 = some "alpha-5" → database.open (.readable db) = db) := by
  obtain ⟨m, files, comps, deps⟩ := db
  constructor
  · intro hne
    cases m with
    | none => simp [database.open, ensure_migrated, migrate_1, cur_version]
    | some v =>
      have hv : ¬ ("alpha-5" = v) := fun e => hne (by rw [e])
      simp [database.open, ensure_migrated, migrate_1, cur_version, hv]
  · intro he
    simp only at he
    subst he
    simp [database.open, ensure_migrated, cur_version]

theorem reachable_sample_count_bounds_witness :
    (⟨some "alpha-5", [⟨1, "/p/a.cpp"⟩], [⟨1, 1, "cc", "", 1, 100⟩], []⟩ : database).reachable ∧
    ∀ r ∈ (⟨some "alpha-5", [⟨1, "/p/a.cpp"⟩], [⟨1, 1, "cc", "", 1, 100⟩], []⟩ :
        database).dds_compilations,
      1 ≤ r.n_compilations ∧ r.n_compilations ≤ 10 :=
  ⟨database.reachable.step _ _ (.record_compilation "/p/a.cpp" ⟨"cc", "", 100⟩)
      database.reachable.fresh rfl,
    reachable_sample_count_bounds _
      (database.reachable.step _ _ (.record_compilation "/p/a.cpp" ⟨"cc", "", 100⟩)
        database.reachable.fresh rfl)⟩

theorem open_resets_on_version_mismatch_witness :
    (stale_db.dds_meta_1 ≠ some "alpha-5" ∧
      database.open (.readable stale_db)
        = { dds_meta_1 := some "alpha-5", dds_source_files := [], dds_compilations := [],
            dds_compile_deps := [] }) ∧
    (example_db.dds_meta_1 = some "alpha-5" ∧
      database.open (.readable example_db) = example_db) :=
  ⟨⟨by decide, (open_resets_on_version_mismatch stale_db).1 (by decide)⟩,
    ⟨rfl, (open_resets_on_version_mismatch example_db).2 rfl⟩⟩

/-- The `ON CONFLICT` branch with a duration below 500 ms: the sample count and the average
of an existing record stay as they were (command and output are still replaced). -/
theorem record_compilation_fast_sample_keeps_average (db : database) (hwf : db.well_formed)
    (s : String) (cmd : completed_compilation) (r : compilation_row)
    (hr : db.compilation_record s = some r) (hd : cmd.duration < 500) :
    ∃ db1 r1, db.record_compilation s cmd = .ok db1 ∧
      db1.compilation_record s = some r1 ∧
      r1.n_compilations = r.n_compilations ∧ r1.avg_duration = r.avg_duration := by
  obtain ⟨files1, id, hsel, -, -, -, hsame, heq⟩ := record_compilation_eq db hwf s cmd
  have hs : s ∈ db.dds_source_files.map (fun f => f.path) := by
    by_contra hno
    have h0 := select_file_id_eq_nil hno
    simp [database.compilation_record, compilation_rows_of, h0, unpack_single_opt] at hr
  have hfiles := hsame hs
  subst hfiles
  have hfind := compilation_record_eq_find db s id hsel
  rw [hr] at hfind
  obtain ⟨rows1, hup, hfind1⟩ := upsert_existing hfind.symm
    (on_conflict_update_fast r cmd.quoted_command cmd.output cmd.duration hd)
  refine ⟨{ db with dds_compilations := rows1 },
    { r with command := cmd.quoted_command, output := cmd.output }, ?_, ?_, rfl, rfl⟩
  · rw [heq, hup]
  · exact (compilation_record_eq_find
      { db with dds_compilations := rows1 } s id hsel).trans hfind1

/-- The `INSERT` branch: for a source without a record any duration, also one below 500 ms,
is stored as the average, with sample count 1. -/
theorem record_compilation_first_sample (db : database) (hwf : db.well_formed)
    (s : String) (cmd : completed_compilation) (hr : db.compilation_record s = none) :
    ∃ db1 r1, db.record_compilation s cmd = .ok db1 ∧
      db1.compilation_record s = some r1 ∧
      r1.n_compilations = 1 ∧ r1.avg_duration = cmd.duration := by
  obtain ⟨files1, id, hsel, -, -, hext, hsame, heq⟩ := record_compilation_eq db hwf s cmd
  have hfind : db.dds_compilations.find? (fun c => c.file_id == id) = none := by
    by_cases hs : s ∈ db.dds_source_files.map (fun f => f.path)
    · have hfiles := hsame hs
      subst hfiles
      rw [← compilation_record_eq_find db s id hsel]
      exact hr
    · -- the row of `s` is new: no compilation refers to its id
      rw [List.find?_eq_none]
      intro c hc hcid
      simp only [beq_iff_eq] at hcid
      have hfk := hwf.compilation_file_fk c hc
      obtain ⟨extra, rfl, hextra⟩ := hext
      have hmem : id ∈ select_file_id (db.dds_source_files ++ extra) s := by simp [hsel]
      rw [select_file_id_append, select_file_id_eq_nil hs, List.nil_append] at hmem
      obtain ⟨f, hf, -, hfid⟩ := mem_select_file_id.mp hmem
      exact (hextra f hf).1 (by rw [hfid, ← hcid]; exact hfk)
  obtain ⟨rows1, r1, hup, hfind1, -, -, hn, ha⟩ :=
    upsert_new cmd.quoted_command cmd.output cmd.duration hfind
  refine ⟨{ db with dds_source_files := files1, dds_compilations := rows1 }, r1, ?_, ?_, hn, ha⟩
  · rw [heq, hup]
  · exact (compilation_record_eq_find
      { db with dds_source_files := files1, dds_compilations := rows1 } s id hsel).trans hfind1

/-- C2 as stated fails for a source without a record: in a new database the first
compilation of `/p/a.cpp` takes 100 ms, less than 500 ms; the `INSERT` writes
`VALUES (..., 1, :duration)`, so the sample is counted (`n_compilations = 1`) and 100 becomes
the stored average. -/
theorem record_compilation_counts_first_fast_sample :
    (database.open (.readable database.empty)).record_compilation "/p/a.cpp"
        ⟨"cc -c a.cpp", "", 100⟩
      = .ok { dds_meta_1 := some "alpha-5",
              dds_source_files := [⟨1, "/p/a.cpp"⟩],
              dds_compilations := [⟨1, 1, "cc -c a.cpp", "", 1, 100⟩],
              dds_compile_deps := [] } ∧
    (database.open (.readable database.empty)).compilation_record "/p/a.cpp" = none ∧
    ({ dds_meta_1 := some "alpha-5",
       dds_source_files := [⟨1, "/p/a.cpp"⟩],
       dds_compilations := [⟨1, 1, "cc -c a.cpp", "", 1, 100⟩],
       dds_compile_deps := [] } : database).compilation_record "/p/a.cpp"
      = some ⟨1, 1, "cc -c a.cpp", "", 1, 100⟩ :=
  ⟨rfl, rfl, rfl⟩

/-- C2. A sample below 500 ms is ignored for a source that has a record: `record_compilation`
returns and the stored sample count and average of that source are the same after the call
as before it. For a source that had no record yet the call stores its first record from the
sample, whatever the duration: sample count 1 and the duration as the average. -/
theorem record_compilation_fast_sample (db : database) (hwf : db.well_formed)
    (s : String) (cmd : completed_compilation) :
    (∀ r, db.compilation_record s = some r → cmd.duration < 500 →
      ∃ db1 r1, db.record_compilation s cmd = .ok db1 ∧
        db1.compilation_record s = some r1 ∧
        r1.n_compilations = r.n_compilations ∧ r1.avg_duration = r.avg_duration)
    ∧ (db.compilation_record s = none →
      ∃ db1 r1, db.record_compilation s cmd = .ok db1 ∧
        db1.compilation_record s = some r1 ∧
        r1.n_compilations = 1 ∧ r1.avg_duration = cmd.duration) :=
  ⟨fun r hr hd => record_compilation_fast_sample_keeps_average db hwf s cmd r hr hd,
   fun hr => record_compilation_first_sample db hwf s cmd hr⟩

theorem record_compilation_fast_sample_witness :
    example_db.well_formed
    ∧ example_db.compilation_record "/p/a.cpp" = some ⟨1, 1, "cc -c a.cpp", "", 3, 700⟩
    ∧ (100 : Int) < 500
    ∧ (∃ db1 r1, example_db.record_compilation "/p/a.cpp" ⟨"cc -c a.cpp -O2", "w", 100⟩ = .ok db1
        ∧ db1.compilation_record "/p/a.cpp" = some r1
        ∧ r1.n_compilations = 3 ∧ r1.avg_duration = 700)
    ∧ example_db.compilation_record "/p/b.cpp" = none
    ∧ (∃ db1 r1, example_db.record_compilation "/p/b.cpp" ⟨"cc -c b.cpp", "", 100⟩ = .ok db1
        ∧ db1.compilation_record "/p/b.cpp" = some r1
        ∧ r1.n_compilations = 1 ∧ r1.avg_duration = 100) :=
  ⟨example_db_well_formed, by decide, by decide,
   (record_compilation_fast_sample example_db example_db_well_formed "/p/a.cpp"
      ⟨"cc -c a.cpp -O2", "w", 100⟩).1 ⟨1, 1, "cc -c a.cpp", "", 3, 700⟩ (by decide) (by decide),
   by decide,
   (record_compilation_fast_sample example_db example_db_well_formed "/p/b.cpp"
      ⟨"cc -c b.cpp", "", 100⟩).2 (by decide)⟩

theorem on_conflict_update_keys {r r1 : compilation_row} {command output : String} {d : Int}
    (h : on_conflict_update r command output d = some r1) :
    r1.compile_id = r.compile_id ∧ r1.file_id = r.file_id := by
  unfold on_conflict_update at h
  by_cases hd : d < 500
  · simp only [hd, if_true, Option.some.injEq] at h
    subst h
    exact ⟨rfl, rfl⟩
  · cases hq : sql_div (d - r.avg_duration) (min 10 (r.n_compilations + 1)) with
    | none => simp [hd, hq] at h
    | some q =>
      simp only [hd, if_false, hq, Option.map_some', Option.some.injEq] at h
      subst h
      exact ⟨rfl, rfl⟩

theorem upsert_keys {rows rows1 : List compilation_row} {id : Int} {command output : String}
    {d : Int} (hfile : (rows.map (fun c => c.file_id)).Nodup)
    (h : upsert_compilation rows id command output d = .ok rows1) :
    (rows1.map (fun c => c.compile_id) = rows.map (fun c => c.compile_id) ∧
      rows1.map (fun c => c.file_id) = rows.map (fun c => c.file_id)) ∨
    (id ∉ rows.map (fun c => c.file_id) ∧
      rows1.map (fun c => c.compile_id)
        = rows.map (fun c => c.compile_id) ++ [next_rowid (rows.map (fun c => c.compile_id))] ∧
      rows1.map (fun c => c.file_id) = rows.map (fun c => c.file_id) ++ [id]) := by
  unfold upsert_compilation at h
  split at h
  · rename_i hfind
    simp only [Except.ok.injEq] at h
    subst h
    right
    refine ⟨?_, by simp, by simp⟩
    intro hmem
    obtain ⟨c, hc, hcid⟩ := List.mem_map.mp hmem
    have := List.find?_eq_none.mp hfind c hc
    simp [hcid] at this
  · rename_i r0 hfind
    split at h
    · cases h
    · rename_i r1 hu
      simp only [Except.ok.injEq] at h
      subst h
      left
      have hr0 : r0 ∈ rows := List.mem_of_find?_eq_some hfind
      have hr0id : r0.file_id = id := by simpa using List.find?_some hfind
      obtain ⟨hk1, hk2⟩ := on_conflict_update_keys hu
      have hx : ∀ x ∈ rows, x.file_id = id → x = r0 := fun x hx hxid =>
        List.inj_on_of_nodup_map hfile hx hr0 (by rw [hxid, hr0id])
      constructor
      · rw [List.map_map]
        apply List.map_congr_left
        intro x hxm
        by_cases hxid : x.file_id = id
        · have hx0 := hx x hxm hxid
          subst hx0
          simp [hxid, hk1]
        · simp [hxid]
      · rw [List.map_map]
        apply List.map_congr_left
        intro x hxm
        by_cases hxid : x.file_id = id
        · have hx0 := hx x hxm hxid
          subst hx0
          simp [hxid, hk2]
        · simp [hxid]

theorem well_formed_open_empty : (database.open (.readable database.empty)).well_formed :=
  ⟨by decide, by decide, by decide, by decide, by decide, by decide, by decide, by decide⟩

theorem forget_inputs_of_well_formed {db : database} (hwf : db.well_formed) (o : String) :
    (db.forget_inputs_of o).well_formed := by
  refine ⟨hwf.file_id_pk, hwf.path_unique, hwf.compile_id_pk, hwf.compilation_file_unique,
    hwf.compilation_file_fk, ?_, ?_, ?_⟩
  · exact List.Nodup.sublist ((List.filter_sublist _).map _) hwf.dep_unique
  · intro d hd
    exact hwf.dep_input_fk d (List.mem_of_mem_filter hd)
  · intro d hd
    exact hwf.dep_output_fk d (List.mem_of_mem_filter hd)

theorem record_dep_well_formed {db db1 : database} (hwf : db.well_formed) {i o : String}
    {t : Int} (h : db.record_dep i o t = .ok db1) : db1.well_formed := by
  obtain ⟨files2, in_id, out_id, hrec, hin, hout, hp2, hi2, hext⟩ := record_dep_eq db hwf i o t
  rw [hrec] at h
  simp only [Except.ok.injEq] at h
  subst h
  have hsub : ∀ x ∈ db.dds_source_files.map (fun f => f.file_id),
      x ∈ files2.map (fun f => f.file_id) := by
    obtain ⟨extra, rfl, -⟩ := hext
    intro x hx
    rw [List.map_append]
    exact List.mem_append_left _ hx
  refine ⟨hi2, hp2, hwf.compile_id_pk, hwf.compilation_file_unique,
    fun c hc => hsub _ (hwf.compilation_file_fk c hc), ?_, ?_, ?_⟩
  · simp only [List.map_append, List.map_cons, List.map_nil]
    rw [List.nodup_append]
    refine ⟨List.Nodup.sublist ((List.filter_sublist _).map _) hwf.dep_unique, by simp, ?_⟩
    intro a ha hb
    simp only [List.mem_singleton] at hb
    subst hb
    obtain ⟨d, hd, hde⟩ := List.mem_map.mp ha
    simp only [List.mem_filter, Bool.not_eq_true', Bool.and_eq_false_imp, beq_iff_eq,
      beq_eq_false_iff_ne, ne_eq] at hd
    simp only [Prod.mk.injEq] at hde
    exact hd.2 hde.1 hde.2
  · intro d hd
    rcases List.mem_append.mp hd with hd | hd
    · exact hsub _ (hwf.dep_input_fk d (List.mem_of_mem_filter hd))
    · simp only [List.mem_singleton] at hd
      subst hd
      exact List.mem_map.mpr ⟨_, hin, rfl⟩
  · intro d hd
    rcases List.mem_append.mp hd with hd | hd
    · exact hsub _ (hwf.dep_output_fk d (List.mem_of_mem_filter hd))
    · simp only [List.mem_singleton] at hd
      subst hd
      exact List.mem_map.mpr ⟨_, hout, rfl⟩

theorem record_compilation_well_formed {db db1 : database} (hwf : db.well_formed) {s : String}
    {c : completed_compilation} (h : db.record_compilation s c = .ok db1) :
    db1.well_formed := by
  obtain ⟨files1, id, hsel, hp1, hi1, hext, -, heq⟩ := record_compilation_eq db hwf s c
  rw [heq] at h
  split at h
  · cases h
  · rename_i rows hup
    simp only [Except.ok.injEq] at h
    subst h
    have hsub : ∀ x ∈ db.dds_source_files.map (fun f => f.file_id),
        x ∈ files1.map (fun f => f.file_id) := by
      obtain ⟨extra, rfl, -⟩ := hext
      intro x hx
      rw [List.map_append]
      exact List.mem_append_left _ hx
    have hid : id ∈ files1.map (fun f => f.file_id) := by
      have : id ∈ select_file_id files1 s := by simp [hsel]
      obtain ⟨f, hf, -, hfid⟩ := mem_select_file_id.mp this
      exact List.mem_map.mpr ⟨f, hf, hfid⟩
    have hfk : ∀ x ∈ db.dds_compilations.map (fun c => c.file_id),
        x ∈ files1.map (fun f => f.file_id) := by
      intro x hx
      obtain ⟨c0, hc0, rfl⟩ := List.mem_map.mp hx
      exact hsub _ (hwf.compilation_file_fk c0 hc0)
    have hdeps_in := hwf.dep_input_fk
    have hdeps_out := hwf.dep_output_fk
    rcases upsert_keys hwf.compilation_file_unique hup with ⟨hk1, hk2⟩ | ⟨hnew, hk1, hk2⟩
    · refine ⟨hi1, hp1, by simpa only [hk1] using hwf.compile_id_pk,
        by simpa only [hk2] using hwf.compilation_file_unique, ?_, hwf.dep_unique,
        fun d hd => hsub _ (hdeps_in d hd), fun d hd => hsub _ (hdeps_out d hd)⟩
      intro c0 hc0
      have : c0.file_id ∈ rows.map (fun c => c.file_id) := List.mem_map.mpr ⟨c0, hc0, rfl⟩
      simp only [hk2] at this
      exact hfk _ this
    · refine ⟨hi1, hp1, ?_, ?_, ?_, hwf.dep_unique,
        fun d hd => hsub _ (hdeps_in d hd), fun d hd => hsub _ (hdeps_out d hd)⟩
      · simp only [hk1]
        rw [List.nodup_append]
        refine ⟨hwf.compile_id_pk, by simp, ?_⟩
        intro a ha hb
        simp only [List.mem_singleton] at hb
        subst hb
        exact next_rowid_not_mem _ ha
      · simp only [hk2]
        rw [List.nodup_append]
        refine ⟨hwf.compilation_file_unique, by simp, ?_⟩
        intro a ha hb
        simp only [List.mem_singleton] at hb
        subst hb
        exact hnew ha
      · intro c0 hc0
        have : c0.file_id ∈ rows.map (fun c => c.file_id) := List.mem_map.mpr ⟨c0, hc0, rfl⟩
        simp only [hk2, List.mem_append, List.mem_singleton] at this
        rcases this with h1 | h1
        · exact hfk _ h1
        · rw [h1]
          exact hid

/-- Every reachable database satisfies the constraints of the schema. -/
theorem reachable_well_formed (db : database) (h : db.reachable) : db.well_formed := by
  induction h with
  | fresh => exact well_formed_open_empty
  | step db0 db1 c _ hrun ih =>
    cases c with
    | record_compilation file cmd =>
      simp only [db_call.run] at hrun
      split at hrun
      · rename_i db2 hok
        simp only [Option.some.injEq] at hrun
        subst hrun
        exact record_compilation_well_formed ih hok
      · cases hrun
    | record_dep i o t =>
      simp only [db_call.run] at hrun
      split at hrun
      · rename_i db2 hok
        simp only [Option.some.injEq] at hrun
        subst hrun
        exact record_dep_well_formed ih hok
      · cases hrun
    | forget_inputs_of file =>
      simp only [db_call.run, Option.some.injEq] at hrun
      subst hrun
      exact forget_inputs_of_well_formed ih file


/-- In a reachable database no call of `record_compilation` throws. -/
theorem reachable_record_compilation_ok (db : database) (h : db.reachable) (s : String)
    (c : completed_compilation) : ∃ db1, db.record_compilation s c = .ok db1 := by
  have hinv : ∀ r ∈ db.dds_compilations, 1 ≤ r.n_compilations ∧ r.n_compilations ≤ 10 := by
    induction h with
    | fresh =>
      intro r hr
      have hempty : (database.open (.readable database.empty)).dds_compilations = [] := rfl
      rw [hempty] at hr
      cases hr
    | step db0 db1 c0 _ hrun ih => exact run_sample_count ih hrun
  obtain ⟨files1, id, -, -, -, -, -, heq⟩ :=
    record_compilation_eq db (reachable_well_formed db h) s c
  obtain ⟨rows, hup⟩ := upsert_total id c.quoted_command c.output c.duration
    (fun r hr => by have := hinv r hr; omega)
  exact ⟨_, by rw [heq, hup]⟩

/-! ### The package database -/

theorem to_int32_of_int_range {v : Int} (h1 : -2 ^ 31 ≤ v) (h2 : v < 2 ^ 31) :
    to_int32 v = v := by
  unfold to_int32
  omega

/-- The part of C8 that holds: when the stored version, read as an `int`, exceeds 3,
`pkg_db::open` throws `catalog_too_new` and leaves the file as it was. -/
theorem open_rejects_newer_version (flag : Bool) (air : pkg_db_file → pkg_db_file)
    (f : pkg_db_file) (v : Int) (hmeta : f.dds_cat_meta = some (.object (some v)))
    (hv : 3 < to_int32 v) :
    pkg_db.open flag air f = (f, .error .catalog_too_new) := by
  obtain ⟨m, c, p⟩ := f
  simp only at hmeta
  subst hmeta
  simp [pkg_db.open, pkg_db.ensure_migrated, migrate_transaction, current_database_version, hv]

/-- The range of versions for which C8 holds as stated: every stored version above 3 that an
`int` can hold. -/
theorem open_rejects_newer_version_in_range (flag : Bool) (air : pkg_db_file → pkg_db_file)
    (f : pkg_db_file) (v : Int) (hmeta : f.dds_cat_meta = some (.object (some v)))
    (h3 : 3 < v) (h31 : v < 2 ^ 31) :
    pkg_db.open flag air f = (f, .error .catalog_too_new) :=
  open_rejects_newer_version flag air f v hmeta
    (by rw [to_int32_of_int_range (by omega) h31]; exact h3)

/-- C8, evaluated where the code departs from it: the stored version `2^32 + 3` is greater
than 3, but `int version` reads it as 3; `pkg_db::open` throws nothing, keeps the tables and
overwrites the stored version with 3. -/
theorem open_accepts_wrapped_newer_version (flag : Bool) (air : pkg_db_file → pkg_db_file) :
    newer_file.dds_cat_meta = some (.object (some 4294967299)) ∧
    (3 : Int) < 4294967299 ∧
    to_int32 4294967299 = 3 ∧
    pkg_db.open flag air newer_file
      = ({ newer_file with dds_cat_meta := some (.object (some 3)) }, .ok ()) := by
  refine ⟨rfl, by decide, by decide, ?_⟩
  have h : to_int32 4294967299 = 3 := by decide
  simp [pkg_db.open, pkg_db.ensure_migrated, migrate_transaction, migrate_if, newer_file, h,
    current_database_version]

theorem lt_autoincrement_rowid {ids : List Int} {x : Int} (seq : Int) (hx : x ∈ ids) :
    x < autoincrement_rowid ids seq :=
  lt_of_lt_of_le (lt_next_rowid hx) (le_max_left _ _)

theorem unique_index_eq_none (a : Option Int) : unique_index_eq a none = false := by
  cases a <;> rfl

theorem insert_or_replace_pkg_rows (db : pkg_db) (name version remote_url description : String) :
    (insert_or_replace_pkg db name version remote_url description).1.dds_pkgs
      = db.dds_pkgs
        ++ [{ pkg_id := autoincrement_rowid (db.dds_pkgs.map (fun r => r.pkg_id)) db.seq_pkgs,
              name := name, version := version, description := description,
              remote_url := remote_url, remote_id := none }] := by
  simp [insert_or_replace_pkg, delete_pkgs, unique_index_eq_none]

theorem insert_pkg_dep_pkgs {db db1 : pkg_db} {pkg_id : Int} {dep_name low high : String}
    (h : insert_pkg_dep db pkg_id dep_name low high = .ok db1) :
    db1.dds_pkgs = db.dds_pkgs := by
  unfold insert_pkg_dep at h
  split at h
  · cases h
  · split at h
    · cases h
    · simp only [Except.ok.injEq] at h
      subst h
      rfl

theorem store_deps_pkgs {id : Int} {deps : List dependency} {db db1 : pkg_db}
    (h : store_deps id db deps = .ok db1) : db1.dds_pkgs = db.dds_pkgs := by
  induction deps generalizing db with
  | nil =>
    simp only [store_deps, Except.ok.injEq] at h
    subst h
    rfl
  | cons dep deps ih =>
    unfold store_deps at h
    split at h
    · split at h
      · cases h
      · rename_i db2 hins
        rw [ih h, insert_pkg_dep_pkgs hins]
    · cases h

theorem store_rows {db db1 : pkg_db} {pkg : pkg_listing} (h : db.store pkg = .ok db1) :
    db1.dds_pkgs
      = db.dds_pkgs
        ++ [{ pkg_id := autoincrement_rowid (db.dds_pkgs.map (fun r => r.pkg_id)) db.seq_pkgs,
              name := pkg.ident.name, version := pkg.ident.version,
              description := pkg.description, remote_url := pkg.remote_pkg,
              remote_id := none }] := by
  unfold pkg_db.store do_store_pkg at h
  rw [store_deps_pkgs h, insert_or_replace_pkg_rows]

theorem store_all_append {db db1 : pkg_db} {earlier : List pkg_listing} {last : pkg_listing}
    (h : db.store_all (earlier ++ [last]) = .ok db1) :
    ∃ db0, db.store_all earlier = .ok db0 ∧ db0.store last = .ok db1 := by
  induction earlier generalizing db with
  | nil =>
    refine ⟨db, rfl, ?_⟩
    simp only [List.nil_append, pkg_db.store_all] at h
    split at h
    · cases h
    · rename_i db2 hs
      simp only [Except.ok.injEq] at h
      subst h
      exact hs
  | cons l ls ih =>
    simp only [List.cons_append, pkg_db.store_all] at h
    split at h
    · cases h
    · rename_i db2 hs
      obtain ⟨db0, h0, h1⟩ := ih h
      exact ⟨db0, by simp only [pkg_db.store_all, hs, h0], h1⟩

theorem order_by_pkg_id_desc_append_max (rows : List pkg_row) (x : pkg_row)
    (hx : ∀ r ∈ rows, r.pkg_id < x.pkg_id) :
    ∃ tl, order_by_pkg_id_desc (rows ++ [x]) = x :: tl := by
  induction rows with
  | nil => exact ⟨[], rfl⟩
  | cons m rest ih =>
    obtain ⟨tl, htl⟩ := ih (fun r hr => hx r (List.mem_cons_of_mem m hr))
    have hm : ¬ x.pkg_id ≤ m.pkg_id := not_le.mpr (hx m (List.mem_cons_self m rest))
    refine ⟨List.orderedInsert (fun a b => b.pkg_id ≤ a.pkg_id) m tl, ?_⟩
    unfold order_by_pkg_id_desc at htl ⊢
    have hcons : List.insertionSort (fun a b : pkg_row => b.pkg_id ≤ a.pkg_id)
          (m :: (rest ++ [x]))
        = List.orderedInsert (fun a b : pkg_row => b.pkg_id ≤ a.pkg_id) m
            (List.insertionSort (fun a b : pkg_row => b.pkg_id ≤ a.pkg_id) (rest ++ [x])) := rfl
    rw [List.cons_append, hcons, htl]
    simp only [List.orderedInsert, hm, if_false]

theorem insert_or_replace_pkg_eq (db : pkg_db) (name version remote_url description : String) :
    insert_or_replace_pkg db name version remote_url description
      = ({ db with
           dds_pkgs := db.dds_pkgs
             ++ [{ pkg_id := autoincrement_rowid (db.dds_pkgs.map (fun r => r.pkg_id)) db.seq_pkgs,
                   name := name, version := version, description := description,
                   remote_url := remote_url, remote_id := none }],
           seq_pkgs := autoincrement_rowid (db.dds_pkgs.map (fun r => r.pkg_id)) db.seq_pkgs },
         autoincrement_rowid (db.dds_pkgs.map (fun r => r.pkg_id)) db.seq_pkgs) := by
  simp [insert_or_replace_pkg, delete_pkgs, unique_index_eq_none]

theorem autoincrement_rowid_not_mem (ids : List Int) (seq : Int) :
    autoincrement_rowid ids seq ∉ ids :=
  fun h => lt_irrefl _ (lt_autoincrement_rowid seq h)

theorem insert_or_replace_pkg_well_formed {db : pkg_db} (hwf : db.well_formed)
    (name version remote_url description : String) :
    (insert_or_replace_pkg db name version remote_url description).1.well_formed := by
  rw [insert_or_replace_pkg_eq]
  refine ⟨?_, hwf.dep_id_pk, hwf.dep_unique, ?_, ?_, hwf.remote_id_pk, hwf.remote_name_unique,
    ?_⟩
  · simp only [List.map_append, List.map_cons, List.map_nil]
    rw [List.nodup_append]
    refine ⟨hwf.pkg_id_pk, by simp, ?_⟩
    intro a ha hb
    simp only [List.mem_singleton] at hb
    subst hb
    exact autoincrement_rowid_not_mem _ _ ha
  · intro d hd
    simp only [List.map_append]
    exact List.mem_append_left _ (hwf.dep_pkg_fk d hd)
  · intro r hr rid hrid
    rcases List.mem_append.mp hr with h | h
    · exact hwf.pkg_remote_fk r h rid hrid
    · simp only [List.mem_singleton] at h
      subst h
      cases hrid
  · intro r1 hr1 r2 hr2 hn hv hu
    rcases List.mem_append.mp hr1 with h1 | h1
    · rcases List.mem_append.mp hr2 with h2 | h2
      · exact hwf.pkg_unique r1 h1 r2 h2 hn hv hu
      · simp only [List.mem_singleton] at h2
        subst h2
        rw [unique_index_eq_none] at hu
        cases hu
    · simp only [List.mem_singleton] at h1
      subst h1
      simp [unique_index_eq] at hu

theorem insert_pkg_dep_well_formed {db db1 : pkg_db} (hwf : db.well_formed) {pkg_id : Int}
    {dep_name low high : String} (h : insert_pkg_dep db pkg_id dep_name low high = .ok db1) :
    db1.well_formed := by
  unfold insert_pkg_dep at h
  split at h
  · cases h
  · rename_i hdup
    split at h
    · cases h
    · rename_i hfk
      simp only [Except.ok.injEq] at h
      subst h
      simp only [List.any_eq_true, Bool.and_eq_true, beq_iff_eq, not_exists, not_and] at hdup
      simp only [Bool.not_eq_true', List.any_eq_false, beq_iff_eq, not_forall,
        Classical.not_imp, not_not] at hfk
      refine ⟨hwf.pkg_id_pk, ?_, ?_, ?_, hwf.pkg_remote_fk, hwf.remote_id_pk,
        hwf.remote_name_unique, hwf.pkg_unique⟩
      · simp only [List.map_append, List.map_cons, List.map_nil]
        rw [List.nodup_append]
        refine ⟨hwf.dep_id_pk, by simp, ?_⟩
        intro a ha hb
        simp only [List.mem_singleton] at hb
        subst hb
        exact autoincrement_rowid_not_mem _ _ ha
      · simp only [List.map_append, List.map_cons, List.map_nil]
        rw [List.nodup_append]
        refine ⟨hwf.dep_unique, by simp, ?_⟩
        intro a ha hb
        simp only [List.mem_singleton] at hb
        subst hb
        obtain ⟨d0, hd0, hd0e⟩ := List.mem_map.mp ha
        simp only [Prod.mk.injEq] at hd0e
        exact hdup d0 hd0 hd0e.1 hd0e.2
      · intro d0 hd0
        rcases List.mem_append.mp hd0 with h0 | h0
        · exact hwf.dep_pkg_fk d0 h0
        · simp only [List.mem_singleton] at h0
          subst h0
          obtain ⟨r, hr, hrid⟩ := hfk
          exact List.mem_map.mpr ⟨r, hr, hrid⟩

theorem store_deps_well_formed {id : Int} {deps : List dependency} {db db1 : pkg_db}
    (hwf : db.well_formed) (h : store_deps id db deps = .ok db1) : db1.well_formed := by
  induction deps generalizing db with
  | nil =>
    simp only [store_deps, Except.ok.injEq] at h
    subst h
    exact hwf
  | cons dep deps ih =>
    unfold store_deps at h
    split at h
    · split at h
      · cases h
      · rename_i db2 hins
        exact ih (insert_pkg_dep_well_formed hwf hins) h
    · cases h

theorem store_well_formed {db db1 : pkg_db} (hwf : db.well_formed) {pkg : pkg_listing}
    (h : db.store pkg = .ok db1) : db1.well_formed := by
  unfold pkg_db.store do_store_pkg at h
  exact store_deps_well_formed (insert_or_replace_pkg_well_formed hwf _ _ _ _) h

theorem store_deps_total (id : Int) (deps : List dependency) (db : pkg_db)
    (hid : id ∈ db.dds_pkgs.map (fun r => r.pkg_id))
    (hiv : ∀ dep ∈ deps, ∃ iv, dep.versions = [iv])
    (hnames : (deps.map (fun dep => dep.name)).Nodup)
    (hfresh : ∀ d ∈ db.dds_pkg_deps, d.pkg_id = id → d.dep_name ∉ deps.map (fun dep => dep.name)) :
    ∃ db1, store_deps id db deps = .ok db1 := by
  induction deps generalizing db with
  | nil => exact ⟨db, rfl⟩
  | cons dep deps ih =>
    obtain ⟨iv, hiv1⟩ := hiv dep (List.mem_cons_self dep deps)
    simp only [List.map_cons, List.nodup_cons] at hnames
    have hdup : db.dds_pkg_deps.any (fun d => d.pkg_id == id && d.dep_name == dep.name)
        = false := by
      rw [List.any_eq_false]
      intro d hd hc
      simp only [Bool.and_eq_true, beq_iff_eq] at hc
      exact hfresh d hd hc.1 (by rw [hc.2]; simp)
    have hfk : db.dds_pkgs.any (fun r => r.pkg_id == id) = true := by
      obtain ⟨r, hr, hrid⟩ := List.mem_map.mp hid
      rw [List.any_eq_true]
      exact ⟨r, hr, by simpa using hrid⟩
    obtain ⟨db2, hins, hpk2, hdeps2⟩ : ∃ db2, insert_pkg_dep db id dep.name iv.1 iv.2 = .ok db2 ∧
        db2.dds_pkgs = db.dds_pkgs ∧
        db2.dds_pkg_deps = db.dds_pkg_deps
          ++ [{ dep_id := autoincrement_rowid (db.dds_pkg_deps.map (fun d => d.dep_id))
                  db.seq_deps,
                pkg_id := id, dep_name := dep.name, low := iv.1, high := iv.2 }] :=
      ⟨{ db with
          dds_pkg_deps := db.dds_pkg_deps
            ++ [{ dep_id := autoincrement_rowid (db.dds_pkg_deps.map (fun d => d.dep_id))
                    db.seq_deps,
                  pkg_id := id, dep_name := dep.name, low := iv.1, high := iv.2 }],
          seq_deps := autoincrement_rowid (db.dds_pkg_deps.map (fun d => d.dep_id))
            db.seq_deps },
        by simp [insert_pkg_dep, hdup, hfk], rfl, rfl⟩
    obtain ⟨db1, h1⟩ := ih db2 (by rw [hpk2]; exact hid)
      (fun dep0 h0 => hiv dep0 (List.mem_cons_of_mem dep h0)) hnames.2
      (by
        intro d hd hdid
        rw [hdeps2] at hd
        rcases List.mem_append.mp hd with h0 | h0
        · intro hmem
          exact hfresh d h0 hdid (List.mem_cons_of_mem _ hmem)
        · simp only [List.mem_singleton] at h0
          subst h0
          exact hnames.1)
    refine ⟨db1, ?_⟩
    rw [store_deps, hiv1]
    simp only [hins]
    exact h1

theorem store_total {db : pkg_db} (hwf : db.well_formed) {pkg : pkg_listing}
    (hpkg : pkg.storable) : ∃ db1, db.store pkg = .ok db1 := by
  unfold pkg_db.store do_store_pkg
  rw [insert_or_replace_pkg_eq]
  apply store_deps_total _ _ _ (by simp) hpkg.1 hpkg.2
  intro d hd hdid
  exact absurd (hdid ▸ hwf.dep_pkg_fk d hd) (autoincrement_rowid_not_mem _ _)

theorem store_all_total {db : pkg_db} (hwf : db.well_formed) {pkgs : List pkg_listing}
    (hpkgs : ∀ pkg ∈ pkgs, pkg.storable) : ∃ db1, db.store_all pkgs = .ok db1 := by
  induction pkgs generalizing db with
  | nil => exact ⟨db, rfl⟩
  | cons pkg pkgs ih =>
    obtain ⟨db2, h2⟩ := store_total hwf (hpkgs pkg (List.mem_cons_self pkg pkgs))
    obtain ⟨db1, h1⟩ := ih (store_well_formed hwf h2)
      (fun p hp => hpkgs p (List.mem_cons_of_mem pkg hp))
    exact ⟨db1, by simp only [pkg_db.store_all, h2, h1]⟩

theorem fresh_well_formed : pkg_db.fresh.well_formed :=
  ⟨by decide, by decide, by decide, by decide, by simp [pkg_db.fresh], by decide, by decide,
    by simp [pkg_db.fresh]⟩

/-- C9. After any sequence of one or more `store` calls that return, the last of them with a
listing of `id`, `get(id)` succeeds with `ident = id` and with the URL and the description of
that last listing, whatever was stored under `id` before. The calls do return on a well-formed
database when every listing has dependencies of distinct names with one interval each. -/
theorem get_returns_last_stored (db : pkg_db) (id : pkg_id) (earlier : List pkg_listing)
    (last : pkg_listing) (hid : last.ident = id) :
    (∀ db1, db.store_all (earlier ++ [last]) = .ok db1 →
      ∃ info, db1.get id = .ok info ∧ info.ident = id ∧
        info.remote_pkg = last.remote_pkg ∧ info.description = last.description) ∧
    (db.well_formed → (∀ l ∈ earlier ++ [last], l.storable) →
      ∃ db1, db.store_all (earlier ++ [last]) = .ok db1) := by
  refine ⟨?_, fun hwf hst => store_all_total hwf hst⟩
  intro db1 hstore
  obtain ⟨db0, -, hlast⟩ := store_all_append hstore
  have hrows := store_rows hlast
  subst hid
  have hmax : ∀ r ∈ db0.dds_pkgs.filter
        (fun r => r.name == last.ident.name && r.version == last.ident.version),
      r.pkg_id < autoincrement_rowid (db0.dds_pkgs.map (fun r => r.pkg_id)) db0.seq_pkgs := by
    intro r hr
    exact lt_autoincrement_rowid _ (List.mem_map_of_mem _ (List.mem_of_mem_filter hr))
  obtain ⟨tl, htl⟩ := order_by_pkg_id_desc_append_max _
    { pkg_id := autoincrement_rowid (db0.dds_pkgs.map (fun r => r.pkg_id)) db0.seq_pkgs,
      name := last.ident.name, version := last.ident.version,
      description := last.description, remote_url := last.remote_pkg,
      remote_id := none } hmax
  refine ⟨{ ident := last.ident, deps := db1.dependencies_of last.ident,
            description := last.description, remote_pkg := last.remote_pkg }, ?_, rfl, rfl, rfl⟩
  unfold pkg_db.get
  rw [hrows, List.filter_append]
  simp only [List.filter_cons, List.filter_nil, beq_self_eq_true, Bool.and_self, if_true]
  rw [htl]
  simp

theorem get_returns_last_stored_witness :
    foo_develop.ident = ⟨"foo", "1.2.3"⟩ ∧
    pkg_db.fresh.store_all ([foo_master] ++ [foo_develop]) = .ok foo_master_develop_db ∧
    (∃ info, foo_master_develop_db.get ⟨"foo", "1.2.3"⟩ = .ok info ∧
      info.ident = ⟨"foo", "1.2.3"⟩ ∧
      info.remote_pkg = foo_develop.remote_pkg ∧ info.description = foo_develop.description) ∧
    pkg_db.fresh.well_formed ∧
    (∀ l ∈ [foo_master] ++ [foo_develop], l.storable) ∧
    ∃ db1, pkg_db.fresh.store_all ([foo_master] ++ [foo_develop]) = .ok db1 :=
  ⟨rfl, rfl,
    (get_returns_last_stored pkg_db.fresh ⟨"foo", "1.2.3"⟩ [foo_master] foo_develop rfl).1
      foo_master_develop_db rfl,
    fresh_well_formed,
    by simp [pkg_listing.storable, foo_master, foo_develop],
    (get_returns_last_stored pkg_db.fresh ⟨"foo", "1.2.3"⟩ [foo_master] foo_develop rfl).2
      fresh_well_formed (by simp [pkg_listing.storable, foo_master, foo_develop])⟩

/-- C10, evaluated where the code departs from it: in a new package database the listing
`foo@1.2.3` is stored twice. `INSERT OR REPLACE` replaces nothing, because the `remote_id` of
both rows is NULL and NULLs never collide in `UNIQUE (name, version, remote_id)`: two rows
share name, version and `remote_id`, and `by_name("foo")` lists `foo@1.2.3` twice. -/
theorem store_twice_duplicates_row :
    pkg_db.fresh.store_all [foo_master, foo_master] = .ok foo_twice_db ∧
    foo_twice_db.dds_pkgs.map (fun r => (r.name, r.version, r.remote_id))
      = [("foo", "1.2.3", none), ("foo", "1.2.3", none)] ∧
    foo_twice_db.by_name "foo" = [⟨"foo", "1.2.3"⟩, ⟨"foo", "1.2.3"⟩] ∧
    ¬ (foo_twice_db.by_name "foo").Nodup := by
  refine ⟨rfl, rfl, by decide, by decide⟩

/-! ### Dependencies of a stored listing, failing lookups -/

theorem store_deps_rows {id : Int} {deps : List dependency} {db db1 : pkg_db}
    (h : store_deps id db deps = .ok db1) :
    ∃ new_rows, db1.dds_pkg_deps = db.dds_pkg_deps ++ new_rows ∧
      (∀ d ∈ new_rows, d.pkg_id = id) ∧
      new_rows.map (fun d => ({ name := d.dep_name, versions := [(d.low, d.high)] } : dependency))
        = deps := by
  induction deps generalizing db with
  | nil =>
    simp only [store_deps, Except.ok.injEq] at h
    subst h
    exact ⟨[], by simp, by simp, rfl⟩
  | cons dep deps ih =>
    unfold store_deps at h
    split at h
    · rename_i iv hiv
      split at h
      · cases h
      · rename_i db2 hins
        obtain ⟨rows, hrows, hid, hmap⟩ := ih h
        have hdb2 : db2.dds_pkg_deps = db.dds_pkg_deps
            ++ [{ dep_id := autoincrement_rowid (db.dds_pkg_deps.map (fun d => d.dep_id))
                    db.seq_deps,
                  pkg_id := id, dep_name := dep.name, low := iv.1, high := iv.2 }] := by
          unfold insert_pkg_dep at hins
          split at hins
          · cases hins
          · split at hins
            · cases hins
            · simp only [Except.ok.injEq] at hins
              subst hins
              rfl
        refine ⟨{ dep_id := autoincrement_rowid (db.dds_pkg_deps.map (fun d => d.dep_id))
                    db.seq_deps,
                  pkg_id := id, dep_name := dep.name, low := iv.1, high := iv.2 } :: rows,
          ?_, ?_, ?_⟩
        · rw [hrows, hdb2]
          simp
        · intro d hd
          rcases List.mem_cons.mp hd with h0 | h0
          · subst h0
            rfl
          · exact hid d h0
        · simp only [List.map_cons, hmap, List.cons.injEq, and_true]
          cases dep with
          | mk n vs =>
            simp only at hiv
            subst hiv
            rfl
    · cases h

theorem contains_mem_int (l : List Int) (x : Int) : l.contains x = true ↔ x ∈ l := by
  induction l with
  | nil => simp
  | cons a as ih =>
    by_cases h : x = a
    · simp [h]
    · simp [h, ih]

/-- C11. A listing whose dependencies have distinct names and one interval each is stored in
a well-formed database that has no package of its name and version (an empty database is
one). Then `store` returns and `dependencies_of(L.ident)` is a rearrangement of exactly the
dependencies of `L`, each with its interval, in strictly ascending order of name. -/
theorem dependencies_of_stored_listing (db : pkg_db) (hwf : db.well_formed) (l : pkg_listing)
    (hnone : select_pkg_ids db l.ident = []) (hst : l.storable) :
    ∃ db1, db.store l = .ok db1 ∧
      (db1.dependencies_of l.ident).Perm l.deps ∧
      (db1.dependencies_of l.ident).Sorted (fun a b => a.name < b.name) := by
  obtain ⟨db1, hstore⟩ := store_total hwf hst
  refine ⟨db1, hstore, ?_⟩
  have hpk := store_rows hstore
  unfold pkg_db.store do_store_pkg at hstore
  rw [insert_or_replace_pkg_eq] at hstore
  obtain ⟨rows, hrows, hid, hmap⟩ := store_deps_rows hstore
  simp only at hrows
  -- the ids of the package: the new row only
  have hsel : select_pkg_ids db1 l.ident
      = [autoincrement_rowid (db.dds_pkgs.map (fun r => r.pkg_id)) db.seq_pkgs] := by
    unfold select_pkg_ids at hnone ⊢
    rw [hpk, List.filter_append, List.map_append, hnone]
    simp
  -- the dependency rows of the package: the new rows only
  have hold : db.dds_pkg_deps.filter
      (fun d => [autoincrement_rowid (db.dds_pkgs.map (fun r => r.pkg_id)) db.seq_pkgs].contains
        d.pkg_id) = [] := by
    rw [List.filter_eq_nil_iff]
    intro d hd hc
    rw [contains_mem_int, List.mem_singleton] at hc
    exact autoincrement_rowid_not_mem _ _ (hc ▸ hwf.dep_pkg_fk d hd)
  have hnew : rows.filter
      (fun d => [autoincrement_rowid (db.dds_pkgs.map (fun r => r.pkg_id)) db.seq_pkgs].contains
        d.pkg_id) = rows := by
    rw [List.filter_eq_self]
    intro d hd
    rw [contains_mem_int, List.mem_singleton]
    exact hid d hd
  have hdeps : db1.dependencies_of l.ident
      = List.insertionSort (fun a b : dependency => a.name ≤ b.name) l.deps := by
    unfold pkg_db.dependencies_of order_by_dep_name
    rw [hsel, hrows, List.filter_append, hold, hnew, List.nil_append,
      List.map_insertionSort (fun a b : pkg_dep_row => a.dep_name ≤ b.dep_name)
        (fun a b : dependency => a.name ≤ b.name) _ rows (fun a _ b _ => Iff.rfl), hmap]
  rw [hdeps]
  have hperm := List.perm_insertionSort (fun a b : dependency => a.name ≤ b.name) l.deps
  refine ⟨hperm, ?_⟩
  have hsorted : List.Sorted (fun a b : dependency => a.name ≤ b.name)
      (List.insertionSort (fun a b : dependency => a.name ≤ b.name) l.deps) := by
    have htot : IsTotal dependency (fun a b => a.name ≤ b.name) := ⟨fun a b => le_total _ _⟩
    have htr : IsTrans dependency (fun a b => a.name ≤ b.name) :=
      ⟨fun a b c h1 h2 => le_trans h1 h2⟩
    exact List.sorted_insertionSort _ _
  have hnd : List.Pairwise (fun a b : dependency => a.name ≠ b.name)
      (List.insertionSort (fun a b : dependency => a.name ≤ b.name) l.deps) := by
    have h0 : List.Pairwise (fun a b : dependency => a.name ≠ b.name) l.deps :=
      List.pairwise_map.mp hst.2
    exact (hperm.pairwise_iff (fun h => Ne.symm h)).mpr h0
  exact List.Pairwise.imp₂ (fun a b h1 h2 => lt_of_le_of_ne h1 h2) hsorted hnd

theorem dependencies_of_stored_listing_witness :
    pkg_db.fresh.well_formed ∧ select_pkg_ids pkg_db.fresh foo_with_deps.ident = [] ∧
    foo_with_deps.storable ∧
    ∃ db1, pkg_db.fresh.store foo_with_deps = .ok db1 ∧
      (db1.dependencies_of foo_with_deps.ident).Perm foo_with_deps.deps ∧
      (db1.dependencies_of foo_with_deps.ident).Sorted (fun a b => a.name < b.name) :=
  ⟨fresh_well_formed, rfl, by simp [pkg_listing.storable, foo_with_deps],
    dependencies_of_stored_listing pkg_db.fresh fresh_well_formed foo_with_deps rfl
      (by simp [pkg_listing.storable, foo_with_deps])⟩

theorem order_by_pkg_id_desc_eq_nil {rows : List pkg_row} :
    order_by_pkg_id_desc rows = [] ↔ rows = [] := by
  unfold order_by_pkg_id_desc
  constructor
  · intro h
    have hp := List.perm_insertionSort (fun a b : pkg_row => b.pkg_id ≤ a.pkg_id) rows
    rw [h] at hp
    exact List.Perm.eq_nil hp.symm
  · intro h
    rw [h]
    rfl

theorem mem_order_by_pkg_id_desc {rows : List pkg_row} {r : pkg_row} :
    r ∈ order_by_pkg_id_desc rows ↔ r ∈ rows :=
  (List.perm_insertionSort (fun a b : pkg_row => b.pkg_id ≤ a.pkg_id) rows).mem_iff

/-- C12. The call `get(id)` fails exactly when no row of `dds_pkgs` has the name and version
of `id`; the failure is then the `nonesuch` error with `id.to_string()` and the did-you-mean
suggestion over the textual ids of all packages. -/
theorem get_fails_iff_no_row (db : pkg_db) (id : pkg_id) :
    ((∃ e, db.get id = .error e) ↔
      ∀ r ∈ db.dds_pkgs, ¬ (r.name = id.name ∧ r.version = id.version)) ∧
    (∀ e, db.get id = .error e →
      e = .nonesuch { given := id.to_string,
                      nearest := did_you_mean id.to_string (db.all.map pkg_id.to_string) }) := by
  cases hrows : order_by_pkg_id_desc
      (db.dds_pkgs.filter (fun r => r.name == id.name && r.version == id.version)) with
  | nil =>
    have hfil := order_by_pkg_id_desc_eq_nil.mp hrows
    have hget : db.get id = .error (.nonesuch
        { given := id.to_string,
          nearest := did_you_mean id.to_string (db.all.map pkg_id.to_string) }) := by
      unfold pkg_db.get
      rw [hrows]
    refine ⟨⟨fun _ r hr hm => ?_, fun _ => ⟨_, hget⟩⟩, ?_⟩
    · rw [List.filter_eq_nil_iff] at hfil
      exact hfil r hr (by simp [hm.1, hm.2])
    · intro e he
      rw [hget] at he
      cases he
      rfl
  | cons row tl =>
    have hmem : row ∈ db.dds_pkgs.filter
        (fun r => r.name == id.name && r.version == id.version) := by
      rw [← mem_order_by_pkg_id_desc, hrows]
      exact List.mem_cons_self row tl
    rw [List.mem_filter] at hmem
    obtain ⟨hrow, hmatch⟩ := hmem
    simp only [Bool.and_eq_true, beq_iff_eq] at hmatch
    have hget : db.get id
        = .ok ⟨id, db.dependencies_of id, row.description, row.remote_url⟩ := by
      unfold pkg_db.get
      rw [hrows]
      simp [hmatch.1, hmatch.2]
    refine ⟨⟨fun ⟨e, he⟩ => ?_, fun hno => absurd hmatch (hno row hrow)⟩, ?_⟩
    · rw [hget] at he
      cases he
    · intro e he
      rw [hget] at he
      cases he

theorem get_fails_iff_no_row_witness :
    (∃ e, foo_twice_db.get ⟨"fob", "1.2.3"⟩ = .error e) ∧
    (∀ r ∈ foo_twice_db.dds_pkgs, ¬ (r.name = "fob" ∧ r.version = "1.2.3")) ∧
    foo_twice_db.get ⟨"fob", "1.2.3"⟩
      = .error (.nonesuch { given := "fob@1.2.3", nearest := some "foo@1.2.3" }) ∧
    ¬ (∃ e, foo_twice_db.get ⟨"foo", "1.2.3"⟩ = .error e) :=
  have h := get_fails_iff_no_row foo_twice_db ⟨"fob", "1.2.3"⟩
  have h2 := get_fails_iff_no_row foo_twice_db ⟨"foo", "1.2.3"⟩
  have hno : ∀ r ∈ foo_twice_db.dds_pkgs, ¬ (r.name = "fob" ∧ r.version = "1.2.3") := by
    decide
  ⟨h.1.mpr hno, hno, rfl,
    fun hex => absurd (h2.1.mp hex) (by decide)⟩

/-! ### Remotes -/

theorem toNat_ofNat_small (n : Nat) (h : n < 55296) : (Char.ofNat n).toNat = n := by
  have hv : n.isValidChar := Or.inl h
  unfold Char.ofNat
  rw [dif_pos hv]
  simp [Char.ofNatAux, Char.toNat, UInt32.toNat]

theorem ascii_lower_eq_iff (c t : Char) (ht : t.toNat < 65) : ascii_lower c = t ↔ c = t := by
  have ha : ('A' : Char).toNat = 65 := by decide
  have hz : ('Z' : Char).toNat = 90 := by decide
  unfold ascii_lower
  constructor
  · intro h
    split at h
    · rename_i hup
      have h1 : ('A' : Char).toNat ≤ c.toNat := hup.1
      have h2 : c.toNat ≤ ('Z' : Char).toNat := hup.2
      have h3 := congrArg Char.toNat h
      rw [toNat_ofNat_small _ (by omega)] at h3
      omega
    · exact h
  · intro h
    subst h
    rw [if_neg]
    intro hup
    have h1 : ('A' : Char).toNat ≤ c.toNat := hup.1
    omega

theorem like_match_percent (s : List Char) : like_match ['%'] s = true := by
  simp only [like_match, if_true, List.any_eq_true]
  exact ⟨[], by simp, rfl⟩

theorem like_match_literal (pc : Char) (p s : List Char) (h1 : pc ≠ '%') (h2 : pc ≠ '_') :
    like_match (pc :: p) s
      = match s with
        | [] => false
        | c :: s1 => (ascii_lower pc == ascii_lower c) && like_match p s1 := by
  cases s with
  | nil => simp [like_match, h1]
  | cons c s1 =>
    have h3 : (pc == '_') = false := by
      rw [beq_eq_false_iff_ne]
      exact h2
    simp [like_match, h1, h3]

theorem like_match_at_percent (s : List Char) :
    like_match ['@', '%'] s = true ↔ ∃ rest, s = '@' :: rest := by
  have h1 : ascii_lower '@' = '@' := by decide
  rw [like_match_literal '@' ['%'] s (by decide) (by decide)]
  cases s with
  | nil => simp
  | cons c rest =>
    simp only [like_match_percent, Bool.and_true, beq_iff_eq, h1, List.cons.injEq,
      exists_eq_right']
    constructor
    · intro h
      exact ((ascii_lower_eq_iff c '@' (by decide)).mp h.symm)
    · intro h
      rw [h, h1]

theorem like_match_percent_at_percent (s : List Char) :
    like_match ['%', '@', '%'] s = true ↔ '@' ∈ s := by
  have hunf : like_match ['%', '@', '%'] s
      = s.tails.any (fun t => like_match ['@', '%'] t) := by
    simp [like_match]
  rw [hunf, List.any_eq_true]
  constructor
  · rintro ⟨t, ht, hm⟩
    obtain ⟨rest, rfl⟩ := (like_match_at_percent t).mp hm
    obtain ⟨pre, rfl⟩ := (List.mem_tails _ _).mp ht
    simp
  · intro h
    obtain ⟨a, b, rfl⟩ := List.append_of_mem h
    exact ⟨'@' :: b, (List.mem_tails _ _).mpr ⟨a, rfl⟩,
      (like_match_at_percent _).mpr ⟨b, rfl⟩⟩

theorem like_dds_iff (s : List Char) :
    like_match "dds:%@%".toList s = true ↔
      ∃ c1 c2 c3 rest, s = c1 :: c2 :: c3 :: ':' :: rest ∧ ascii_lower c1 = 'd' ∧
        ascii_lower c2 = 'd' ∧ ascii_lower c3 = 's' ∧ '@' ∈ rest := by
  have hpat : "dds:%@%".toList = ['d', 'd', 's', ':', '%', '@', '%'] := rfl
  have hd : ascii_lower 'd' = 'd' := by decide
  have hs : ascii_lower 's' = 's' := by decide
  have hc : ascii_lower ':' = ':' := by decide
  rw [hpat]
  rw [like_match_literal 'd' _ s (by decide) (by decide)]
  cases s with
  | nil => simp
  | cons c1 s1 =>
    simp only
    rw [like_match_literal 'd' _ s1 (by decide) (by decide)]
    cases s1 with
    | nil => simp
    | cons c2 s2 =>
      simp only
      rw [like_match_literal 's' _ s2 (by decide) (by decide)]
      cases s2 with
      | nil => simp
      | cons c3 s3 =>
        simp only
        rw [like_match_literal ':' _ s3 (by decide) (by decide)]
        cases s3 with
        | nil => simp
        | cons c4 rest =>
          simp only [Bool.and_eq_true, beq_iff_eq, like_match_percent_at_percent, hd, hs, hc,
            List.cons.injEq]
          constructor
          · rintro ⟨h1, h2, h3, h4, h5⟩
            have h4c : c4 = ':' := (ascii_lower_eq_iff c4 ':' (by decide)).mp h4.symm
            exact ⟨c1, c2, c3, rest, ⟨rfl, rfl, rfl, h4c, rfl⟩, h1.symm, h2.symm, h3.symm, h5⟩
          · rintro ⟨d1, d2, d3, r, ⟨rfl, rfl, rfl, rfl, rfl⟩, h1, h2, h3, h5⟩
            exact ⟨h1.symm, h2.symm, h3.symm, hc.symm, h5⟩

theorem import_url_dds (base n v : String) :
    import_url base ("dds:" ++ n ++ "@" ++ v) = "dds+" ++ base ++ "/" ++ n ++ "@" ++ v := by
  have hlist : ("dds:" ++ n ++ "@" ++ v).toList
      = 'd' :: 'd' :: 's' :: ':' :: (n.toList ++ '@' :: v.toList) := by
    simp [String.toList]
  have hlike : sql_like ("dds:" ++ n ++ "@" ++ v) "dds:%@%" = true := by
    unfold sql_like
    rw [hlist, like_dds_iff]
    exact ⟨'d', 'd', 's', _, rfl, by decide, by decide, by decide, by simp⟩
  have hsub : sql_substr ("dds:" ++ n ++ "@" ++ v) 5 = n ++ "@" ++ v := by
    unfold sql_substr
    rw [hlist]
    apply String.ext
    simp [String.toList]
  unfold import_url
  rw [if_pos hlike, hsub]
  simp only [String.append_assoc]

theorem import_url_of_not_like (base url : String) (h : sql_like url "dds:%@%" = false) :
    import_url base url = url := by
  unfold import_url
  simp [h]

theorem sql_like_dds_scheme {url : String} (h : sql_like url "dds:%@%" = true) :
    (url.toList.take 4).map ascii_lower = "dds:".toList := by
  unfold sql_like at h
  obtain ⟨c1, c2, c3, rest, hurl, h1, h2, h3, -⟩ := (like_dds_iff _).mp h
  have hc : ascii_lower ':' = ':' := by decide
  rw [hurl]
  simp only [List.take_succ_cons, List.take_zero, List.map_cons, List.map_nil, h1, h2, h3, hc]
  rfl

theorem import_packages_rows {rid : Int} {base : String} {rows : List repo_package_row}
    {db db1 : pkg_db} (h : import_packages rid base db rows = .ok db1) :
    ∃ news, db1.dds_pkgs = db.dds_pkgs ++ news ∧
      news.map (fun p => (p.name, p.version, p.description, p.remote_url, p.remote_id))
        = rows.map (fun r => (r.name, r.version, r.description, import_url base r.url,
            some rid)) ∧
      db1.dds_pkg_deps = db.dds_pkg_deps ∧ db1.dds_pkg_remotes = db.dds_pkg_remotes := by
  induction rows generalizing db with
  | nil =>
    simp only [import_packages, Except.ok.injEq] at h
    subst h
    exact ⟨[], by simp, rfl, rfl, rfl⟩
  | cons r rs ih =>
    unfold import_packages at h
    split at h
    · cases h
    · split at h
      · cases h
      · obtain ⟨news, hn, hmap, hd, hr⟩ := ih h
        refine ⟨{ pkg_id := autoincrement_rowid (db.dds_pkgs.map (fun p => p.pkg_id)) db.seq_pkgs,
                  name := r.name, version := r.version, description := r.description,
                  remote_url := import_url base r.url, remote_id := some rid } :: news,
          ?_, ?_, hd, hr⟩
        · rw [hn]
          simp only [List.append_assoc, List.singleton_append]
        · simp only [List.map_cons, hmap]

theorem insert_or_replace_pkg_dep_tables {db db1 : pkg_db}
    {row : Int × String × String × String} (h : insert_or_replace_pkg_dep db row = .ok db1) :
    db1.dds_pkgs = db.dds_pkgs ∧ db1.dds_pkg_remotes = db.dds_pkg_remotes := by
  unfold insert_or_replace_pkg_dep at h
  split at h
  · cases h
  · simp only [Except.ok.injEq] at h
    subst h
    exact ⟨rfl, rfl⟩

theorem import_deps_tables {rows : List (Int × String × String × String)} {db db1 : pkg_db}
    (h : import_deps db rows = .ok db1) :
    db1.dds_pkgs = db.dds_pkgs ∧ db1.dds_pkg_remotes = db.dds_pkg_remotes := by
  induction rows generalizing db with
  | nil =>
    simp only [import_deps, Except.ok.injEq] at h
    subst h
    exact ⟨rfl, rfl⟩
  | cons row rows ih =>
    unfold import_deps at h
    split at h
    · cases h
    · rename_i db2 hins
      obtain ⟨h1, h2⟩ := ih h
      obtain ⟨h3, h4⟩ := insert_or_replace_pkg_dep_tables hins
      exact ⟨h1.trans h3, h2.trans h4⟩

theorem update_transaction_pkgs {r : pkg_remote} {rid : Int} {base : String}
    {index : remote_index} {etag lm : Option String} {ic : List String} {db db1 : pkg_db}
    (h : update_transaction r rid base index etag lm ic db = .ok db1) :
    ∃ pkgs news, index.dds_repo_packages = some pkgs ∧
      db1.dds_pkgs = db.dds_pkgs.filter (fun p => !(p.remote_id == some rid)) ++ news ∧
      news.map (fun p => (p.name, p.version, p.description, p.remote_url, p.remote_id))
        = pkgs.map (fun x => (x.name, x.version, x.description, import_url base x.url,
            some rid)) := by
  unfold update_transaction at h
  simp only at h
  split at h
  · cases h
  · rename_i pkgs hidx
    split at h
    · cases h
    · rename_i db2 himp
      split at h
      · cases h
      · split at h
        · cases h
        · rename_i db3 hdeps
          split at h
          · cases h
          · simp only [Except.ok.injEq] at h
            obtain ⟨news, hn, hmap, -, -⟩ := import_packages_rows himp
            refine ⟨pkgs, news, hidx, ?_, hmap⟩
            have h3 := (import_deps_tables hdeps).1
            have h1 : db1.dds_pkgs = db3.dds_pkgs := by
              subst h
              cases etag <;> cases lm <;> rfl
            rw [h1, h3, hn]
            rfl

theorem strip_trailing_slashes_spec (s : String) :
    (∃ k, s = strip_trailing_slashes s ++ String.mk (List.replicate k '/')) ∧
    (strip_trailing_slashes s).toList.getLast? ≠ some '/' := by
  unfold strip_trailing_slashes
  constructor
  · refine ⟨(s.toList.reverse.takeWhile (fun c => c == '/')).length, ?_⟩
    apply String.ext
    have h1 := List.takeWhile_append_dropWhile (fun c => c == '/') s.toList.reverse
    have h2 : s.toList = (s.toList.reverse.dropWhile (fun c => c == '/')).reverse
        ++ (s.toList.reverse.takeWhile (fun c => c == '/')).reverse := by
      rw [← List.reverse_append, h1, List.reverse_reverse]
    have h3 : (s.toList.reverse.takeWhile (fun c => c == '/')).reverse
        = List.replicate (s.toList.reverse.takeWhile (fun c => c == '/')).length '/' := by
      rw [List.eq_replicate_iff]
      refine ⟨by simp, ?_⟩
      intro b hb
      have := List.mem_takeWhile_imp (List.mem_reverse.mp hb)
      simpa using this
    show s.toList = _
    rw [String.data_append]
    show s.toList = s.toList.rdropWhile (fun c => c == '/') ++ _
    rw [List.rdropWhile, ← h3]
    exact h2
  · show (s.toList.rdropWhile (fun c => c == '/')).getLast? ≠ some '/'
    intro h
    have hne : s.toList.rdropWhile (fun c => c == '/') ≠ [] := by
      intro h0
      rw [h0] at h
      cases h
    have hlast := List.rdropWhile_last_not (fun c => c == '/') s.toList hne
    rw [List.getLast?_eq_getLast _ hne] at h
    simp only [Option.some.injEq] at h
    rw [h] at hlast
    simp at hlast

theorem update_pkg_db_ok {r : pkg_remote} {db : pkg_db} {index : remote_index}
    {etag lm : Option String} {ic : List String}
    (h : (r.update_pkg_db db (.body index etag lm) ic).2 = .ok ()) :
    ∃ rid, unpack_single (select_remote_id db r._name) = .ok rid ∧
      update_transaction r rid (strip_trailing_slashes r._base_url) index etag lm ic db
        = .ok (r.update_pkg_db db (.body index etag lm) ic).1 := by
  unfold pkg_remote.update_pkg_db at h ⊢
  simp only at h ⊢
  cases hsel : unpack_single (select_remote_id db r._name) with
  | error e => simp [hsel] at h
  | ok rid =>
    refine ⟨rid, rfl, ?_⟩
    simp only [hsel] at h ⊢
    unfold transaction_guard at h ⊢
    cases htr : update_transaction r rid (strip_trailing_slashes r._base_url) index etag lm ic
        db with
    | error e => simp [htr] at h
    | ok db1 => rfl

theorem transaction_guard_error {ε : Type} {db : pkg_db} {body : pkg_db → Except ε pkg_db}
    {e : ε} (h : (transaction_guard db body).2 = .error e) :
    (transaction_guard db body).1 = db := by
  unfold transaction_guard at h ⊢
  cases hb : body db with
  | error e1 => rfl
  | ok db1 => simp [hb] at h

theorem update_pkg_db_error_unchanged {r : pkg_remote} {db : pkg_db} {resp : http_response}
    {ic : List String} {e : update_error} (h : (r.update_pkg_db db resp ic).2 = .error e) :
    (r.update_pkg_db db resp ic).1 = db := by
  unfold pkg_remote.update_pkg_db at h ⊢
  cases resp with
  | not_modified => rfl
  | body index etag lm =>
    simp only at h ⊢
    cases hsel : unpack_single (select_remote_id db r._name) with
    | error e1 => rfl
    | ok rid =>
      simp only [hsel] at h ⊢
      exact transaction_guard_error h

theorem update_pkg_db_stored_row {r : pkg_remote} {db : pkg_db} {index : remote_index}
    {etag lm : Option String} {ic : List String} {pkgs : List repo_package_row}
    {row : repo_package_row} (hidx : index.dds_repo_packages = some pkgs) (hrow : row ∈ pkgs)
    (hok : (r.update_pkg_db db (.body index etag lm) ic).2 = .ok ()) :
    ∃ p ∈ (r.update_pkg_db db (.body index etag lm) ic).1.dds_pkgs,
      p.name = row.name ∧ p.version = row.version ∧ p.description = row.description ∧
      p.remote_url = import_url (strip_trailing_slashes r._base_url) row.url := by
  obtain ⟨rid, -, htr⟩ := update_pkg_db_ok hok
  obtain ⟨pkgs1, news, hidx1, hpk, hmap⟩ := update_transaction_pkgs htr
  rw [hidx] at hidx1
  cases hidx1
  have hmem : (row.name, row.version, row.description,
      import_url (strip_trailing_slashes r._base_url) row.url, some rid)
      ∈ news.map (fun p => (p.name, p.version, p.description, p.remote_url, p.remote_id)) := by
    rw [hmap]
    exact List.mem_map.mpr ⟨row, hrow, rfl⟩
  obtain ⟨p, hp, hpe⟩ := List.mem_map.mp hmem
  simp only [Prod.mk.injEq] at hpe
  refine ⟨p, ?_, hpe.1, hpe.2.1, hpe.2.2.1, hpe.2.2.2.1⟩
  rw [hpk]
  exact List.mem_append_right _ hp

/-- C13. A row of the index whose URL is `dds:<name>@<ver>` is stored, by an `update_pkg_db`
that returns, as a package with the URL `dds+<base-url>/<name>@<ver>`, where `<base-url>` is
the base URL of the remote without its trailing `/` characters. -/
theorem update_pkg_db_rewrites_dds_url (r : pkg_remote) (db : pkg_db) (index : remote_index)
    (etag lm : Option String) (ic : List String) (pkgs : List repo_package_row)
    (row : repo_package_row) (n v : String) (hidx : index.dds_repo_packages = some pkgs)
    (hrow : row ∈ pkgs) (hurl : row.url = "dds:" ++ n ++ "@" ++ v)
    (hok : (r.update_pkg_db db (.body index etag lm) ic).2 = .ok ()) :
    (∃ p ∈ (r.update_pkg_db db (.body index etag lm) ic).1.dds_pkgs,
      p.name = row.name ∧ p.version = row.version ∧ p.description = row.description ∧
      p.remote_url = "dds+" ++ strip_trailing_slashes r._base_url ++ "/" ++ n ++ "@" ++ v) ∧
    (∃ k, r._base_url
      = strip_trailing_slashes r._base_url ++ String.mk (List.replicate k '/')) ∧
    (strip_trailing_slashes r._base_url).toList.getLast? ≠ some '/' := by
  obtain ⟨p, hp, h1, h2, h3, h4⟩ := update_pkg_db_stored_row hidx hrow hok
  refine ⟨⟨p, hp, h1, h2, h3, ?_⟩, strip_trailing_slashes_spec r._base_url⟩
  rw [h4, hurl, import_url_dds]

theorem update_pkg_db_rewrites_dds_url_witness :
    example_index.dds_repo_packages
      = some [⟨10, "bar", "1.1.0", "bar", "dds:bar@1.1.0"⟩,
              ⟨11, "baz", "2.0.0", "baz", "DDS:baz@2.0.0"⟩] ∧
    (repo_1.update_pkg_db remote_example_db (.body example_index (some "e2") (some "m2"))
      ["ok"]).2 = .ok () ∧
    (∃ p ∈ (repo_1.update_pkg_db remote_example_db
          (.body example_index (some "e2") (some "m2")) ["ok"]).1.dds_pkgs,
      p.name = "bar" ∧ p.version = "1.1.0" ∧ p.description = "bar" ∧
      p.remote_url = "dds+" ++ strip_trailing_slashes repo_1._base_url ++ "/" ++ "bar" ++ "@"
        ++ "1.1.0") ∧
    (∃ k, repo_1._base_url
      = strip_trailing_slashes repo_1._base_url ++ String.mk (List.replicate k '/')) ∧
    (strip_trailing_slashes repo_1._base_url).toList.getLast? ≠ some '/' :=
  ⟨rfl, rfl,
    update_pkg_db_rewrites_dds_url repo_1 remote_example_db example_index (some "e2")
      (some "m2") ["ok"] _ ⟨10, "bar", "1.1.0", "bar", "dds:bar@1.1.0"⟩ "bar" "1.1.0" rfl
      (by simp) rfl rfl⟩

/-- C14 as stated fails: the URL `DDS:baz@2.0.0` of the index does not begin with the four
characters `dds:`, yet `LIKE` compares ASCII letters without regard to case, the pattern
`dds:%@%` matches, and the package is stored with `dds+https://repo-1.dds.pizza/baz@2.0.0`. -/
theorem update_pkg_db_rewrites_upper_case_scheme :
    "DDS:baz@2.0.0".toList.take 4 ≠ "dds:".toList ∧
    (⟨11, "baz", "2.0.0", "baz", "DDS:baz@2.0.0"⟩ : repo_package_row)
      ∈ example_index.dds_repo_packages.getD [] ∧
    repo_1.update_pkg_db remote_example_db (.body example_index (some "e2") (some "m2")) ["ok"]
      = (updated_example_db, .ok ()) ∧
    updated_example_db.dds_pkgs.filter (fun p => p.name == "baz")
      = [⟨4, "baz", "2.0.0", "baz", "dds+https://repo-1.dds.pizza/baz@2.0.0", some 1⟩] ∧
    "dds+https://repo-1.dds.pizza/baz@2.0.0" ≠ "DDS:baz@2.0.0" := by
  refine ⟨by decide, by decide, rfl, by decide, by decide⟩

/-- C14, amended. A row of the index whose URL does not match the pattern `dds:%@%` of `LIKE`
is stored, by an `update_pkg_db` that returns, with that URL unchanged. The pattern does not
match, in particular, when the first four characters, ASCII letters folded to lower case, are
not `dds:`, and when no `@` follows them. -/
theorem update_pkg_db_keeps_other_url (r : pkg_remote) (db : pkg_db) (index : remote_index)
    (etag lm : Option String) (ic : List String) (pkgs : List repo_package_row)
    (row : repo_package_row) (hidx : index.dds_repo_packages = some pkgs)
    (hrow : row ∈ pkgs)
    (hurl : (row.url.toList.take 4).map ascii_lower ≠ "dds:".toList
      ∨ '@' ∉ row.url.toList.drop 4)
    (hok : (r.update_pkg_db db (.body index etag lm) ic).2 = .ok ()) :
    sql_like row.url "dds:%@%" = false ∧
    ∃ p ∈ (r.update_pkg_db db (.body index etag lm) ic).1.dds_pkgs,
      p.name = row.name ∧ p.version = row.version ∧ p.description = row.description ∧
      p.remote_url = row.url := by
  have hlike : sql_like row.url "dds:%@%" = false := by
    rw [Bool.eq_false_iff]
    intro hm
    rcases hurl with h | h
    · exact h (sql_like_dds_scheme hm)
    · unfold sql_like at hm
      obtain ⟨c1, c2, c3, rest, hu, -, -, -, hat⟩ := (like_dds_iff _).mp hm
      apply h
      rw [hu]
      exact hat
  obtain ⟨p, hp, h1, h2, h3, h4⟩ := update_pkg_db_stored_row hidx hrow hok
  exact ⟨hlike, p, hp, h1, h2, h3, by rw [h4, import_url_of_not_like _ _ hlike]⟩

theorem update_pkg_db_keeps_other_url_witness :
    git_index.dds_repo_packages
      = some [⟨20, "baz", "2.0.0", "baz", "git+https://example.com/baz.git#2.0.0"⟩] ∧
    ("git+https://example.com/baz.git#2.0.0".toList.take 4).map ascii_lower ≠ "dds:".toList ∧
    (repo_1.update_pkg_db remote_example_db (.body git_index none none) ["ok"]).2 = .ok () ∧
    sql_like "git+https://example.com/baz.git#2.0.0" "dds:%@%" = false ∧
    ∃ p ∈ (repo_1.update_pkg_db remote_example_db (.body git_index none none) ["ok"]).1.dds_pkgs,
      p.name = "baz" ∧ p.version = "2.0.0" ∧ p.description = "baz" ∧
      p.remote_url = "git+https://example.com/baz.git#2.0.0" :=
  ⟨rfl, by decide, rfl,
    update_pkg_db_keeps_other_url repo_1 remote_example_db git_index none none ["ok"] _
      ⟨20, "baz", "2.0.0", "baz", "git+https://example.com/baz.git#2.0.0"⟩ rfl (by simp)
      (Or.inl (by decide)) rfl⟩

theorem update_transaction_integrity_fails (r : pkg_remote) (rid : Int) (base : String)
    (index : remote_index) (etag lm : Option String) (ic : List String) (db : pkg_db)
    (hic : ic.any (fun error => error != "ok") = true) :
    ∃ e, update_transaction r rid base index etag lm ic db = .error e := by
  unfold update_transaction
  simp only
  split
  · exact ⟨_, rfl⟩
  · split
    · exact ⟨_, rfl⟩
    · split
      · exact ⟨_, rfl⟩
      · split
        · exact ⟨_, rfl⟩
        · rw [hic, Bool.or_true, if_pos rfl]
          exact ⟨_, rfl⟩

theorem update_pkg_db_integrity_fails (r : pkg_remote) (db : pkg_db) (index : remote_index)
    (etag lm : Option String) (ic : List String)
    (hic : ic.any (fun error => error != "ok") = true) :
    ∃ e, (r.update_pkg_db db (.body index etag lm) ic).2 = .error e := by
  unfold pkg_remote.update_pkg_db
  simp only
  cases hsel : unpack_single (select_remote_id db r._name) with
  | error e1 => exact ⟨_, rfl⟩
  | ok rid =>
    obtain ⟨e, he⟩ := update_transaction_integrity_fails r rid
      (strip_trailing_slashes r._base_url) index etag lm ic db hic
    simp only [transaction_guard, he]
    exact ⟨_, rfl⟩

/-- C15. The import of `update_pkg_db` is one transaction: whenever the call throws, and so
when its foreign-key check or its integrity check fails (`corrupted_catalog_db`), the database
after the call is the database before it, package rows, dependency rows and remote rows with
their ETag and Last-Modified alike. A failing integrity check does make the call throw. -/
theorem update_pkg_db_failure_rolls_back (r : pkg_remote) (db : pkg_db) (resp : http_response)
    (ic : List String) :
    (∀ e, (r.update_pkg_db db resp ic).2 = .error e →
      (r.update_pkg_db db resp ic).1.dds_pkgs = db.dds_pkgs ∧
      (r.update_pkg_db db resp ic).1.dds_pkg_deps = db.dds_pkg_deps ∧
      (r.update_pkg_db db resp ic).1.dds_pkg_remotes = db.dds_pkg_remotes ∧
      (r.update_pkg_db db resp ic).1 = db) ∧
    (∀ index etag lm, resp = .body index etag lm →
      ic.any (fun error => error != "ok") = true →
      ∃ e, (r.update_pkg_db db resp ic).2 = .error e) := by
  constructor
  · intro e he
    have h := update_pkg_db_error_unchanged he
    rw [h]
    exact ⟨rfl, rfl, rfl, rfl⟩
  · intro index etag lm hresp hic
    subst hresp
    exact update_pkg_db_integrity_fails r db index etag lm ic hic

theorem update_pkg_db_failure_rolls_back_witness :
    (repo_1.update_pkg_db remote_example_db (.body example_index (some "e2") (some "m2"))
      ["row 1 missing from index"]).2 = .error .corrupted_catalog_db ∧
    (repo_1.update_pkg_db remote_example_db (.body example_index (some "e2") (some "m2"))
      ["row 1 missing from index"]).1 = remote_example_db :=
  ⟨rfl,
    ((update_pkg_db_failure_rolls_back repo_1 remote_example_db
      (.body example_index (some "e2") (some "m2")) ["row 1 missing from index"]).1
        .corrupted_catalog_db rfl).2.2.2⟩

/-- C16 as stated fails: `repo-1` has the package `bar@1.0.0` from an earlier import; the
integrity check of a new import fails; the transaction is rolled back, and the database still
holds that package row and its dependency row for this remote. -/
theorem update_pkg_db_failure_keeps_old_rows :
    repo_1.update_pkg_db remote_example_db (.body example_index (some "e2") (some "m2"))
        ["row 1 missing from index"]
      = (remote_example_db, .error .corrupted_catalog_db) ∧
    select_remote_id remote_example_db repo_1._name = [1] ∧
    remote_example_db.dds_pkgs.filter (fun p => p.remote_id == some 1)
      = [⟨2, "bar", "1.0.0", "bar", "dds+https://repo-1.dds.pizza/bar@1.0.0", some 1⟩] ∧
    remote_example_db.dds_pkg_deps.filter (fun d => d.pkg_id == 2)
      = [⟨1, 2, "foo", "1.0.0", "2.0.0"⟩] := by
  refine ⟨rfl, rfl, by decide, by decide⟩

/-- C16, amended. When the integrity check of `update_pkg_db` fails, the call throws and the
database holds exactly the package rows and dependency rows it held before the call: none of
the rows of this import, and for this remote the rows it had before (none only if it had
none). -/
theorem update_pkg_db_integrity_failure_restores (r : pkg_remote) (db : pkg_db)
    (index : remote_index) (etag lm : Option String) (ic : List String) (rid : Int)
    (hic : ic.any (fun error => error != "ok") = true) :
    (∃ e, (r.update_pkg_db db (.body index etag lm) ic).2 = .error e) ∧
    (r.update_pkg_db db (.body index etag lm) ic).1.dds_pkgs = db.dds_pkgs ∧
    (r.update_pkg_db db (.body index etag lm) ic).1.dds_pkg_deps = db.dds_pkg_deps ∧
    ((∀ p ∈ db.dds_pkgs, p.remote_id ≠ some rid) →
      ∀ p ∈ (r.update_pkg_db db (.body index etag lm) ic).1.dds_pkgs,
        p.remote_id ≠ some rid) := by
  obtain ⟨e, he⟩ := update_pkg_db_integrity_fails r db index etag lm ic hic
  have h := update_pkg_db_error_unchanged he
  refine ⟨⟨e, he⟩, by rw [h], by rw [h], ?_⟩
  intro hnone p hp
  rw [h] at hp
  exact hnone p hp

theorem update_pkg_db_integrity_failure_restores_witness :
    (["row 1 missing from index"] : List String).any (fun error => error != "ok") = true ∧
    (∃ e, (repo_1.update_pkg_db remote_example_db (.body git_index none none)
      ["row 1 missing from index"]).2 = .error e) ∧
    (repo_1.update_pkg_db remote_example_db (.body git_index none none)
      ["row 1 missing from index"]).1.dds_pkgs = remote_example_db.dds_pkgs ∧
    (repo_1.update_pkg_db remote_example_db (.body git_index none none)
      ["row 1 missing from index"]).1.dds_pkg_deps = remote_example_db.dds_pkg_deps :=
  have h := update_pkg_db_integrity_failure_restores repo_1 remote_example_db git_index none
    none ["row 1 missing from index"] 1 (by decide)
  ⟨by decide, h.1, h.2.1, h.2.2.1⟩

/-- C17. When the conditional fetch answers "not modified", `update_pkg_db` returns with the
database as it was: every package row, dependency row and remote row, the stored ETag and
Last-Modified included. -/
theorem update_pkg_db_not_modified (r : pkg_remote) (db : pkg_db) (ic : List String) :
    r.update_pkg_db db .not_modified ic = (db, .ok ()) ∧
    (r.update_pkg_db db .not_modified ic).1.dds_pkgs = db.dds_pkgs ∧
    (r.update_pkg_db db .not_modified ic).1.dds_pkg_deps = db.dds_pkg_deps ∧
    (r.update_pkg_db db .not_modified ic).1.dds_pkg_remotes = db.dds_pkg_remotes := by
  have h : r.update_pkg_db db .not_modified ic = (db, .ok ()) := by
    unfold pkg_remote.update_pkg_db
    rfl
  rw [h]
  exact ⟨rfl, rfl, rfl, rfl⟩

theorem select_remote_id_eq_nil {db : pkg_db} {name : String} :
    select_remote_id db name = [] ↔ name ∉ db.dds_pkg_remotes.map (fun x => x.name) := by
  unfold select_remote_id
  rw [List.map_eq_nil_iff, List.filter_eq_nil_iff]
  constructor
  · intro h hmem
    obtain ⟨x, hx, hxn⟩ := List.mem_map.mp hmem
    exact h x hx (by simpa using hxn)
  · intro h x hx hxn
    exact h (List.mem_map.mpr ⟨x, hx, by simpa using hxn⟩)

/-- C18. The call `remove_remote(db, name)` throws exactly when no remote is named `name`; it
then throws `no_catalog_remote_info` with the `e_nonesuch` payload of `name` and the
did-you-mean suggestion over the names of all remotes, and the database is unchanged. -/
theorem remove_remote_fails_iff_absent (db : pkg_db) (name : String) :
    ((∃ e, (remove_remote db name).2 = .error e) ↔
      name ∉ db.dds_pkg_remotes.map (fun x => x.name)) ∧
    (∀ e, (remove_remote db name).2 = .error e →
      e = .no_catalog_remote_info
            { given := name,
              nearest := did_you_mean name (db.dds_pkg_remotes.map (fun x => x.name)) } ∧
      (remove_remote db name).1 = db) := by
  cases hsel : select_remote_id db name with
  | nil =>
    have hres : remove_remote db name
        = (db, .error (.no_catalog_remote_info
            { given := name,
              nearest := did_you_mean name (db.dds_pkg_remotes.map (fun x => x.name)) })) := by
      simp [remove_remote, transaction_guard, hsel, unpack_single_opt]
    rw [hres]
    refine ⟨⟨fun _ => select_remote_id_eq_nil.mp hsel, fun _ => ⟨_, rfl⟩⟩, ?_⟩
    intro e he
    simp only [Except.error.injEq] at he
    exact ⟨he.symm, rfl⟩
  | cons rowid rest =>
    have hres : remove_remote db name = (delete_remote db rowid, .ok ()) := by
      simp [remove_remote, transaction_guard, hsel, unpack_single_opt]
    rw [hres]
    refine ⟨⟨fun ⟨e, he⟩ => (by cases he), fun hno => ?_⟩, fun e he => (by cases he)⟩
    have := select_remote_id_eq_nil.mpr hno
    rw [hsel] at this
    cases this

theorem remove_remote_fails_iff_absent_witness :
    "repo-2" ∉ remote_example_db.dds_pkg_remotes.map (fun x => x.name) ∧
    remove_remote remote_example_db "repo-2"
      = (remote_example_db,
         .error (.no_catalog_remote_info { given := "repo-2", nearest := some "repo-1" })) ∧
    (∃ e, (remove_remote remote_example_db "repo-2").2 = .error e) ∧
    ¬ (∃ e, (remove_remote remote_example_db "repo-1").2 = .error e) :=
  have h := remove_remote_fails_iff_absent remote_example_db "repo-2"
  have h1 := remove_remote_fails_iff_absent remote_example_db "repo-1"
  ⟨by decide, rfl, h.1.mpr (by decide), fun hex => absurd (h1.1.mp hex) (by decide)⟩

theorem select_remote_id_of_mem {db : pkg_db}
    (hname : (db.dds_pkg_remotes.map (fun x => x.name)).Nodup) {x : pkg_remote_row}
    (hx : x ∈ db.dds_pkg_remotes) : select_remote_id db x.name = [x.remote_id] := by
  unfold select_remote_id
  have hfil : db.dds_pkg_remotes.filter (fun y => y.name == x.name) = [x] := by
    generalize db.dds_pkg_remotes = l at hname hx
    induction l with
    | nil => simp at hx
    | cons g gs ih =>
      simp only [List.map_cons, List.nodup_cons] at hname
      rcases List.mem_cons.mp hx with h | h
      · subst h
        have hrest : gs.filter (fun y => y.name == x.name) = [] := by
          rw [List.filter_eq_nil_iff]
          intro y hy hyn
          simp only [beq_iff_eq] at hyn
          exact hname.1 (hyn ▸ List.mem_map_of_mem _ hy)
        simp [List.filter_cons, hrest]
      · have hne : ¬ g.name = x.name := by
          intro e
          exact hname.1 (e ▸ List.mem_map_of_mem _ h)
        simp [List.filter_cons, hne, ih hname.2 h]
  rw [hfil]
  rfl

/-- C19. After `remove_remote(db, name)` succeeded for the remote `R` named `name`, no remote
row is named `name`, no package row has the `remote_id` of `R`, no dependency row belongs to
a package that had it; every other remote row, every package row of another remote or of no
remote and the dependency rows of those packages are still there, and no row was added. -/
theorem remove_remote_cascades (db : pkg_db) (hwf : db.well_formed) (rem : pkg_remote_row)
    (hrem : rem ∈ db.dds_pkg_remotes) :
    (remove_remote db rem.name).2 = .ok () ∧
    (∀ x ∈ (remove_remote db rem.name).1.dds_pkg_remotes, x.name ≠ rem.name) ∧
    (∀ p ∈ (remove_remote db rem.name).1.dds_pkgs, p.remote_id ≠ some rem.remote_id) ∧
    (∀ d ∈ (remove_remote db rem.name).1.dds_pkg_deps,
      ∀ p ∈ db.dds_pkgs, p.remote_id = some rem.remote_id → d.pkg_id ≠ p.pkg_id) ∧
    (∀ x ∈ db.dds_pkg_remotes, x.name ≠ rem.name →
      x ∈ (remove_remote db rem.name).1.dds_pkg_remotes) ∧
    (remove_remote db rem.name).1.dds_pkgs
      = db.dds_pkgs.filter (fun p => !(p.remote_id == some rem.remote_id)) ∧
    (∀ p ∈ db.dds_pkgs, p.remote_id ≠ some rem.remote_id →
      ∀ d ∈ db.dds_pkg_deps, d.pkg_id = p.pkg_id →
        d ∈ (remove_remote db rem.name).1.dds_pkg_deps) ∧
    (∀ x ∈ (remove_remote db rem.name).1.dds_pkg_remotes, x ∈ db.dds_pkg_remotes) ∧
    (∀ d ∈ (remove_remote db rem.name).1.dds_pkg_deps, d ∈ db.dds_pkg_deps) := by
  have hsel := select_remote_id_of_mem hwf.remote_name_unique hrem
  have hres : remove_remote db rem.name = (delete_remote db rem.remote_id, .ok ()) := by
    simp [remove_remote, transaction_guard, hsel, unpack_single_opt]
  rw [hres]
  have hrem1 : (delete_remote db rem.remote_id).dds_pkg_remotes
      = db.dds_pkg_remotes.filter (fun x => !(x.remote_id == rem.remote_id)) := rfl
  have hpkgs1 : (delete_remote db rem.remote_id).dds_pkgs
      = db.dds_pkgs.filter (fun p => !(p.remote_id == some rem.remote_id)) := rfl
  have hdeps1 : (delete_remote db rem.remote_id).dds_pkg_deps
      = db.dds_pkg_deps.filter (fun d =>
          !((db.dds_pkgs.filter (fun p => p.remote_id == some rem.remote_id)).map
              (fun r => r.pkg_id)).contains d.pkg_id) := rfl
  simp only [hrem1, hpkgs1, hdeps1]
  refine ⟨trivial, ?_, ?_, ?_, ?_, trivial, ?_, ?_, ?_⟩
  · intro x hx hname
    rw [List.mem_filter] at hx
    have hxe : x = rem :=
      List.inj_on_of_nodup_map hwf.remote_name_unique hx.1 hrem hname
    simp [hxe] at hx
  · intro p hp
    rw [List.mem_filter] at hp
    simpa using hp.2
  · intro d hd p hp hprid heq
    rw [List.mem_filter] at hd
    have hgone : d.pkg_id ∈ (db.dds_pkgs.filter
        (fun p => p.remote_id == some rem.remote_id)).map (fun r => r.pkg_id) := by
      rw [heq]
      exact List.mem_map_of_mem _ (List.mem_filter.mpr ⟨hp, by simp [hprid]⟩)
    have hc := (contains_mem_int _ _).mpr hgone
    have hd2 := hd.2
    rw [hc] at hd2
    cases hd2
  · intro x hx hname
    rw [List.mem_filter]
    refine ⟨hx, ?_⟩
    simp only [Bool.not_eq_true', beq_eq_false_iff_ne, ne_eq]
    intro hid
    exact hname (congrArg (fun y => y.name)
      (List.inj_on_of_nodup_map hwf.remote_id_pk hx hrem hid))
  · intro p hp hprid d hd heq
    rw [List.mem_filter]
    refine ⟨hd, ?_⟩
    simp only [Bool.not_eq_true']
    rw [Bool.eq_false_iff]
    intro hc
    have hgone := (contains_mem_int _ _).mp hc
    obtain ⟨q, hq, hqid⟩ := List.mem_map.mp hgone
    rw [List.mem_filter] at hq
    have hqp : q = p :=
      List.inj_on_of_nodup_map hwf.pkg_id_pk hq.1 hp (by rw [hqid, heq])
    rw [hqp] at hq
    exact hprid (by simpa using hq.2)
  · intro x hx
    exact List.mem_of_mem_filter hx
  · intro d hd
    exact List.mem_of_mem_filter hd

theorem remove_remote_cascades_witness :
    remote_example_db.well_formed ∧
    (⟨1, "repo-1", "https://repo-1.dds.pizza", some "e1", none⟩ : pkg_remote_row)
      ∈ remote_example_db.dds_pkg_remotes ∧
    remove_remote remote_example_db "repo-1"
      = ({ dds_pkg_remotes := [],
           dds_pkgs := [⟨1, "foo", "1.2.3", "example", "git+http://example.com#master", none⟩],
           dds_pkg_deps := [], seq_remotes := 1, seq_pkgs := 2, seq_deps := 1 }, .ok ()) ∧
    (∀ p ∈ (remove_remote remote_example_db "repo-1").1.dds_pkgs, p.remote_id ≠ some 1) :=
  have hwf : remote_example_db.well_formed :=
    ⟨by decide, by decide, by decide, by decide, by decide, by decide, by decide, by decide⟩
  ⟨hwf, by decide, rfl,
    (remove_remote_cascades remote_example_db hwf
      ⟨1, "repo-1", "https://repo-1.dds.pizza", some "e1", none⟩ (by decide)).2.2.1⟩

/-! ### The package cache -/

theorem lookup_filter_ne (fs : filesystem) (p q : String) :
    List.lookup q (fs.filter (fun e => !(e.1 == p))) = if q = p then none else List.lookup q fs := by
  induction fs with
  | nil => simp
  | cons e fs ih =>
    obtain ⟨k, v⟩ := e
    by_cases hk : k = p
    · subst hk
      by_cases hq : q = k
      · subst hq
        simp [List.filter_cons, ih]
      · have hqk : (q == k) = false := by simpa using hq
        simp [List.filter_cons, ih, List.lookup_cons, hq, hqk]
    · have hkp : (k == p) = false := by simpa using hk
      by_cases hq : q = p
      · subst hq
        have hqk : (q == k) = false := by
          rw [beq_eq_false_iff_ne]
          exact fun h => hk h.symm
        simp [List.filter_cons, hkp, List.lookup_cons, hqk, ih]
      · simp only [List.filter_cons, hkp, Bool.not_false, if_true, List.lookup_cons, ih, if_neg hq]

theorem exists_filter_self (fs : filesystem) (p : String) :
    filesystem.exists (fs.filter (fun e => !(e.1 == p))) p = false := by
  simp [filesystem.exists, List.any_filter]

theorem exists_iff_lookup (fs : filesystem) (p : String) :
    fs.exists p = (List.lookup p fs).isSome := by
  induction fs with
  | nil => simp [filesystem.exists]
  | cons e fs ih =>
    obtain ⟨k, v⟩ := e
    simp only [filesystem.exists] at ih
    by_cases hk : p = k
    · subst hk
      simp [filesystem.exists, List.lookup_cons]
    · have hpk : (p == k) = false := by simpa using hk
      have hkp : (k == p) = false := by
        rw [beq_eq_false_iff_ne]
        exact fun h => hk h.symm
      simp [filesystem.exists, List.lookup_cons, hpk, hkp, ih]

theorem path_join_inj (root a b : String) (h : path_join root a = path_join root b) : a = b := by
  have h1 := congrArg String.data h
  simp only [path_join, String.data_append] at h1
  have h2 := List.append_cancel_left h1
  exact String.ext h2

theorem to_string_ne_tmp_import (id : pkg_id) : id.to_string ≠ ".tmp-import" := by
  intro h
  have h1 := congrArg String.data h
  simp only [pkg_id.to_string, String.data_append] at h1
  have h2 : '@' ∈ id.name.data ++ ['@'] ++ id.version.data := by simp
  rw [h1] at h2
  revert h2
  decide

theorem dest_ne_tmp (root : String) (id : pkg_id) :
    path_join root id.to_string ≠ path_join root ".tmp-import" :=
  fun h => to_string_ne_tmp_import id (path_join_inj root _ _ h)

/-- The disk after the filesystem calls of `add_sdist`: when the source directory exists (and
is not the temporary directory itself) the calls all return, the destination holds the tree
of the source and nothing else, and the temporary directory is gone; otherwise the copy
fails after the old temporary directory was removed. -/
theorem run_add_sdist_steps (fs : filesystem) (root : String) (sd : sdist) :
    run_fs_steps fs (add_sdist_steps root sd)
      = match List.lookup sd.path (fs.filter (fun e => !(e.1 == path_join root ".tmp-import"))) with
        | none => (fs.filter (fun e => !(e.1 == path_join root ".tmp-import")), none)
        | some tree =>
          ((fs.filter (fun e => !(e.1 == path_join root ".tmp-import"))).filter
              (fun e => !(e.1 == path_join root sd.manifest.id.to_string))
            ++ [(path_join root sd.manifest.id.to_string, tree)], some ()) := by
  have hne := dest_ne_tmp root sd.manifest.id
  have hne1 : (path_join root ".tmp-import" == path_join root sd.manifest.id.to_string) = false := by
    rw [beq_eq_false_iff_ne]
    exact fun h => hne h.symm
  simp only [add_sdist_steps, run_fs_steps, fs_step.run]
  cases hsrc : List.lookup sd.path (fs.filter (fun e => !(e.1 == path_join root ".tmp-import"))) with
  | none => rfl
  | some tree =>
    simp only [exists_filter_self, Bool.false_eq_true, if_false]
    have hl : List.lookup (path_join root ".tmp-import")
        (List.filter (fun e => !(e.1 == path_join root sd.manifest.id.to_string))
          (fs.filter (fun e => !(e.1 == path_join root ".tmp-import"))
            ++ [(path_join root ".tmp-import", tree)])) = some tree := by
      rw [List.filter_append, List.lookup_append, lookup_filter_ne, if_neg (fun h => hne h.symm),
        lookup_filter_ne, if_pos rfl]
      simp [List.filter_cons, hne1, List.lookup_cons]
    rw [hl]
    simp only
    congr 1
    congr 1
    rw [List.filter_append, List.filter_append]
    have h1 : List.filter (fun e : String × dir_contents => !(e.1 == path_join root ".tmp-import"))
        (List.filter (fun e => !(e.1 == path_join root sd.manifest.id.to_string))
          (fs.filter (fun e => !(e.1 == path_join root ".tmp-import"))))
        = List.filter (fun e => !(e.1 == path_join root sd.manifest.id.to_string))
          (fs.filter (fun e => !(e.1 == path_join root ".tmp-import"))) := by
      rw [List.filter_eq_self]
      intro e he
      have := (List.mem_filter.mp (List.mem_filter.mp he).1).2
      exact this
    rw [h1]
    simp [List.filter_cons, hne1]

/-- C20. When `root/<name>@<version>` exists, `add_sdist` on a cache opened for writing throws
the `sdist_exists` user error with `if_exists::throw_exc` and returns normally with
`if_exists::ignore`; in both cases the disk and the sdist set of the cache are the ones
before the call. -/
theorem add_sdist_existing_throw_or_ignore
    (from_directory : String → dir_contents → Option sdist) (c : pkg_cache) (fs : filesystem)
    (sd : sdist) (hw : c._write_enabled = true)
    (hex : fs.exists (path_join c._root sd.manifest.id.to_string) = true) :
    c.add_sdist from_directory fs sd .throw_exc = ((fs, c), .error .sdist_exists)
    ∧ c.add_sdist from_directory fs sd .ignore = ((fs, c), .ok ())
    ∧ (c.add_sdist from_directory fs sd .throw_exc).1.2._sdists = c._sdists
    ∧ (c.add_sdist from_directory fs sd .ignore).1.2._sdists = c._sdists := by
  have h1 : c.add_sdist from_directory fs sd .throw_exc = ((fs, c), .error .sdist_exists) := by
    simp [pkg_cache.add_sdist, hw, hex]
  have h2 : c.add_sdist from_directory fs sd .ignore = ((fs, c), .ok ()) := by
    simp [pkg_cache.add_sdist, hw, hex]
  refine ⟨h1, h2, ?_, ?_⟩
  · rw [h1]
  · rw [h2]

theorem add_sdist_existing_throw_or_ignore_witness :
    example_fs.exists (path_join example_cache._root new_foo.manifest.id.to_string) = true
    ∧ example_cache.add_sdist read_foo example_fs new_foo .throw_exc
        = ((example_fs, example_cache), .error .sdist_exists)
    ∧ example_cache.add_sdist read_foo example_fs new_foo .ignore
        = ((example_fs, example_cache), .ok ()) :=
  ⟨by decide,
   (add_sdist_existing_throw_or_ignore read_foo example_cache example_fs new_foo rfl
      (by decide)).1,
   (add_sdist_existing_throw_or_ignore read_foo example_cache example_fs new_foo rfl
      (by decide)).2.1⟩

theorem add_sdist_replace_eq (from_directory : String → dir_contents → Option sdist)
    (c : pkg_cache) (fs : filesystem) (sd : sdist) (hw : c._write_enabled = true) :
    c.add_sdist from_directory fs sd .replace
      = match run_fs_steps fs (add_sdist_steps c._root sd) with
        | (fs1, none) => ((fs1, c), .error .filesystem_error)
        | (fs1, some _) =>
          match (List.lookup (path_join c._root sd.manifest.id.to_string) fs1).bind
              (from_directory (path_join c._root sd.manifest.id.to_string)) with
          | none => ((fs1, c), .error .invalid_sdist)
          | some loaded =>
            ((fs1, { c with _sdists := sdist_set_insert c._sdists loaded }), .ok ()) := by
  simp [pkg_cache.add_sdist, hw]

/-- C21. On a cache opened for writing, when `add_sdist` with `if_exists::replace` returns,
`root/<name>@<version>` holds exactly the tree of the directory of the new sdist (it is the
only entry of that path, so nothing of an old directory is left), and `root/.tmp-import` does
not exist. This holds whether or not `root/<name>@<version>` existed before the call. -/
theorem add_sdist_replace_contents
    (from_directory : String → dir_contents → Option sdist) (c : pkg_cache) (fs : filesystem)
    (sd : sdist) (hw : c._write_enabled = true)
    (hok : (c.add_sdist from_directory fs sd .replace).2 = .ok ()) :
    ∃ tree, List.lookup sd.path fs = some tree
      ∧ List.lookup (path_join c._root sd.manifest.id.to_string)
          (c.add_sdist from_directory fs sd .replace).1.1 = some tree
      ∧ (c.add_sdist from_directory fs sd .replace).1.1.filter
          (fun e => e.1 == path_join c._root sd.manifest.id.to_string)
          = [(path_join c._root sd.manifest.id.to_string, tree)]
      ∧ filesystem.exists (c.add_sdist from_directory fs sd .replace).1.1
          (path_join c._root ".tmp-import") = false := by
  have hne := dest_ne_tmp c._root sd.manifest.id
  rw [add_sdist_replace_eq from_directory c fs sd hw, run_add_sdist_steps] at hok ⊢
  cases hsrc : List.lookup sd.path
      (fs.filter (fun e => !(e.1 == path_join c._root ".tmp-import"))) with
  | none =>
    rw [hsrc] at hok
    cases hok
  | some tree =>
    rw [hsrc] at hok
    simp only at hok ⊢
    have hsrc1 : List.lookup sd.path fs = some tree := by
      rw [lookup_filter_ne] at hsrc
      by_cases h : sd.path = path_join c._root ".tmp-import"
      · rw [if_pos h] at hsrc
        cases hsrc
      · rw [if_neg h] at hsrc
        exact hsrc
    have hfs1 : ∀ (x : (filesystem × pkg_cache) × Except add_sdist_error Unit),
        x.1.1 = (fs.filter (fun e => !(e.1 == path_join c._root ".tmp-import"))).filter
              (fun e => !(e.1 == path_join c._root sd.manifest.id.to_string))
            ++ [(path_join c._root sd.manifest.id.to_string, tree)] →
        List.lookup (path_join c._root sd.manifest.id.to_string) x.1.1 = some tree
        ∧ x.1.1.filter (fun e => e.1 == path_join c._root sd.manifest.id.to_string)
            = [(path_join c._root sd.manifest.id.to_string, tree)]
        ∧ filesystem.exists x.1.1 (path_join c._root ".tmp-import") = false := by
      intro x hx
      rw [hx]
      refine ⟨?_, ?_, ?_⟩
      · rw [List.lookup_append, lookup_filter_ne, if_pos rfl]
        simp [List.lookup_cons]
      · rw [List.filter_append, List.filter_filter]
        have : List.filter (fun a : String × dir_contents =>
            (a.1 == path_join c._root sd.manifest.id.to_string)
              && !(a.1 == path_join c._root sd.manifest.id.to_string))
            (fs.filter (fun e => !(e.1 == path_join c._root ".tmp-import"))) = [] := by
          rw [List.filter_eq_nil_iff]
          intro a _
          simp
        rw [this]
        simp [List.filter_cons]
      · have hd : (path_join c._root sd.manifest.id.to_string == path_join c._root ".tmp-import")
            = false := by
          rw [beq_eq_false_iff_ne]
          exact hne
        simp only [filesystem.exists, List.any_append, List.any_filter, List.any_cons,
          List.any_nil, hd, Bool.or_false]
        rw [List.any_eq_false]
        intro e _
        simp only [Bool.and_eq_true, Bool.not_eq_true', beq_eq_false_iff_ne, ne_eq, beq_iff_eq,
          not_and, Decidable.not_not, Bool.not_eq_true]
        intro h1 _
        exact fun h => h1 h
    refine ⟨tree, hsrc1, ?_⟩
    cases hld : (List.lookup (path_join c._root sd.manifest.id.to_string)
        ((fs.filter (fun e => !(e.1 == path_join c._root ".tmp-import"))).filter
              (fun e => !(e.1 == path_join c._root sd.manifest.id.to_string))
            ++ [(path_join c._root sd.manifest.id.to_string, tree)])).bind
        (from_directory (path_join c._root sd.manifest.id.to_string)) with
    | none =>
      rw [hld] at hok
      cases hok
    | some loaded =>
      exact hfs1 _ rfl

theorem add_sdist_replace_contents_witness :
    example_fs.exists (path_join example_cache._root new_foo.manifest.id.to_string) = true
    ∧ (example_cache.add_sdist read_foo example_fs new_foo .replace).2 = .ok ()
    ∧ ∃ tree, List.lookup new_foo.path example_fs = some tree
      ∧ List.lookup (path_join example_cache._root new_foo.manifest.id.to_string)
          (example_cache.add_sdist read_foo example_fs new_foo .replace).1.1 = some tree
      ∧ (example_cache.add_sdist read_foo example_fs new_foo .replace).1.1.filter
          (fun e => e.1 == path_join example_cache._root new_foo.manifest.id.to_string)
          = [(path_join example_cache._root new_foo.manifest.id.to_string, tree)]
      ∧ filesystem.exists (example_cache.add_sdist read_foo example_fs new_foo .replace).1.1
          (path_join example_cache._root ".tmp-import") = false :=
  ⟨by decide, rfl,
   add_sdist_replace_contents read_foo example_cache example_fs new_foo rfl rfl⟩

/-- C22. After every prefix of the filesystem calls of `add_sdist` (remove the old
`.tmp-import`, copy to `root/.tmp-import`, remove the prior destination, rename), that is
after the first `k` calls, all of which returned, `root/<name>@<version>` either does not
exist, or holds what it held before the call (the old sdist), or holds the whole tree of the
directory of the new sdist. A call that throws leaves the disk as the calls before it left
it, which is the state after a shorter prefix. -/
theorem add_sdist_between_calls (fs : filesystem) (root : String) (sd : sdist) (k : Nat)
    (fs1 : filesystem)
    (hrun : run_fs_steps fs ((add_sdist_steps root sd).take k) = (fs1, some ())) :
    List.lookup (path_join root sd.manifest.id.to_string) fs1 = none
    ∨ List.lookup (path_join root sd.manifest.id.to_string) fs1
        = List.lookup (path_join root sd.manifest.id.to_string) fs
    ∨ List.lookup (path_join root sd.manifest.id.to_string) fs1 = List.lookup sd.path fs := by
  have hne := dest_ne_tmp root sd.manifest.id
  have hne1 : (path_join root ".tmp-import" == path_join root sd.manifest.id.to_string) = false := by
    rw [beq_eq_false_iff_ne]
    exact fun h => hne h.symm
  have hne2 : (path_join root sd.manifest.id.to_string == path_join root ".tmp-import") = false := by
    rw [beq_eq_false_iff_ne]
    exact hne
  have hkeep : List.lookup (path_join root sd.manifest.id.to_string)
      (fs.filter (fun e => !(e.1 == path_join root ".tmp-import")))
      = List.lookup (path_join root sd.manifest.id.to_string) fs := by
    rw [lookup_filter_ne, if_neg hne]
  rcases k with _ | _ | _ | _ | _ | k
  · simp only [List.take_zero, run_fs_steps, Prod.mk.injEq, and_true] at hrun
    subst hrun
    exact Or.inr (Or.inl rfl)
  · simp only [add_sdist_steps, List.take_succ_cons, List.take_zero, run_fs_steps, fs_step.run,
      Prod.mk.injEq, and_true] at hrun
    subst hrun
    exact Or.inr (Or.inl hkeep)
  · simp only [add_sdist_steps, List.take_succ_cons, List.take_zero, run_fs_steps, fs_step.run,
      Prod.mk.injEq, and_true] at hrun
    subst hrun
    exact Or.inr (Or.inl hkeep)
  · simp only [add_sdist_steps, List.take_succ_cons, List.take_zero, run_fs_steps,
      fs_step.run] at hrun
    cases hsrc : List.lookup sd.path
        (fs.filter (fun e => !(e.1 == path_join root ".tmp-import"))) with
    | none =>
      rw [hsrc] at hrun
      simp at hrun
    | some tree =>
      rw [hsrc] at hrun
      simp only [exists_filter_self, Bool.false_eq_true, if_false, run_fs_steps, Prod.mk.injEq,
        and_true] at hrun
      subst hrun
      refine Or.inr (Or.inl ?_)
      rw [List.lookup_append, hkeep]
      simp [List.lookup_cons, hne2]
  · simp only [add_sdist_steps, List.take_succ_cons, List.take_zero, run_fs_steps,
      fs_step.run] at hrun
    cases hsrc : List.lookup sd.path
        (fs.filter (fun e => !(e.1 == path_join root ".tmp-import"))) with
    | none =>
      rw [hsrc] at hrun
      simp at hrun
    | some tree =>
      rw [hsrc] at hrun
      simp only [exists_filter_self, Bool.false_eq_true, if_false, run_fs_steps, Prod.mk.injEq,
        and_true] at hrun
      subst hrun
      refine Or.inl ?_
      rw [lookup_filter_ne, if_pos rfl]
  · have htake : (add_sdist_steps root sd).take (k + 1 + 1 + 1 + 1 + 1) = add_sdist_steps root sd := by
      simp [add_sdist_steps]
    rw [htake, run_add_sdist_steps] at hrun
    cases hsrc : List.lookup sd.path
        (fs.filter (fun e => !(e.1 == path_join root ".tmp-import"))) with
    | none =>
      rw [hsrc] at hrun
      simp at hrun
    | some tree =>
      rw [hsrc] at hrun
      simp only [Prod.mk.injEq, and_true] at hrun
      subst hrun
      refine Or.inr (Or.inr ?_)
      have hsrc1 : List.lookup sd.path fs = some tree := by
        rw [lookup_filter_ne] at hsrc
        by_cases h : sd.path = path_join root ".tmp-import"
        · rw [if_pos h] at hsrc
          cases hsrc
        · rw [if_neg h] at hsrc
          exact hsrc
      rw [List.lookup_append, lookup_filter_ne, if_pos rfl, hsrc1]
      simp [List.lookup_cons]

theorem add_sdist_between_calls_witness :
    run_fs_steps example_fs ((add_sdist_steps example_cache._root new_foo).take 4)
      = ([("/src/foo", [("package.json5", "new"), ("src/foo.cpp", "new")]),
          ("/cache/.tmp-import", [("package.json5", "new"), ("src/foo.cpp", "new")])], some ())
    ∧ run_fs_steps example_fs ((add_sdist_steps example_cache._root new_foo).take 5)
      = ([("/src/foo", [("package.json5", "new"), ("src/foo.cpp", "new")]),
          ("/cache/foo@1.2.3", [("package.json5", "new"), ("src/foo.cpp", "new")])], some ())
    ∧ (List.lookup (path_join example_cache._root new_foo.manifest.id.to_string)
          [("/src/foo", [("package.json5", "new"), ("src/foo.cpp", "new")]),
           ("/cache/foo@1.2.3", [("package.json5", "new"), ("src/foo.cpp", "new")])] = none
        ∨ List.lookup (path_join example_cache._root new_foo.manifest.id.to_string)
            [("/src/foo", [("package.json5", "new"), ("src/foo.cpp", "new")]),
             ("/cache/foo@1.2.3", [("package.json5", "new"), ("src/foo.cpp", "new")])]
          = List.lookup (path_join example_cache._root new_foo.manifest.id.to_string) example_fs
        ∨ List.lookup (path_join example_cache._root new_foo.manifest.id.to_string)
            [("/src/foo", [("package.json5", "new"), ("src/foo.cpp", "new")]),
             ("/cache/foo@1.2.3", [("package.json5", "new"), ("src/foo.cpp", "new")])]
          = List.lookup new_foo.path example_fs) :=
  ⟨rfl, rfl,
   add_sdist_between_calls example_fs example_cache._root new_foo 5 _ rfl⟩

/-- Inside one filesystem call, which is finer than the steps between which `add_sdist` can
be cut: replacing `foo@1.2.3` in `example_cache` takes the filesystem calls of
`add_sdist_steps`, and while `remove_all` unlinks the files of the old destination the disk
passes through `half_removed_fs`, in which `/cache/foo@1.2.3` holds only `src/foo.cpp` of the
old sdist. The removal of the prior destination is the step the spec prescribes before the
rename; this is the state within that step. -/
theorem add_sdist_interrupted_leaves_partial_sdist :
    example_fs.exists (path_join example_cache._root new_foo.manifest.id.to_string) = true
    ∧ example_cache.add_sdist read_foo example_fs new_foo .replace
        = (((run_fs_steps example_fs (add_sdist_steps example_cache._root new_foo)).1,
            example_cache), .ok ())
    ∧ half_removed_fs ∈ interrupted_states example_fs (add_sdist_steps example_cache._root new_foo)
    ∧ List.lookup (path_join example_cache._root new_foo.manifest.id.to_string) half_removed_fs
        = some [("src/foo.cpp", "old")]
    ∧ List.lookup (path_join example_cache._root new_foo.manifest.id.to_string) half_removed_fs
        ≠ List.lookup (path_join example_cache._root new_foo.manifest.id.to_string) example_fs
    ∧ List.lookup (path_join example_cache._root new_foo.manifest.id.to_string) half_removed_fs
        ≠ List.lookup new_foo.path example_fs
    ∧ read_foo (path_join example_cache._root new_foo.manifest.id.to_string)
        [("src/foo.cpp", "old")] = none := by
  refine ⟨by decide, rfl, by decide, by decide, by decide, by decide, by decide⟩

/-! ### Levenshtein distance -/

theorem levenshtein_distance_nil_left (b : List Char) : levenshtein_distance [] b = b.length := by
  rw [levenshtein_distance]

theorem levenshtein_distance_nil_right (a : List Char) : levenshtein_distance a [] = a.length := by
  cases a with
  | nil => rw [levenshtein_distance]
  | cons x a => rw [levenshtein_distance]

theorem levenshtein_distance_cons_cons (x : Char) (a : List Char) (y : Char) (b : List Char) :
    levenshtein_distance (x :: a) (y :: b)
      = min (min (levenshtein_distance a (y :: b) + 1) (levenshtein_distance (x :: a) b + 1))
          (levenshtein_distance a b + substitution_cost x y) := by
  rw [levenshtein_distance]

/-- The recursion of the definition, read at the ends of the two strings instead of at
their heads. -/
theorem levenshtein_distance_snoc (a b : List Char) (x y : Char) :
    levenshtein_distance (a ++ [x]) (b ++ [y])
      = min (min (levenshtein_distance a (b ++ [y]) + 1) (levenshtein_distance (a ++ [x]) b + 1))
          (levenshtein_distance a b + substitution_cost x y) := by
  induction a generalizing b with
  | nil =>
    induction b with
    | nil =>
      simp only [List.nil_append, levenshtein_distance_cons_cons, levenshtein_distance_nil_left,
        levenshtein_distance_nil_right, List.length_cons, List.length_nil]
    | cons b0 b ih =>
      simp only [List.nil_append] at ih
      simp only [List.nil_append, List.cons_append, levenshtein_distance_cons_cons,
        levenshtein_distance_nil_left, levenshtein_distance_nil_right, List.length_cons,
        List.length_nil, List.length_append, ih]
      omega
  | cons a0 a iha =>
    induction b with
    | nil =>
      have h1 := iha []
      simp only [List.nil_append] at h1
      simp only [List.nil_append, List.cons_append, levenshtein_distance_cons_cons,
        levenshtein_distance_nil_left, levenshtein_distance_nil_right, List.length_cons,
        List.length_nil, List.length_append, h1]
      omega
    | cons b0 b ihb =>
      have h1 := iha (b0 :: b)
      have h2 := iha b
      simp only [List.cons_append] at h1 h2 ihb
      simp only [List.cons_append, levenshtein_distance_cons_cons, h1, h2, ihb]
      simp only [← Nat.add_min_add_right, min_assoc]
      ac_rfl

theorem map_length_inits (a : List Char) : a.inits.map List.length = List.range (a.length + 1) := by
  induction a with
  | nil => rfl
  | cons x a ih =>
    rw [List.inits_cons, List.map_cons, List.map_map, List.length_cons,
      List.range_succ_eq_map (a.length + 1), ← ih, List.map_map]
    rfl

theorem inits_eq_nil_cons (a : List Char) : a.inits = [] :: a.inits.tail := by
  cases a <;> simp [List.inits]

/-- The cells of a row of the matrix are the distances of the prefixes of `a` to the prefix of
`b` the row stands for. -/
theorem lev_row_cells_eq (bc : Char) (b1 : List Char) (a2 a1 : List Char) :
    lev_row_cells bc a2 (a2.inits.map (fun p => levenshtein_distance (a1 ++ p) b1))
        (levenshtein_distance a1 (b1 ++ [bc]))
      = a2.inits.tail.map (fun p => levenshtein_distance (a1 ++ p) (b1 ++ [bc])) := by
  induction a2 generalizing a1 with
  | nil => simp [List.inits, lev_row_cells]
  | cons ac a2 ih =>
    have hin := inits_eq_nil_cons a2
    have ih1 := ih (a1 ++ [ac])
    rw [hin] at ih1
    simp only [List.map_cons, List.append_nil, List.append_assoc, List.singleton_append,
      List.tail_cons] at ih1
    rw [List.inits_cons, hin]
    simp only [List.map_cons, List.append_nil, List.tail_cons, List.map_map, lev_row_cells]
    have hcell : min (min (levenshtein_distance (a1 ++ [ac]) b1 + 1)
          (levenshtein_distance a1 (b1 ++ [bc]) + 1))
        (levenshtein_distance a1 b1 + if ac = bc then 0 else 1)
        = levenshtein_distance (a1 ++ [ac]) (b1 ++ [bc]) := by
      rw [levenshtein_distance_snoc, substitution_cost]
      ac_rfl
    rw [hcell]
    congr 1

theorem lev_row_eq (a b1 : List Char) (bc : Char) :
    lev_row a (a.inits.map (fun p => levenshtein_distance p b1)) bc (b1.length + 1)
      = a.inits.map (fun p => levenshtein_distance p (b1 ++ [bc])) := by
  have h := lev_row_cells_eq bc b1 a []
  simp only [List.nil_append, levenshtein_distance_nil_left, List.length_append,
    List.length_singleton] at h
  rw [lev_row, h]
  conv_rhs => rw [inits_eq_nil_cons a]
  simp [levenshtein_distance_nil_left]

theorem lev_rows_eq (a b : List Char) :
    b.foldl (fun (st : List Nat × Nat) bc => (lev_row a st.1 bc (st.2 + 1), st.2 + 1))
        (List.range (a.length + 1), 0)
      = (a.inits.map (fun p => levenshtein_distance p b), b.length) := by
  induction b using List.reverseRecOn with
  | nil =>
    simp only [List.foldl_nil, List.length_nil, levenshtein_distance_nil_right]
    rw [← map_length_inits]
  | append_singleton b1 bc ih =>
    rw [List.foldl_append, ih]
    simp only [List.foldl_cons, List.foldl_nil, List.length_append, List.length_singleton]
    rw [lev_row_eq]

/-- The matrix computation gives the recursively defined distance. -/
theorem lev_edit_distance_chars_eq (a b : List Char) :
    lev_edit_distance_chars a b = levenshtein_distance a b := by
  simp only [lev_edit_distance_chars]
  rw [lev_rows_eq]
  simp only
  rw [List.getLast?_map]
  have hl : a.inits.getLast? = some a := by
    induction a with
    | nil => rfl
    | cons x a ih =>
      rw [List.inits_cons, inits_eq_nil_cons a, List.map_cons, List.getLast?_cons_cons,
        ← List.map_cons, ← inits_eq_nil_cons a, List.getLast?_map, ih]
      rfl
  rw [hl]
  rfl

theorem levenshtein_distance_eq_mathlib (a b : List Char) :
    levenshtein_distance a b = levenshtein Levenshtein.defaultCost a b := by
  induction a generalizing b with
  | nil =>
    rw [levenshtein_distance_nil_left]
    induction b with
    | nil => simp
    | cons y b ih =>
      rw [levenshtein_nil_cons, ← ih]
      simp [Levenshtein.defaultCost, Nat.add_comm]
  | cons x a iha =>
    induction b with
    | nil =>
      rw [levenshtein_distance_nil_right, levenshtein_cons_nil, ← iha [],
        levenshtein_distance_nil_right]
      simp [Levenshtein.defaultCost, Nat.add_comm]
    | cons y b ihb =>
      rw [levenshtein_distance_cons_cons, levenshtein_cons_cons, ← iha (y :: b), ← iha b, ← ihb]
      simp only [Levenshtein.defaultCost, substitution_cost]
      rw [min_assoc]
      congr 1
      · exact Nat.add_comm _ _
      · congr 1
        · exact Nat.add_comm _ _
        · exact Nat.add_comm _ _

theorem levenshtein_distance_self (a : List Char) : levenshtein_distance a a = 0 := by
  induction a with
  | nil => rw [levenshtein_distance_nil_left]; rfl
  | cons x a ih =>
    rw [levenshtein_distance_cons_cons, ih]
    simp [substitution_cost]

theorem levenshtein_distance_delete_le (x : Char) (a b : List Char) :
    levenshtein_distance (x :: a) b ≤ levenshtein_distance a b + 1 := by
  cases b with
  | nil => simp [levenshtein_distance_nil_right]
  | cons y b =>
    rw [levenshtein_distance_cons_cons]
    exact le_trans (min_le_left _ _) (min_le_left _ _)

theorem levenshtein_distance_insert_le (y : Char) (a b : List Char) :
    levenshtein_distance a (y :: b) ≤ levenshtein_distance a b + 1 := by
  cases a with
  | nil => simp [levenshtein_distance_nil_left]
  | cons x a =>
    rw [levenshtein_distance_cons_cons]
    exact le_trans (min_le_left _ _) (min_le_right _ _)

theorem levenshtein_distance_substitute_le (x y : Char) (a b : List Char) :
    levenshtein_distance (x :: a) (y :: b) ≤ levenshtein_distance a b + substitution_cost x y := by
  rw [levenshtein_distance_cons_cons]
  exact min_le_right _ _

theorem substitution_cost_le_one (x y : Char) : substitution_cost x y ≤ 1 := by
  unfold substitution_cost
  split <;> omega

/-- No edit script that turns `a` into `b` has fewer edits than the distance. -/
theorem levenshtein_distance_le_edit_cost (ops : List edit_op) (a b : List Char)
    (h : apply_edits ops a = some b) : levenshtein_distance a b ≤ edit_cost ops := by
  induction ops generalizing a b with
  | nil =>
    simp only [apply_edits, Option.some.injEq] at h
    subst h
    rw [levenshtein_distance_self]
    exact Nat.zero_le _
  | cons op ops ih =>
    cases op with
    | keep =>
      cases a with
      | nil => simp [apply_edits] at h
      | cons x a =>
        simp only [apply_edits, Option.map_eq_some'] at h
        obtain ⟨r, hr, hb⟩ := h
        subst hb
        have h1 := ih a r hr
        have h2 := levenshtein_distance_substitute_le x x a r
        simp only [substitution_cost, if_true, Nat.add_zero] at h2
        simp only [edit_cost]
        omega
    | delete =>
      cases a with
      | nil => simp [apply_edits] at h
      | cons x a =>
        simp only [apply_edits] at h
        have h1 := ih a b h
        have h2 := levenshtein_distance_delete_le x a b
        simp only [edit_cost]
        omega
    | insert c =>
      simp only [apply_edits, Option.map_eq_some'] at h
      obtain ⟨r, hr, hb⟩ := h
      subst hb
      have h1 := ih a r hr
      have h2 := levenshtein_distance_insert_le c a r
      simp only [edit_cost]
      omega
    | substitute c =>
      cases a with
      | nil => simp [apply_edits] at h
      | cons x a =>
        simp only [apply_edits, Option.map_eq_some'] at h
        obtain ⟨r, hr, hb⟩ := h
        subst hb
        have h1 := ih a r hr
        have h2 := levenshtein_distance_substitute_le x c a r
        have h3 := substitution_cost_le_one x c
        simp only [edit_cost]
        omega

theorem apply_edits_inserts (b : List Char) :
    apply_edits (b.map edit_op.insert) [] = some b ∧ edit_cost (b.map edit_op.insert) = b.length := by
  induction b with
  | nil => exact ⟨rfl, rfl⟩
  | cons y b ih => simp [apply_edits, edit_cost, ih.1, ih.2]

theorem apply_edits_deletes (a : List Char) :
    apply_edits (a.map (fun _ => edit_op.delete)) a = some []
      ∧ edit_cost (a.map (fun _ => edit_op.delete)) = a.length := by
  induction a with
  | nil => exact ⟨rfl, rfl⟩
  | cons x a ih =>
    simp only [List.map_cons, apply_edits, edit_cost, ih.1, ih.2, List.length_cons, and_self]

/-- Some edit script turns `a` into `b` with as many edits as the distance. -/
theorem exists_edits_of_levenshtein_distance (a b : List Char) :
    ∃ ops, apply_edits ops a = some b ∧ edit_cost ops = levenshtein_distance a b := by
  induction a generalizing b with
  | nil =>
    refine ⟨b.map edit_op.insert, (apply_edits_inserts b).1, ?_⟩
    rw [(apply_edits_inserts b).2, levenshtein_distance_nil_left]
  | cons x a iha =>
    induction b with
    | nil =>
      refine ⟨(x :: a).map (fun _ => edit_op.delete), (apply_edits_deletes (x :: a)).1, ?_⟩
      rw [(apply_edits_deletes (x :: a)).2, levenshtein_distance_nil_right]
    | cons y b ihb =>
      obtain ⟨o1, ho1, hc1⟩ := iha (y :: b)
      obtain ⟨o2, ho2, hc2⟩ := ihb
      obtain ⟨o3, ho3, hc3⟩ := iha b
      rw [levenshtein_distance_cons_cons]
      by_cases h1 : levenshtein_distance a (y :: b) + 1 ≤ levenshtein_distance (x :: a) b + 1
          ∧ levenshtein_distance a (y :: b) + 1 ≤ levenshtein_distance a b + substitution_cost x y
      · refine ⟨.delete :: o1, ?_, ?_⟩
        · simp [apply_edits, ho1]
        · simp only [edit_cost, hc1]
          omega
      · by_cases h2 : levenshtein_distance (x :: a) b + 1
            ≤ levenshtein_distance a b + substitution_cost x y
        · refine ⟨.insert y :: o2, ?_, ?_⟩
          · simp [apply_edits, ho2]
          · simp only [edit_cost, hc2]
            omega
        · by_cases hxy : x = y
          · subst hxy
            refine ⟨.keep :: o3, ?_, ?_⟩
            · simp [apply_edits, ho3]
            · simp only [edit_cost, hc3, substitution_cost, if_true] at h1 h2 ⊢
              omega
          · refine ⟨.substitute y :: o3, ?_, ?_⟩
            · simp [apply_edits, ho3]
            · simp only [edit_cost, hc3, substitution_cost, if_neg hxy] at h1 h2 ⊢
              omega

theorem levenshtein_distance_eq_zero_iff (a b : List Char) :
    levenshtein_distance a b = 0 ↔ a = b := by
  constructor
  · intro h
    induction a generalizing b with
    | nil =>
      rw [levenshtein_distance_nil_left] at h
      exact (List.length_eq_zero.mp h).symm
    | cons x a ih =>
      cases b with
      | nil =>
        rw [levenshtein_distance_nil_right] at h
        simp at h
      | cons y b =>
        rw [levenshtein_distance_cons_cons] at h
        have h3 : levenshtein_distance a b + substitution_cost x y = 0 := by omega
        have h4 : levenshtein_distance a b = 0 := by omega
        have h5 : substitution_cost x y = 0 := by omega
        have hxy : x = y := by
          by_contra hne
          simp [substitution_cost, hne] at h5
        rw [hxy, ih b h4]
  · intro h
    subst h
    exact levenshtein_distance_self a

/-- C23. The matrix computation of `lev_edit_distance` gives the unweighted Levenshtein
distance of its arguments: the value of the standard recursive definition (the one of this
file and the one of Mathlib), which is the least number of single-character insertions,
deletions and substitutions of an edit script that turns `a` into `b`. -/
theorem lev_edit_distance_is_levenshtein (a b : String) :
    lev_edit_distance a b = levenshtein_distance a.toList b.toList
    ∧ lev_edit_distance a b = levenshtein Levenshtein.defaultCost a.toList b.toList
    ∧ (∃ ops, apply_edits ops a.toList = some b.toList ∧ edit_cost ops = lev_edit_distance a b)
    ∧ (∀ ops, apply_edits ops a.toList = some b.toList → lev_edit_distance a b ≤ edit_cost ops) := by
  have h : lev_edit_distance a b = levenshtein_distance a.toList b.toList :=
    lev_edit_distance_chars_eq a.toList b.toList
  refine ⟨h, ?_, ?_, ?_⟩
  · rw [h, levenshtein_distance_eq_mathlib]
  · rw [h]
    exact exists_edits_of_levenshtein_distance a.toList b.toList
  · intro ops hops
    rw [h]
    exact levenshtein_distance_le_edit_cost ops a.toList b.toList hops

theorem lev_edit_distance_is_levenshtein_witness :
    lev_edit_distance "kitten" "sitting" = 3
    ∧ apply_edits [.substitute 's', .keep, .keep, .keep, .substitute 'i', .keep, .insert 'g']
        "kitten".toList = some "sitting".toList
    ∧ 3 ≤ edit_cost [.substitute 's', .keep, .keep, .keep, .substitute 'i', .keep, .insert 'g'] :=
  have h : lev_edit_distance "kitten" "sitting" = 3 := by decide
  ⟨h, by decide,
   h ▸ (lev_edit_distance_is_levenshtein "kitten" "sitting").2.2.2 _ (by decide)⟩

theorem lev_edit_distance_eq_zero_iff (a b : String) : lev_edit_distance a b = 0 ↔ a = b := by
  have h : lev_edit_distance a b = levenshtein_distance a.toList b.toList :=
    lev_edit_distance_chars_eq a.toList b.toList
  rw [h, levenshtein_distance_eq_zero_iff]
  constructor
  · intro h1
    exact String.ext h1
  · intro h1
    rw [h1]

/-- The fold of `did_you_mean` from a first candidate: the result is that candidate or a later
one, and no candidate is nearer to the key. -/
theorem did_you_mean_fold (given : String) (cands : List String) (b0 : String) :
    ∃ r, cands.foldl
        (fun best c =>
          match best with
          | none => some c
          | some b =>
            if lev_edit_distance c given < lev_edit_distance b given then some c else some b)
        (some b0) = some r
      ∧ (r = b0 ∨ r ∈ cands)
      ∧ lev_edit_distance r given ≤ lev_edit_distance b0 given
      ∧ ∀ c ∈ cands, lev_edit_distance r given ≤ lev_edit_distance c given := by
  induction cands generalizing b0 with
  | nil => exact ⟨b0, rfl, Or.inl rfl, le_refl _, fun c hc => by cases hc⟩
  | cons c0 cands ih =>
    simp only [List.foldl_cons]
    by_cases hlt : lev_edit_distance c0 given < lev_edit_distance b0 given
    · rw [if_pos hlt]
      obtain ⟨r, hr, hmem, hle, hall⟩ := ih c0
      refine ⟨r, hr, ?_, by omega, ?_⟩
      · rcases hmem with h | h
        · exact Or.inr (by rw [h]; exact List.mem_cons_self _ _)
        · exact Or.inr (List.mem_cons_of_mem _ h)
      · intro c hc
        rcases List.mem_cons.mp hc with h | h
        · rw [h]
          exact hle
        · exact hall c h
    · rw [if_neg hlt]
      obtain ⟨r, hr, hmem, hle, hall⟩ := ih b0
      refine ⟨r, hr, ?_, hle, ?_⟩
      · rcases hmem with h | h
        · exact Or.inl h
        · exact Or.inr (List.mem_cons_of_mem _ h)
      · intro c hc
        rcases List.mem_cons.mp hc with h | h
        · rw [h]
          omega
        · exact hall c h

theorem did_you_mean_nearest (given : String) (cands : List String) (hne : cands ≠ []) :
    ∃ r, did_you_mean given cands = some r ∧ r ∈ cands
      ∧ ∀ c ∈ cands, lev_edit_distance r given ≤ lev_edit_distance c given := by
  cases cands with
  | nil => exact absurd rfl hne
  | cons c0 cands =>
    obtain ⟨r, hr, hmem, hle, hall⟩ := did_you_mean_fold given cands c0
    refine ⟨r, ?_, ?_, ?_⟩
    · simp only [did_you_mean, List.foldl_cons]
      exact hr
    · rcases hmem with h | h
      · rw [h]
        exact List.mem_cons_self _ _
      · exact List.mem_cons_of_mem _ h
    · intro c hc
      rcases List.mem_cons.mp hc with h | h
      · rw [h]
        exact hle
      · exact hall c h

/-- C24. The distance `lev_edit_distance a b` is zero exactly when `a = b`; so in a candidate
set that contains the key `a` itself, every other candidate is at a positive distance, the
key is the only candidate at the smallest distance, and the nearest-candidate suggestion
`did_you_mean` returns it. -/
theorem lev_edit_distance_zero_iff_exact_match (a b : String) :
    (lev_edit_distance a b = 0 ↔ a = b)
    ∧ ∀ candidates : List String, a ∈ candidates →
        (∀ c ∈ candidates, c ≠ a → 0 < lev_edit_distance c a)
        ∧ (∀ c ∈ candidates,
            (∀ c1 ∈ candidates, lev_edit_distance c a ≤ lev_edit_distance c1 a) → c = a)
        ∧ did_you_mean a candidates = some a := by
  refine ⟨lev_edit_distance_eq_zero_iff a b, ?_⟩
  intro candidates hmem
  have hself : lev_edit_distance a a = 0 := (lev_edit_distance_eq_zero_iff a a).mpr rfl
  refine ⟨?_, ?_, ?_⟩
  · intro c _ hne
    rcases Nat.eq_zero_or_pos (lev_edit_distance c a) with h | h
    · exact absurd ((lev_edit_distance_eq_zero_iff c a).mp h) hne
    · exact h
  · intro c _ hmin
    have h1 := hmin a hmem
    rw [hself] at h1
    exact (lev_edit_distance_eq_zero_iff c a).mp (Nat.le_zero.mp h1)
  · obtain ⟨r, hr, _, hall⟩ := did_you_mean_nearest a candidates (List.ne_nil_of_mem hmem)
    have h1 := hall a hmem
    rw [hself] at h1
    rw [hr, (lev_edit_distance_eq_zero_iff r a).mp (Nat.le_zero.mp h1)]

theorem lev_edit_distance_zero_iff_exact_match_witness :
    "bar" ∈ ["baz", "bar", "bat"]
    ∧ did_you_mean "bar" ["baz", "bar", "bat"] = some "bar"
    ∧ 0 < lev_edit_distance "baz" "bar" :=
  ⟨by decide,
   ((lev_edit_distance_zero_iff_exact_match "bar" "bar").2 ["baz", "bar", "bat"]
      (by decide)).2.2,
   ((lev_edit_distance_zero_iff_exact_match "bar" "bar").2 ["baz", "bar", "bat"]
      (by decide)).1 "baz" (by decide) (by decide)⟩

/-! ### The CLI error handler -/

/-- C25. The exit codes of `handle_cli_errors`: the return value of the wrapped function when
it throws nothing (0 for a successful command); 1 for an exception derived from `error_base`
and for a URL validation error that carries its URL string; 2 for `user_cancelled`; 42 for
every other error, an unhandled `std::system_error` among them. -/
theorem handle_cli_errors_exit_codes :
    (∀ rc, handle_cli_errors (.returned rc) = some rc)
    ∧ handle_cli_errors (.returned 0) = some 0
    ∧ (∀ e, e.exception = .error_base → handle_cli_errors (.threw e) = some 1)
    ∧ (∀ e, e.exception = .url_validation_error → e.e_url_string.isSome = true →
        handle_cli_errors (.threw e) = some 1)
    ∧ (∀ e, e.exception = .user_cancelled → handle_cli_errors (.threw e) = some 2)
    ∧ (∀ e, e.exception ≠ .error_base →
        ¬(e.exception = .url_validation_error ∧ e.e_url_string.isSome = true) →
        e.exception ≠ .user_cancelled → handle_cli_errors (.threw e) = some 42)
    ∧ (∀ e, e.exception = .system_error → handle_cli_errors (.threw e) = some 42) := by
  refine ⟨fun rc => rfl, rfl, ?_, ?_, ?_, ?_, ?_⟩
  · intro e h
    obtain ⟨ex, u, p, f, s⟩ := e
    simp only at h
    subst h
    cases u <;> cases p <;> cases s <;> rfl
  · intro e h hu
    obtain ⟨ex, u, p, f, s⟩ := e
    simp only at h hu
    subst h
    cases u with
    | none => cases hu
    | some v => cases p <;> cases s <;> rfl
  · intro e h
    obtain ⟨ex, u, p, f, s⟩ := e
    simp only at h
    subst h
    cases u <;> cases p <;> cases s <;> rfl
  · intro e h1 h2 h3
    obtain ⟨ex, u, p, f, s⟩ := e
    simp only at h1 h2 h3
    cases ex
    · exact absurd rfl h1
    · cases u with
      | some v => exact absurd ⟨rfl, rfl⟩ h2
      | none => cases p <;> cases s <;> rfl
    · exact absurd rfl h3
    · cases u <;> cases p <;> cases s <;> rfl
    · cases u <;> cases p <;> cases s <;> rfl
  · intro e h
    obtain ⟨ex, u, p, f, s⟩ := e
    simp only at h
    subst h
    cases u <;> cases p <;> cases s <;> rfl

theorem handle_cli_errors_exit_codes_witness :
    handle_cli_errors (.threw ⟨.error_base, none, some "bad", none, none⟩) = some 1
    ∧ handle_cli_errors (.threw ⟨.url_validation_error, some "htp:/x", none, none, none⟩) = some 1
    ∧ handle_cli_errors (.threw ⟨.user_cancelled, none, none, none, some "EINTR"⟩) = some 2
    ∧ handle_cli_errors (.threw ⟨.url_validation_error, none, none, none, none⟩) = some 42
    ∧ handle_cli_errors (.threw ⟨.system_error, none, none, none, some "ENOENT"⟩) = some 42 :=
  ⟨handle_cli_errors_exit_codes.2.2.1 _ rfl,
   handle_cli_errors_exit_codes.2.2.2.1 _ rfl rfl,
   handle_cli_errors_exit_codes.2.2.2.2.1 _ rfl,
   handle_cli_errors_exit_codes.2.2.2.2.2.1 _ (by decide) (by decide) (by decide),
   handle_cli_errors_exit_codes.2.2.2.2.2.2 _ rfl⟩

/-! ### Re-storing, updates that meet other packages, and the candidates of the solver -/

/-- C26. Re-storing a listing does not replace its dependency list: `foo_with_deps` and
`foo_with_bar_2` have the same `pkg_id`, and after `store(foo_with_deps)` then
`store(foo_with_bar_2)` on a new database `dependencies_of` returns three dependencies, not
the one of `foo_with_bar_2`: the dependencies `bar` and `baz` of the first listing are left
over and `bar` is listed twice. -/
theorem store_again_keeps_old_dependencies :
    foo_with_deps.ident = foo_with_bar_2.ident
    ∧ pkg_db.store_all pkg_db.fresh [foo_with_deps, foo_with_bar_2] = .ok foo_restored_db
    ∧ foo_restored_db.dependencies_of foo_with_bar_2.ident
        = [{ name := "bar", versions := [("1.2.3", "1.4.0")] },
           { name := "bar", versions := [("2.0.0", "3.0.0")] },
           { name := "baz", versions := [("5.3.0", "6.0.0")] }]
    ∧ foo_restored_db.dependencies_of foo_with_bar_2.ident ≠ foo_with_bar_2.deps
    ∧ ¬ (foo_restored_db.dependencies_of foo_with_bar_2.ident).Perm foo_with_bar_2.deps
    ∧ ¬ ((foo_restored_db.dependencies_of foo_with_bar_2.ident).map (fun d => d.name)).Nodup := by
  have hrows : foo_restored_db.dds_pkg_deps.filter
      (fun d => (select_pkg_ids foo_restored_db foo_with_bar_2.ident).contains d.pkg_id)
      = [⟨1, 1, "baz", "5.3.0", "6.0.0"⟩, ⟨2, 1, "bar", "1.2.3", "1.4.0"⟩,
         ⟨3, 2, "bar", "2.0.0", "3.0.0"⟩] := by decide
  have hle : ¬ ("baz" ≤ "bar") := by
    rw [String.le_iff_toList_le]
    decide
  have h : foo_restored_db.dependencies_of foo_with_bar_2.ident
      = [{ name := "bar", versions := [("1.2.3", "1.4.0")] },
         { name := "bar", versions := [("2.0.0", "3.0.0")] },
         { name := "baz", versions := [("5.3.0", "6.0.0")] }] := by
    simp only [pkg_db.dependencies_of, hrows, order_by_dep_name, List.insertionSort,
      List.orderedInsert, le_refl, if_true, hle, if_false, List.map_cons, List.map_nil]
  refine ⟨rfl, rfl, h, ?_, ?_, ?_⟩
  · rw [h]
    decide
  · rw [h]
    intro hp
    have := hp.length_eq
    revert this
    decide
  · rw [h]
    decide

theorem unique_loop_length {α : Type} (pred : α → α → Bool) (v : List α) (first : Nat)
    (is : List Nat) : (unique_loop pred v first is).1.length = v.length := by
  induction is generalizing v first with
  | nil => rfl
  | cons i is ih =>
    simp only [unique_loop]
    split
    · split
      · rw [ih, List.length_set]
      · rw [ih]
    · rfl

theorem ranges_unique_length {α : Type} (pred : α → α → Bool) (v : List α) :
    (ranges_unique pred v).1.length = v.length := by
  simp only [ranges_unique]
  split
  · exact unique_loop_length pred v _ _
  · rfl

/-- The candidate list of `solve` has one entry for each cached sdist of the name and one for
each row of the name in the package database: no entry is dropped. -/
theorem solve_candidates_length (version_lt : String → String → Bool) (c : pkg_cache)
    (ctlg : pkg_db) (name : String) :
    (c.solve_candidates version_lt ctlg name).length
      = (c._sdists.filter (fun sd => sd.manifest.id.name == name)).length
        + (ctlg.by_name name).length := by
  simp only [pkg_cache.solve_candidates, ranges_unique_length, ranges_sort,
    List.length_insertionSort, List.length_append, List.length_map]

/-- C28. The candidate list of `solve` is not strictly ascending when a package is both in
the cache and in the package database: `example_cache` holds `foo@1.2.3` and so does
`remote_example_db`, and the candidates for `foo` are `foo@1.2.3` twice, whatever the order
of versions is (as long as no version is less than itself). -/
theorem solve_candidates_keeps_duplicates (version_lt : String → String → Bool)
    (hirr : ∀ v, version_lt v v = false) :
    example_cache.solve_candidates version_lt remote_example_db "foo"
      = [⟨"foo", "1.2.3"⟩, ⟨"foo", "1.2.3"⟩]
    ∧ ¬ (example_cache.solve_candidates version_lt remote_example_db "foo").Nodup
    ∧ ¬ (example_cache.solve_candidates version_lt remote_example_db "foo").Chain'
        (fun a b => pkg_id.lt version_lt a b = true) := by
  have hmine : (example_cache._sdists.filter (fun sd => sd.manifest.id.name == "foo")).map
      (fun sd => sd.manifest.id) = [⟨"foo", "1.2.3"⟩] := by decide
  have havail : remote_example_db.by_name "foo" = [⟨"foo", "1.2.3"⟩] := by decide
  have hlt : pkg_id.lt version_lt ⟨"foo", "1.2.3"⟩ ⟨"foo", "1.2.3"⟩ = false := by
    simp [pkg_id.lt, hirr]
  have h : example_cache.solve_candidates version_lt remote_example_db "foo"
      = [⟨"foo", "1.2.3"⟩, ⟨"foo", "1.2.3"⟩] := by
    simp only [pkg_cache.solve_candidates, hmine, havail, ranges_sort, List.cons_append,
      List.nil_append, List.insertionSort, List.orderedInsert, hlt, if_true, ranges_unique,
      adjacent_find]
    simp
  refine ⟨h, ?_, ?_⟩
  · rw [h]
    decide
  · rw [h]
    simp [hlt]

theorem solve_candidates_keeps_duplicates_witness :
    example_cache.solve_candidates (fun a b => decide (a < b)) remote_example_db "foo"
      = [⟨"foo", "1.2.3"⟩, ⟨"foo", "1.2.3"⟩] :=
  (solve_candidates_keeps_duplicates (fun a b => decide (a < b))
    (fun v => decide_eq_false (lt_irrefl v))).1

/-! ### String utilities -/

theorem find_from_some (key s : List Char) (i p : Nat) (h : find_from key s i = some p) :
    ∃ j, p = i + j ∧ j ≤ s.length ∧ key <+: s.drop j ∧ ∀ k, k < j → ¬ key <+: s.drop k := by
  induction s generalizing i with
  | nil =>
    simp only [find_from] at h
    split at h
    · rename_i hp
      simp only [Option.some.injEq] at h
      exact ⟨0, by omega, le_refl _, List.isPrefixOf_iff_prefix.mp hp, fun k hk => by omega⟩
    · cases h
  | cons c s ih =>
    simp only [find_from] at h
    split at h
    · rename_i hp
      simp only [Option.some.injEq] at h
      exact ⟨0, by omega, Nat.zero_le _, List.isPrefixOf_iff_prefix.mp hp, fun k hk => by omega⟩
    · rename_i hp
      obtain ⟨j, hj, hle, hpre, hmin⟩ := ih (i + 1) h
      refine ⟨j + 1, by omega, by simpa using hle, by simpa using hpre, ?_⟩
      intro k hk
      cases k with
      | zero =>
        intro hpre0
        exact hp (List.isPrefixOf_iff_prefix.mpr hpre0)
      | succ k =>
        simpa using hmin k (by omega)

theorem find_from_none (key s : List Char) (i : Nat) (h : find_from key s i = none) :
    ∀ k, k ≤ s.length → ¬ key <+: s.drop k := by
  induction s generalizing i with
  | nil =>
    simp only [find_from] at h
    split at h
    · cases h
    · rename_i hp
      intro k _ hpre
      rw [List.drop_nil] at hpre
      exact hp (List.isPrefixOf_iff_prefix.mpr hpre)
  | cons c s ih =>
    simp only [find_from] at h
    split at h
    · cases h
    · rename_i hp
      intro k hk
      cases k with
      | zero =>
        intro hpre0
        exact hp (List.isPrefixOf_iff_prefix.mpr hpre0)
      | succ k =>
        simpa using ih (i + 1) h k (by simpa using hk)

/-- What `find` returns is the first index not before `pos` at which `key` begins; the
occurrence lies inside the string. -/
theorem find_some (str key : List Char) (pos p : Nat) (h : find str key pos = some p) :
    pos ≤ p ∧ p + key.length ≤ str.length ∧ key <+: str.drop p
      ∧ ∀ i, pos ≤ i → i < p → ¬ key <+: str.drop i := by
  simp only [find] at h
  split at h
  · rename_i hpos
    obtain ⟨j, hj, hle, hpre, hmin⟩ := find_from_some key (str.drop pos) pos p h
    rw [List.drop_drop] at hpre
    rw [List.length_drop] at hle
    have hpeq : pos + j = p := hj.symm
    rw [hpeq] at hpre
    refine ⟨by omega, ?_, hpre, ?_⟩
    · have := hpre.length_le
      rw [List.length_drop] at this
      omega
    · intro i hi1 hi2
      have := hmin (i - pos) (by omega)
      rw [List.drop_drop] at this
      have he : pos + (i - pos) = i := by omega
      rw [he] at this
      exact this
  · cases h

/-- When `find` returns `npos`, `key` begins nowhere from `pos` on. -/
theorem find_none (str key : List Char) (pos : Nat) (h : find str key pos = none) :
    ∀ i, pos ≤ i → i ≤ str.length → ¬ key <+: str.drop i := by
  intro i hi1 hi2
  simp only [find] at h
  rw [if_pos (by omega)] at h
  have := find_from_none key (str.drop pos) pos h (i - pos) (by rw [List.length_drop]; omega)
  rw [List.drop_drop] at this
  have he : pos + (i - pos) = i := by omega
  rw [he] at this
  exact this

theorem joinstr_snoc (joiner : List Char) (ret : List (List Char)) (last : List Char) :
    joinstr joiner (ret ++ [last]) = (ret.map (fun x => x ++ joiner)).flatten ++ last := by
  induction ret with
  | nil => simp [joinstr]
  | cons x ret ih =>
    cases ret with
    | nil => simp [joinstr]
    | cons y ret =>
      have h : x :: y :: ret ++ [last] = x :: y :: (ret ++ [last]) := rfl
      rw [h, joinstr]
      have h2 : y :: (ret ++ [last]) = (y :: ret) ++ [last] := rfl
      rw [h2, ih]
      simp [List.append_assoc]

/-- The loop of `replace` builds the pieces the loop of `split` collects, each followed by the
replacement. -/
theorem replace_loop_eq_split_loop (str key repl : List Char) (fuel pos : Nat)
    (ret : List (List Char)) :
    replace_loop str key repl fuel pos pos (ret.map (fun x => x ++ repl)).flatten
      = (split_loop str key fuel pos ret).map (joinstr repl) := by
  induction fuel generalizing pos ret with
  | zero => rfl
  | succ fuel ih =>
    simp only [replace_loop, split_loop]
    cases hf : find str key pos with
    | none =>
      simp only [Option.map_some']
      rw [joinstr_snoc]
    | some p =>
      simp only
      rw [← ih]
      congr 1
      simp [List.append_assoc]

/-- With a non-empty separator the loop of `split` ends within `str.length - prev_pos + 1`
rounds. -/
theorem split_loop_returns (str sep : List Char) (hsep : sep ≠ []) (fuel prev_pos : Nat)
    (ret : List (List Char)) (hpos : prev_pos ≤ str.length) (hfuel : str.length < prev_pos + fuel) :
    ∃ r, split_loop str sep fuel prev_pos ret = some r := by
  induction fuel generalizing prev_pos ret with
  | zero => omega
  | succ fuel ih =>
    simp only [split_loop]
    cases hf : find str sep prev_pos with
    | none => exact ⟨_, rfl⟩
    | some p =>
      obtain ⟨h1, h2, -, -⟩ := find_some str sep prev_pos p hf
      have hlen : 0 < sep.length := List.length_pos.mpr hsep
      exact ih (p + sep.length) _ h2 (by omega)

/-- More rounds than the loop of `split` needs do not change its result. -/
theorem split_loop_more_fuel (str sep : List Char) (fuel k prev_pos : Nat)
    (ret r : List (List Char)) (h : split_loop str sep fuel prev_pos ret = some r) :
    split_loop str sep (fuel + k) prev_pos ret = some r := by
  induction fuel generalizing prev_pos ret with
  | zero => cases h
  | succ fuel ih =>
    have hk : fuel + 1 + k = (fuel + k) + 1 := by omega
    rw [hk]
    simp only [split_loop] at h ⊢
    cases hf : find str sep prev_pos with
    | none =>
      rw [hf] at h
      exact h
    | some p =>
      rw [hf] at h
      exact ih _ _ h

/-- Joining the pieces of `split` with the separator gives the string back. -/
theorem joinstr_split_loop (str sep : List Char) (fuel prev_pos : Nat) (ret r : List (List Char))
    (hinv : (ret.map (fun x => x ++ sep)).flatten = str.take prev_pos)
    (h : split_loop str sep fuel prev_pos ret = some r) : joinstr sep r = str := by
  induction fuel generalizing prev_pos ret with
  | zero => cases h
  | succ fuel ih =>
    simp only [split_loop] at h
    cases hf : find str sep prev_pos with
    | none =>
      rw [hf] at h
      simp only [Option.some.injEq] at h
      rw [← h, joinstr_snoc, hinv, List.take_append_drop]
    | some p =>
      rw [hf] at h
      obtain ⟨h1, h2, h3, -⟩ := find_some str sep prev_pos p hf
      refine ih (p + sep.length) _ ?_ h
      rw [List.map_append, List.flatten_append, hinv]
      simp only [List.map_cons, List.map_nil, List.flatten_cons, List.flatten_nil,
        List.append_nil, substr]
      rw [List.take_add, ← List.prefix_iff_eq_take.mp h3, ← List.append_assoc]
      congr 1
      have hp : p = prev_pos + (p - prev_pos) := by omega
      conv_rhs => rw [hp, List.take_add]

theorem occurrence_of_contained (sep l : List Char) (h : sep <:+: l) :
    ∃ j, j + sep.length ≤ l.length ∧ sep <+: l.drop j := by
  obtain ⟨s, t, hst⟩ := h
  refine ⟨s.length, ?_, ?_⟩
  · rw [← hst]
    simp
  · rw [← hst, List.append_assoc, List.drop_left]
    exact List.prefix_append _ _

/-- No piece of `split` contains the separator. -/
theorem split_loop_pieces (str sep : List Char) (hsep : sep ≠ []) (fuel prev_pos : Nat)
    (ret r : List (List Char)) (hinv : ∀ x ∈ ret, ¬ sep <:+: x)
    (h : split_loop str sep fuel prev_pos ret = some r) : ∀ x ∈ r, ¬ sep <:+: x := by
  have hlen : 0 < sep.length := List.length_pos.mpr hsep
  induction fuel generalizing prev_pos ret with
  | zero => cases h
  | succ fuel ih =>
    simp only [split_loop] at h
    cases hf : find str sep prev_pos with
    | none =>
      rw [hf] at h
      simp only [Option.some.injEq] at h
      rw [← h]
      intro x hx
      rcases List.mem_append.mp hx with hx | hx
      · exact hinv x hx
      · rw [List.mem_singleton.mp hx]
        intro hin
        obtain ⟨j, hj1, hj2⟩ := occurrence_of_contained sep _ hin
        rw [List.drop_drop] at hj2
        rw [List.length_drop] at hj1
        exact find_none str sep prev_pos hf (prev_pos + j) (by omega) (by omega) hj2
    | some p =>
      rw [hf] at h
      obtain ⟨h1, h2, -, h4⟩ := find_some str sep prev_pos p hf
      refine ih (p + sep.length) _ ?_ h
      intro x hx
      rcases List.mem_append.mp hx with hx | hx
      · exact hinv x hx
      · rw [List.mem_singleton.mp hx]
        intro hin
        obtain ⟨j, hj1, hj2⟩ := occurrence_of_contained sep _ hin
        simp only [substr, List.length_take, List.length_drop] at hj1
        have hj3 : sep <+: (str.drop prev_pos).drop j := by
          refine hj2.trans ?_
          simp only [substr]
          rw [List.drop_take]
          exact List.take_prefix _ _
        rw [List.drop_drop] at hj3
        exact h4 (prev_pos + j) (by omega) (by omega) hj3

/-- With an empty separator the loop of `split` never ends: `find` keeps returning the
position it was given. -/
theorem split_loop_empty_sep (str : List Char) (fuel prev_pos : Nat) (ret : List (List Char))
    (hpos : prev_pos ≤ str.length) : split_loop str [] fuel prev_pos ret = none := by
  induction fuel generalizing ret with
  | zero => rfl
  | succ fuel ih =>
    have hf : find str [] prev_pos = some prev_pos := by
      simp only [find, if_pos hpos]
      cases hd : str.drop prev_pos <;> simp [find_from]
    simp only [split_loop, hf, List.length_nil, Nat.add_zero]
    exact ih _

/-- C29. For a non-empty `key`, `replace(str, key, repl)` is `joinstr(repl, split(str, key))`:
both calls return, the pieces of `split` joined with `key` are `str` and none of them contains
`key`, so `replace` puts `repl` for each occurrence of `key` that `split` finds from left to
right and keeps the rest; `replace(str, key, key)` is `str`. -/
theorem replace_eq_joinstr_split (str key repl : List Char) (hkey : key ≠ []) :
    ∃ pieces, split str key = some pieces
      ∧ replace str key repl = some (joinstr repl pieces)
      ∧ joinstr key pieces = str
      ∧ replace str key key = some str
      ∧ ∀ x ∈ pieces, ¬ key <:+: x := by
  obtain ⟨pieces, hp⟩ := split_loop_returns str key hkey (str.length + 1) 0 []
    (Nat.zero_le _) (by omega)
  have hrepl : ∀ r, replace str key r = some (joinstr r pieces) := by
    intro r
    have h := replace_loop_eq_split_loop str key r (str.length + 1) 0 []
    rw [hp] at h
    exact h
  have hjoin : joinstr key pieces = str :=
    joinstr_split_loop str key (str.length + 1) 0 [] pieces rfl hp
  refine ⟨pieces, hp, hrepl repl, hjoin, ?_, ?_⟩
  · rw [hrepl key, hjoin]
  · exact split_loop_pieces str key hkey (str.length + 1) 0 [] pieces
      (fun x hx => by cases hx) hp

theorem replace_eq_joinstr_split_witness :
    ",".toList ≠ []
    ∧ replace "a,b,,c".toList ",".toList "--".toList = some "a--b----c".toList
    ∧ ∃ pieces, split "a,b,,c".toList ",".toList = some pieces
      ∧ replace "a,b,,c".toList ",".toList "--".toList = some (joinstr "--".toList pieces)
      ∧ joinstr ",".toList pieces = "a,b,,c".toList
      ∧ replace "a,b,,c".toList ",".toList ",".toList = some "a,b,,c".toList
      ∧ ∀ x ∈ pieces, ¬ ",".toList <:+: x :=
  ⟨by decide, by decide,
   replace_eq_joinstr_split "a,b,,c".toList ",".toList "--".toList (by decide)⟩

/-- C30. For a non-empty separator or key the loops of `split_view`, `split` and `replace`
end: each round moves the scan position forward (the position after an occurrence found at or
after the old position is greater than the old position) and keeps it within the length of
`str`, so `str.length + 1` rounds are enough, and more rounds give the same result. -/
theorem scanning_loops_terminate (str sep : List Char) (hsep : sep ≠ []) :
    (∀ prev_pos pos, find str sep prev_pos = some pos →
        prev_pos < pos + sep.length ∧ pos + sep.length ≤ str.length)
    ∧ (∃ r, split_view str sep = some r)
    ∧ (∃ r, split str sep = some r)
    ∧ (∀ repl, ∃ r, replace str sep repl = some r)
    ∧ (∀ k, split_loop str sep (str.length + 1 + k) 0 [] = split str sep)
    ∧ (∀ repl k, replace_loop str sep repl (str.length + 1 + k) 0 0 [] = replace str sep repl) := by
  have hlen : 0 < sep.length := List.length_pos.mpr hsep
  obtain ⟨pieces, hp⟩ := split_loop_returns str sep hsep (str.length + 1) 0 []
    (Nat.zero_le _) (by omega)
  have hmore : ∀ k, split_loop str sep (str.length + 1 + k) 0 [] = some pieces :=
    fun k => split_loop_more_fuel str sep (str.length + 1) k 0 [] pieces hp
  refine ⟨?_, ⟨pieces, hp⟩, ⟨pieces, hp⟩, ?_, ?_, ?_⟩
  · intro prev_pos pos hf
    obtain ⟨h1, h2, -, -⟩ := find_some str sep prev_pos pos hf
    exact ⟨by omega, h2⟩
  · intro repl
    have h := replace_loop_eq_split_loop str sep repl (str.length + 1) 0 []
    rw [hp] at h
    exact ⟨_, h⟩
  · intro k
    rw [hmore k]
    exact hp.symm
  · intro repl k
    have h1 := replace_loop_eq_split_loop str sep repl (str.length + 1 + k) 0 []
    have h2 := replace_loop_eq_split_loop str sep repl (str.length + 1) 0 []
    rw [hmore k] at h1
    rw [hp] at h2
    exact h1.trans h2.symm

theorem scanning_loops_terminate_witness :
    "aa".toList ≠ []
    ∧ split "aaa".toList "aa".toList = some ["".toList, "a".toList]
    ∧ (∃ r, split_view "aaa".toList "aa".toList = some r)
    ∧ (∀ repl, ∃ r, replace "aaa".toList "aa".toList repl = some r) :=
  ⟨by decide, by decide,
   (scanning_loops_terminate "aaa".toList "aa".toList (by decide)).2.1,
   (scanning_loops_terminate "aaa".toList "aa".toList (by decide)).2.2.2.1⟩

/-! ### What a successful update does keep -/

theorem filter_map_other_names (rows : List pkg_remote_row) (name : String)
    (f : pkg_remote_row → pkg_remote_row) (hf : ∀ x, (f x).name = x.name) :
    (rows.map (fun x => if x.name == name then f x else x)).filter (fun x => !(x.name == name))
      = rows.filter (fun x => !(x.name == name)) := by
  induction rows with
  | nil => rfl
  | cons x rows ih =>
    by_cases hx : x.name = name
    · have h1 : (x.name == name) = true := by simpa using hx
      have h2 : ((f x).name == name) = true := by simpa [hf x] using hx
      simp only [List.map_cons, h1, if_true, List.filter_cons, h2, Bool.not_true,
        Bool.false_eq_true, if_false, ih]
    · have h1 : (x.name == name) = false := by simpa using hx
      simp only [List.map_cons, h1, Bool.false_eq_true, if_false, List.filter_cons,
        Bool.not_false, if_true, ih]

/-- A successful update keeps the package rows that do not belong to the remote and the rows
of the other remotes: the `DELETE` and the `INSERT INTO dds_pkgs` carry the `remote_id`, the
two `UPDATE` statements the name of the remote. -/
theorem update_transaction_keeps_others {r : pkg_remote} {rid : Int} {base : String}
    {index : remote_index} {etag lm : Option String} {ic : List String} {db db1 : pkg_db}
    (h : update_transaction r rid base index etag lm ic db = .ok db1) :
    db1.dds_pkgs.filter (fun p => !(p.remote_id == some rid))
        = db.dds_pkgs.filter (fun p => !(p.remote_id == some rid))
    ∧ db1.dds_pkg_remotes.filter (fun x => !(x.name == r._name))
        = db.dds_pkg_remotes.filter (fun x => !(x.name == r._name)) := by
  constructor
  · obtain ⟨pkgs, news, -, hrows, hmap⟩ := update_transaction_pkgs h
    rw [hrows, List.filter_append, List.filter_filter]
    have hnews : news.filter (fun p => !(p.remote_id == some rid)) = [] := by
      rw [List.filter_eq_nil_iff]
      intro p hp
      have hmem : (p.name, p.version, p.description, p.remote_url, p.remote_id)
          ∈ news.map (fun p => (p.name, p.version, p.description, p.remote_url, p.remote_id)) :=
        List.mem_map.mpr ⟨p, hp, rfl⟩
      rw [hmap] at hmem
      obtain ⟨x, -, hx⟩ := List.mem_map.mp hmem
      have hrid : p.remote_id = some rid := by
        have := congrArg (fun t => t.2.2.2.2) hx
        exact this.symm
      simp [hrid]
    rw [hnews, List.append_nil]
    congr 1
    funext p
    simp
  · unfold update_transaction at h
    simp only at h
    split at h
    · cases h
    · rename_i pkgs hidx
      split at h
      · cases h
      · rename_i db2 himp
        split at h
        · cases h
        · split at h
          · cases h
          · rename_i db3 hdeps
            split at h
            · cases h
            · simp only [Except.ok.injEq] at h
              obtain ⟨news, -, -, -, hr2⟩ := import_packages_rows himp
              obtain ⟨-, hr3⟩ := import_deps_tables hdeps
              have hbase : db3.dds_pkg_remotes = db.dds_pkg_remotes := by
                rw [hr3, hr2]
                rfl
              rw [← h]
              cases etag with
              | none =>
                cases lm with
                | none => simp only [hbase]
                | some mtime =>
                  simp only [set_db_mtime, hbase]
                  exact filter_map_other_names _ _ (fun x => { x with db_mtime := some mtime })
                    (fun x => rfl)
              | some new_etag =>
                cases lm with
                | none =>
                  simp only [set_db_etag, hbase]
                  exact filter_map_other_names _ _ (fun x => { x with db_etag := some new_etag })
                    (fun x => rfl)
                | some mtime =>
                  simp only [set_db_mtime, set_db_etag, hbase]
                  rw [filter_map_other_names _ _ (fun x => { x with db_mtime := some mtime })
                    (fun x => rfl)]
                  exact filter_map_other_names _ _ (fun x => { x with db_etag := some new_etag })
                    (fun x => rfl)

/-! ### Interruptions of `add_sdist` into a destination that does not exist yet -/

theorem lookup_map_other (fs : filesystem) (p q : String) (k : Nat) (hq : q ≠ p) :
    List.lookup q (fs.map (fun e => if e.1 == p then (e.1, e.2.drop k) else e))
      = List.lookup q fs := by
  induction fs with
  | nil => rfl
  | cons e fs ih =>
    obtain ⟨key, v⟩ := e
    by_cases hk : key = p
    · subst hk
      have h1 : (q == key) = false := by simpa using hq
      simp only [List.map_cons, beq_self_eq_true, if_true, List.lookup_cons, h1, ih]
    · have h1 : (key == p) = false := by simpa using hk
      simp only [List.map_cons, h1, Bool.false_eq_true, if_false, List.lookup_cons, ih]

theorem lookup_remove_all_states (fs : filesystem) (p q : String) (hq : q ≠ p) :
    ∀ st ∈ remove_all_states fs p, List.lookup q st = List.lookup q fs := by
  intro st hst
  unfold remove_all_states at hst
  cases hl : List.lookup p fs with
  | none =>
    rw [hl] at hst
    rw [List.mem_singleton.mp hst]
  | some tree =>
    rw [hl] at hst
    rcases List.mem_append.mp hst with h | h
    · obtain ⟨k, -, hk⟩ := List.mem_map.mp h
      rw [← hk]
      exact lookup_map_other fs p q k hq
    · rw [List.mem_singleton.mp h, lookup_filter_ne, if_neg hq]

theorem lookup_copy_states (fs : filesystem) (src dst q : String) (hq : q ≠ dst) :
    ∀ st ∈ copy_states fs src dst, List.lookup q st = List.lookup q fs := by
  intro st hst
  have hqd : (q == dst) = false := by simpa using hq
  unfold copy_states at hst
  cases hl : List.lookup src fs with
  | none =>
    rw [hl] at hst
    rw [List.mem_singleton.mp hst]
  | some tree =>
    rw [hl] at hst
    simp only at hst
    split at hst
    · rw [List.mem_singleton.mp hst]
    · rcases List.mem_cons.mp hst with h | h
      · rw [h]
      · obtain ⟨k, -, hk⟩ := List.mem_map.mp h
        rw [← hk, List.lookup_append]
        simp [List.lookup_cons, hqd]

/-- When `root/<name>@<version>` does not exist before the call, no interruption of the
filesystem calls of `add_sdist`, inside a call or between two calls, leaves it half written:
in every state the disk passes through it does not exist or holds the whole tree of the
directory of the new sdist. -/
theorem add_sdist_interrupted_new_destination (fs : filesystem) (root : String) (sd : sdist)
    (hnew : List.lookup (path_join root sd.manifest.id.to_string) fs = none) :
    ∀ st ∈ interrupted_states fs (add_sdist_steps root sd),
      List.lookup (path_join root sd.manifest.id.to_string) st = none
      ∨ (List.lookup (path_join root sd.manifest.id.to_string) st = List.lookup sd.path fs
          ∧ (List.lookup sd.path fs).isSome = true) := by
  have hne := dest_ne_tmp root sd.manifest.id
  have hne1 : (path_join root ".tmp-import" == path_join root sd.manifest.id.to_string) = false := by
    rw [beq_eq_false_iff_ne]
    exact fun h => hne h.symm
  have hne2 : (path_join root sd.manifest.id.to_string == path_join root ".tmp-import") = false := by
    rw [beq_eq_false_iff_ne]
    exact hne
  have hkeep : List.lookup (path_join root sd.manifest.id.to_string)
      (fs.filter (fun e => !(e.1 == path_join root ".tmp-import"))) = none := by
    rw [lookup_filter_ne, if_neg hne, hnew]
  intro st hst
  simp only [add_sdist_steps, interrupted_states, fs_step.states, fs_step.run,
    List.mem_append, List.mem_singleton] at hst
  rcases hst with h | h | h
  · left
    rw [lookup_remove_all_states fs _ _ hne st h, hnew]
  · left
    rw [h, hkeep]
  · rcases h with h | h
    · left
      rw [lookup_copy_states _ _ _ _ hne st h, hkeep]
    · cases hsrc : List.lookup sd.path
          (fs.filter (fun e => !(e.1 == path_join root ".tmp-import"))) with
      | none =>
        rw [hsrc] at h
        simp at h
      | some tree =>
        have hsrc1 : List.lookup sd.path fs = some tree := by
          rw [lookup_filter_ne] at hsrc
          by_cases hp : sd.path = path_join root ".tmp-import"
          · rw [if_pos hp] at hsrc
            cases hsrc
          · rw [if_neg hp] at hsrc
            exact hsrc
        have hb : List.lookup (path_join root sd.manifest.id.to_string)
            (fs.filter (fun e => !(e.1 == path_join root ".tmp-import"))
              ++ [(path_join root ".tmp-import", tree)]) = none := by
          rw [List.lookup_append, hkeep]
          simp [List.lookup_cons, hne2]
        have hl : List.lookup (path_join root ".tmp-import")
            (List.filter (fun e => !(e.1 == path_join root sd.manifest.id.to_string))
              (fs.filter (fun e => !(e.1 == path_join root ".tmp-import"))
                ++ [(path_join root ".tmp-import", tree)])) = some tree := by
          rw [List.filter_append, List.lookup_append, lookup_filter_ne,
            if_neg (fun h => hne h.symm), lookup_filter_ne, if_pos rfl]
          simp [List.filter_cons, hne1, List.lookup_cons]
        have hd : List.lookup (path_join root sd.manifest.id.to_string)
            (List.filter (fun e => !(e.1 == path_join root ".tmp-import"))
                (List.filter (fun e => !(e.1 == path_join root sd.manifest.id.to_string))
                  (fs.filter (fun e => !(e.1 == path_join root ".tmp-import"))
                    ++ [(path_join root ".tmp-import", tree)]))
              ++ [(path_join root sd.manifest.id.to_string, tree)]) = some tree := by
          rw [List.lookup_append, lookup_filter_ne, if_neg hne, lookup_filter_ne, if_pos rfl]
          simp [List.lookup_cons]
        rw [hsrc] at h
        simp only [exists_filter_self, Bool.false_eq_true, if_false, interrupted_states,
          fs_step.states, fs_step.run, List.mem_append, hl, List.mem_cons, List.mem_singleton,
          List.not_mem_nil, or_false] at h
        rcases h with h | (h | h) | h
        · left
          unfold remove_all_states at h
          rw [hb] at h
          rw [List.mem_singleton.mp h, hb]
        · left
          rw [h, lookup_filter_ne, if_pos rfl]
        · right
          rw [h, hd, hsrc1]
          exact ⟨rfl, rfl⟩
        · right
          rw [h, hd, hsrc1]
          exact ⟨rfl, rfl⟩

end dds
